import Mathlib

/-!
# KDI: cells and the on-disk fragment writer

A shallow embedding of `sdstore::Cell` (`kdi/sdstore_cell.h`), of
`kdi::server::DiskWriter` (`kdi/server/DiskWriter.cc`) and of
`kdi::marshal::CellBlockBuilder` (`kdi/marshal/cell_block_builder.h`).

Conventions of the embedding

* byte strings (`warp::StringRange`, `strref_t`) are lists of bytes, ordered
  lexicographically;
* `int64_t` timestamps are integers (they are only stored and compared);
* `size_t` / `uint32_t` counters and sizes are natural numbers: the item count
  of a block (`uint32_t nItems`) could only wrap in a block of `2^32` cells,
  which the 32-bit offsets of a record cannot address;
* a failed `assert` is the result `none`; a raised exception is `Except.error`.
-/

namespace Kdi

/-- One byte of a row, column or value. -/
abbrev Byte := Fin 256

/-- A byte string (`warp::StringRange`); `<` is the lexicographic order on bytes. -/
abbrev Bytes := List Byte

/-- Modelled from the spec: `warp::string_compare` (warp/strutil.h) is not among
the sources.  It is the three-way byte-lexicographic comparison the spec names
("row ascending, column ascending (both byte-lexicographic)"): negative when the
first string sorts first, zero when the strings are equal, positive otherwise. -/
def string_compare : Bytes → Bytes → Int
  | [], [] => 0
  | [], _ :: _ => -1
  | _ :: _, [] => 1
  | a :: as, b :: bs =>
    if a < b then -1 else if b < a then 1 else string_compare as bs

/-! ## `sdstore::Cell` -/

/-- The class `CellInterpreter`: a table of accessors over opaque cell data `D`.
`addr` is the address of the interpreter object, which `Cell::operator<`
compares. -/
structure CellInterpreter (D : Type) where
  addr : Nat
  getRow : D → Bytes
  getColumn : D → Bytes
  getValue : D → Bytes
  getTimestamp : D → Int
  isErasure : D → Bool
  isLess : D → D → Bool

/-- The class `Cell`: an interpreter pointer (`none` is the null pointer) and a
data pointer. -/
structure Cell (D : Type) where
  interp : Option (CellInterpreter D)
  data : D

namespace Cell

variable {D : Type}

/-- The method `Cell::isNull`. -/
def isNull (c : Cell D) : Bool := c.interp.isNone

/-- The method `Cell::getRow`: `assert(!isNull())`, then `interp->getRow(data)`. -/
def getRow (c : Cell D) : Option Bytes := c.interp.map fun i => i.getRow c.data

/-- The method `Cell::getColumn`. -/
def getColumn (c : Cell D) : Option Bytes := c.interp.map fun i => i.getColumn c.data

/-- The method `Cell::getValue`. -/
def getValue (c : Cell D) : Option Bytes := c.interp.map fun i => i.getValue c.data

/-- The method `Cell::getTimestamp`. -/
def getTimestamp (c : Cell D) : Option Int := c.interp.map fun i => i.getTimestamp c.data

/-- The method `Cell::isErasure`. -/
def isErasure (c : Cell D) : Option Bool := c.interp.map fun i => i.isErasure c.data

/-- The operator `Cell::operator==`, with the left-to-right, short-circuit
evaluation of `&&`. -/
def opEq (a o : Cell D) : Option Bool := do
  let r₁ ← a.getRow
  let r₂ ← o.getRow
  if r₁ = r₂ then
    let c₁ ← a.getColumn
    let c₂ ← o.getColumn
    if c₁ = c₂ then
      let t₁ ← a.getTimestamp
      let t₂ ← o.getTimestamp
      pure (decide (t₁ = t₂))
    else pure false
  else pure false

/-- The `else` branch of `Cell::operator<`, taken when the two cells have
different interpreters. -/
def lessGeneric (a o : Cell D) : Option Bool := do
  let r₁ ← a.getRow
  let r₂ ← o.getRow
  let cmp := string_compare r₁ r₂
  if cmp ≠ 0 then pure (decide (cmp < 0))
  else
    let c₁ ← a.getColumn
    let c₂ ← o.getColumn
    let cmp := string_compare c₁ c₂
    if cmp ≠ 0 then pure (decide (cmp < 0))
    else
      let t₂ ← o.getTimestamp
      let t₁ ← a.getTimestamp
      pure (decide (t₂ < t₁))

/-- The operator `Cell::operator<`. -/
def opLt (a o : Cell D) : Option Bool :=
  match a.interp with
  | none => none
  | some i =>
    if some i.addr = o.interp.map (fun j => j.addr) then
      some (i.isLess a.data o.data)
    else lessGeneric a o

end Cell

/-! ## Builders: string pool, pooled arrays, records

`warp::StringPoolBuilder`, `warp::BuilderBlock`, `oort::RecordBuilder`,
`oort::Record` and `warp::adler32` are used by the writer but are not among the
sources; they are modelled from the spec. -/

/-- A relocatable string reference, as passed to `BuilderBlock::appendOffset`:
`appendOffset(0)` is `null`, `appendOffset(b, r)` with `b` the pool's string
block is `pool r`. -/
inductive Ref where
  | null
  | pool (off : Nat)
  deriving DecidableEq, Repr

/-- Modelled from the spec: `warp::StringPoolBuilder` is not among the sources.
The spec calls it a "deduplicating byte-string pool" whose strings are
"referenced by offset" from the base of the string block.  `entries` lists the
pooled strings with their offsets, `dataSz` is the size of the string block.
That a pooled string takes a 32-bit length followed by its bytes is a choice of
the model. -/
structure StringPoolBuilder where
  entries : List (Nat × Bytes)
  dataSz : Nat
  deriving DecidableEq, Repr

namespace StringPoolBuilder

/-- The pool after `StringPoolBuilder::reset`: no string, empty block. -/
def reset : StringPoolBuilder := ⟨[], 0⟩

/-- The method `getStringOffset`: the offset of the string in the pool's block; a
string already pooled keeps its offset, a new one is added at the end. -/
def getStringOffset (p : StringPoolBuilder) (s : Bytes) : Nat × StringPoolBuilder :=
  match p.entries.find? (fun e => e.2 = s) with
  | some e => (e.1, p)
  | none => (p.dataSz, ⟨p.entries ++ [(p.dataSz, s)], p.dataSz + (4 + s.length)⟩)

/-- The method `getDataSize`. -/
def getDataSize (p : StringPoolBuilder) : Nat := p.dataSz

end StringPoolBuilder

/-- The string stored at an offset of a string block. -/
def lookupString (strings : List (Nat × Bytes)) (off : Nat) : Option Bytes :=
  (strings.find? (fun e => e.1 = off)).map (fun e => e.2)

/-- The struct `disk::CellData`: key (row, column, timestamp), value, padding. -/
structure CellData where
  row : Ref
  column : Ref
  timestamp : Int
  value : Ref
  pad : Nat
  deriving DecidableEq, Repr

/-- The struct `disk::IndexEntryV1`, followed by the padding to 8 bytes. -/
structure IndexEntryV1 where
  checkSum : Nat
  row : Ref
  blockOffset : Nat
  lowestTime : Int
  highestTime : Int
  colFamilyMask : Nat
  deriving DecidableEq, Repr

/-- Size in bytes of one `CellData`: three 32-bit offsets, a 64-bit timestamp
and a 32-bit pad. -/
def CellData.size : Nat := 24

/-- Size in bytes of one `IndexEntryV1` with its padding to 8 bytes. -/
def IndexEntryV1.size : Nat := 40

/-- Modelled from the spec: a built `oort::Record` (`RecordBuilder::build` is not
among the sources).  The main block holds the array's offset and `nItems`, and,
when `addFams` is set, the family array's offset and `nFams`; the array, the
family array and the string block follow. -/
structure Record (α : Type) where
  nItems : Nat
  arr : List α
  fams : Option (List Ref × Nat)
  strings : List (Nat × Bytes)
  deriving DecidableEq, Repr

/-- The members that the constructors `PooledBuilder()` and `Impl(blockSize)`
leave unassigned: `fams` and `nFams` of the two builders, the time range and the
two masks of the writer.  They hold whatever the memory held; the definitions
that construct a writer take them as a parameter and the theorems hold for
every value of them. -/
class Unassigned where
  blockFams : List Ref
  blockNFams : Nat
  indexFams : List Ref
  indexNFams : Nat
  lowestTime : Int
  highestTime : Int
  nextColMask : Nat
  curColMask : Nat

/-- The values of the unassigned members in the concrete instances of the
theorems: none of them is the value that `open` assigns. -/
instance staleMemory : Unassigned :=
  { blockFams := [Ref.pool 7], blockNFams := 3, indexFams := [Ref.null, Ref.pool 2],
    indexNFams := 5, lowestTime := -1, highestTime := 9, nextColMask := 4, curColMask := 2 }

/-- The struct `PooledBuilder` of DiskWriter.cc; `elemSize` is the size of one
array element, so that `arr->size()` is `elemSize * arr.length`. -/
structure PooledBuilder (α : Type) where
  elemSize : Nat
  pool : StringPoolBuilder
  arr : List α
  fams : List Ref
  nItems : Nat
  addFams : Bool
  nFams : Nat

namespace PooledBuilder

variable {α : Type}

/-- The constructor `PooledBuilder()`: it initialises `builder`, `pool`, `arr`,
`nItems(0)` and `addFams(false)`.  `fams` and `nFams` are not in its initialiser
list: they keep the values `fams` and `nFams` that the memory held. -/
def new (elemSize : Nat) (fams : List Ref) (nFams : Nat) : PooledBuilder α :=
  { elemSize := elemSize, pool := StringPoolBuilder.reset, arr := [], fams := fams,
    nItems := 0, addFams := false, nFams := nFams }

/-- The method `PooledBuilder::reset`. -/
def reset (b : PooledBuilder α) : PooledBuilder α :=
  { b with pool := StringPoolBuilder.reset, arr := [], fams := [], nItems := 0 }

/-- The method `PooledBuilder::build`. -/
def build (b : PooledBuilder α) : Record α :=
  { nItems := b.nItems, arr := b.arr,
    fams := if b.addFams then some (b.fams, b.nFams) else none,
    strings := b.pool.entries }

/-- The method `PooledBuilder::getDataSize`. -/
def getDataSize (b : PooledBuilder α) : Nat :=
  b.pool.getDataSize + b.elemSize * b.arr.length + 8

end PooledBuilder

/-! ## Bytes of a record, checksum, files -/

/-- The `k` low bytes of `n`, least significant first. -/
def leBytes : Nat → Nat → Bytes
  | 0, _ => []
  | k + 1, n => ⟨n % 256, Nat.mod_lt _ (by decide)⟩ :: leBytes k (n / 256)

/-- Modelled from the spec: the flattened value of a reference ("offsets are
32-bit record-relative"): 0 for null, else the position of the string block in
the record plus the offset in that block. -/
def Ref.toOffset (stringsBase : Nat) : Ref → Nat
  | Ref.null => 0
  | Ref.pool off => stringsBase + off

/-- The bytes of a string block: each string as a 32-bit length and its bytes. -/
def stringsBytes (strings : List (Nat × Bytes)) : Bytes :=
  strings.flatMap fun e => leBytes 4 e.2.length ++ e.2

/-- The bytes of one `CellData`. -/
def CellData.bytes (stringsBase : Nat) (c : CellData) : Bytes :=
  leBytes 4 (c.row.toOffset stringsBase) ++ leBytes 4 (c.column.toOffset stringsBase) ++
  leBytes 8 (c.timestamp % 2 ^ 64).toNat ++ leBytes 4 (c.value.toOffset stringsBase) ++
  leBytes 4 c.pad

/-- The bytes of one `IndexEntryV1` and its padding. -/
def IndexEntryV1.bytes (stringsBase : Nat) (e : IndexEntryV1) : Bytes :=
  leBytes 4 e.checkSum ++ leBytes 4 (e.row.toOffset stringsBase) ++ leBytes 8 e.blockOffset ++
  leBytes 8 (e.lowestTime % 2 ^ 64).toNat ++ leBytes 8 (e.highestTime % 2 ^ 64).toNat ++
  leBytes 4 e.colFamilyMask ++ leBytes 4 0

/-- Modelled from the spec: the data of a built record (`Record::getData`), the
main block followed by the array, the family array and the string block, with
little-endian integers. -/
def Record.getData {α : Type} (elemSize : Nat) (elemBytes : Nat → α → Bytes)
    (r : Record α) : Bytes :=
  let mainSize := match r.fams with
    | none => 8
    | some _ => 16
  let famsLen := match r.fams with
    | none => 0
    | some f => f.1.length
  let famsBase := mainSize + elemSize * r.arr.length
  let stringsBase := famsBase + 4 * famsLen
  let main := leBytes 4 mainSize ++ leBytes 4 r.nItems ++
    (match r.fams with
     | none => []
     | some f => leBytes 4 famsBase ++ leBytes 4 f.2)
  let fams := match r.fams with
    | none => []
    | some f => f.1.flatMap fun x => leBytes 4 (x.toOffset stringsBase)
  main ++ r.arr.flatMap (elemBytes stringsBase) ++ fams ++ stringsBytes r.strings

/-- Modelled from the spec: `warp::adler32` (warp/adler.h) is not among the
sources; the Adler-32 checksum of a byte string. -/
def adler32 (data : Bytes) : Nat :=
  let ab := data.foldl
    (fun (ab : Nat × Nat) (x : Byte) =>
      let a := (ab.1 + x.val) % 65521
      (a, (ab.2 + a) % 65521))
    (1, 0)
  ab.2 * 65536 + ab.1

/-- A record of a fragment file: a cell block, the block index, or the
`TableInfo` footer holding the index offset. -/
inductive FileRecord where
  | cellBlock (r : Record CellData)
  | blockIndex (r : Record IndexEntryV1)
  | tableInfo (indexOffset : Nat)
  deriving DecidableEq, Repr

/-- The data bytes of a file record (`Record::getData`, `Record::getLength`). -/
def FileRecord.getData : FileRecord → Bytes
  | FileRecord.cellBlock r => r.getData CellData.size CellData.bytes
  | FileRecord.blockIndex r => r.getData IndexEntryV1.size IndexEntryV1.bytes
  | FileRecord.tableInfo off => leBytes 8 off

/-- Modelled from the spec: the size a record takes in the file: the typed
header (16 bytes: the `TableInfo` record of 8 data bytes is "the last 24
bytes") and the data. -/
def FileRecord.fileSize (r : FileRecord) : Nat := 16 + r.getData.length

/-- The contents of a file written through `oort::FileOutput`: its records in
the order they were put. -/
abbrev File := List FileRecord

/-- The position after the last record (`fp->tell()` of a file being written). -/
def File.tell (f : File) : Nat := (f.map FileRecord.fileSize).sum

/-- The record that starts at a byte offset of the file, if one starts there. -/
def File.readAt : File → Nat → Option FileRecord
  | [], _ => none
  | r :: rest, off =>
    if off = 0 then some r
    else if off < r.fileSize then none
    else File.readAt rest (off - r.fileSize)

/-- The file system: the contents of each named file (empty when absent). -/
abbrev FS := String → File

/-- The function `File::output(fn)`: the file is created or truncated. -/
def FS.output (fs : FS) (fn : String) : FS := Function.update fs fn []

/-- The method `FileOutput::put` on the file a handle names. -/
def FS.put (fs : FS) (fp : String) (r : FileRecord) : FS :=
  Function.update fs fp (fs fp ++ [r])

/-! ## `DiskWriter::Impl` -/

/-- The errors the embedded code can end with: the exception `ex::RuntimeError`
with its message, and the dereference of a null pointer. -/
inductive Error where
  | RuntimeError (msg : String)
  | nullPointer
  deriving DecidableEq, Repr

/-- The class `DiskWriter::Impl`.  `fp` is the file being written (`none` is the
null pointer); `output`, the record stream made over `fp`, is kept with it. -/
structure Impl where
  fp : Option String
  blockSize : Nat
  block : PooledBuilder CellData
  index : PooledBuilder IndexEntryV1
  cellCount : Nat
  lowestTime : Int
  highestTime : Int
  colFamilyMasks : List (Nat × Nat)
  nextColMask : Nat
  curColMask : Nat

namespace Impl

/-- The constructor `Impl(blockSize)`: `blockSize`, `cellCount(0)`, the two
builders default-constructed with their headers set, `fp` null and
`colFamilyMasks` an empty map.  `lowestTime`, `highestTime`, `nextColMask` and
`curColMask` are not assigned: they keep the values of `u`, as do `fams` and
`nFams` of the builders, until `open` assigns them. -/
def new [u : Unassigned] (blockSize : Nat) : Impl :=
  { fp := none, blockSize := blockSize,
    block := PooledBuilder.new CellData.size u.blockFams u.blockNFams,
    index := PooledBuilder.new IndexEntryV1.size u.indexFams u.indexNFams,
    cellCount := 0, lowestTime := u.lowestTime, highestTime := u.highestTime,
    colFamilyMasks := [], nextColMask := u.nextColMask, curColMask := u.curColMask }

/-- The method `Impl::open` (`open` is a keyword of Lean). -/
def open_ (s : Impl) (out : String) : Impl :=
  { s with
    fp := some out
    block := s.block.reset
    index := s.index.reset
    lowestTime := 0
    highestTime := 0
    colFamilyMasks := []
    nextColMask := 1
    curColMask := 0 }

/-- The method `Impl::addCell`; the update of the column-family mask is commented
out in the source. -/
def addCell (s : Impl) (row column : Bytes) (timestamp : Int) (value : Bytes)
    (isErasure : Bool) : Impl :=
  let (r, pool₁) := s.block.pool.getStringOffset row
  let (c, pool₂) := pool₁.getStringOffset column
  let t := timestamp
  let (v, pool₃) :=
    if !isErasure then
      let (v, pool₃) := pool₂.getStringOffset value
      (Ref.pool v, pool₃)
    else (Ref.null, pool₂)
  let cell : CellData := { row := Ref.pool r, column := Ref.pool c, timestamp := t, value := v, pad := 0 }
  let nItems := s.block.nItems + 1
  let block := { s.block with pool := pool₃, arr := s.block.arr ++ [cell], nItems := nItems }
  if nItems = 1 then
    { s with block := block, lowestTime := t, highestTime := t }
  else
    { s with
      block := block
      lowestTime := if t < s.lowestTime then t else s.lowestTime
      highestTime := if t > s.highestTime then t else s.highestTime }

/-- The last row of a built cell block, as `addIndexEntry` reads it:
`*cells[cells.size() - 1].key.row`.  It is `none` when the access is out of
bounds or the row reference is null. -/
def lastRowOf (cbRec : Record CellData) : Option Bytes :=
  if cbRec.nItems = 0 then none
  else
    match cbRec.arr.get? (cbRec.nItems - 1) with
    | none => none
    | some lastCell =>
      match lastCell.row with
      | Ref.null => none
      | Ref.pool off => lookupString cbRec.strings off

/-- The method `Impl::addIndexEntry`. -/
def addIndexEntry (s : Impl) (fs : FS) (cbRec : Record CellData) : Option Impl := do
  let lastRow ← lastRowOf cbRec
  let (r, pool) := s.index.pool.getStringOffset lastRow
  let cbChecksum := adler32 (FileRecord.cellBlock cbRec).getData
  let fp ← s.fp
  let entry : IndexEntryV1 :=
    { checkSum := cbChecksum, row := Ref.pool r, blockOffset := (fs fp).tell,
      lowestTime := s.lowestTime, highestTime := s.highestTime,
      colFamilyMask := s.curColMask }
  pure { s with
    index := { s.index with pool := pool, arr := s.index.arr ++ [entry],
                            nItems := s.index.nItems + 1 }
    curColMask := 0 }

/-- The method `Impl::writeCellBlock`: build the record, add its index entry,
put the record and reset the block builder. -/
def writeCellBlock (s : Impl) (fs : FS) : Option (Impl × FS) := do
  let r := s.block.build
  let s₁ ← s.addIndexEntry fs r
  let fp ← s₁.fp
  pure ({ s₁ with block := s₁.block.reset }, fs.put fp (FileRecord.cellBlock r))

/-- The method `Impl::writeBlockIndex`; one family offset is appended per entry
of `colFamilyMasks`. -/
def writeBlockIndex (s : Impl) (fs : FS) : Option (Impl × FS) := do
  let fams := s.index.fams ++ s.colFamilyMasks.map (fun p => Ref.pool p.1)
  let nFams := s.colFamilyMasks.length
  let index := { s.index with fams := fams, addFams := true, nFams := nFams }
  let fp ← s.fp
  pure ({ s with index := index.reset }, fs.put fp (FileRecord.blockIndex index.build))

/-- The method `Impl::close`. -/
def close (s : Impl) (fs : FS) : Option (Impl × FS) := do
  let (s₁, fs₁) ← if s.block.nItems ≠ 0 then s.writeCellBlock fs else pure (s, fs)
  let fp ← s₁.fp
  let indexOffset := (fs₁ fp).tell
  let (s₂, fs₂) ← s₁.writeBlockIndex fs₁
  let fp₂ ← s₂.fp
  let fs₃ := fs₂.put fp₂ (FileRecord.tableInfo indexOffset)
  pure ({ s₂ with fp := none }, fs₃)

/-- The method `Impl::emit`. -/
def emit (s : Impl) (fs : FS) (row column : Bytes) (timestamp : Int) (value : Bytes)
    (isErasure : Bool) : Option (Impl × FS) :=
  let s₁ := { s with cellCount := s.cellCount + 1 }
  let s₂ := s₁.addCell row column timestamp value isErasure
  if s₂.block.getDataSize ≥ s₂.blockSize then s₂.writeCellBlock fs
  else some (s₂, fs)

/-- The method `Impl::getDataSize`. -/
def getDataSize (s : Impl) (fs : FS) : Option Nat := do
  let fp ← s.fp
  pure ((fs fp).tell + s.block.getDataSize + s.index.getDataSize)

/-- The method `Impl::getCellCount`. -/
def getCellCount (s : Impl) : Nat := s.cellCount

end Impl

/-! ## `DiskWriter` -/

/-- The class `DiskWriter`: `impl` is null (`none`) while the writer is closed. -/
structure DiskWriter where
  impl : Option Impl
  fn : String
  blockSize_deprecated : Nat

namespace DiskWriter

/-- The outcome of a call: the value returned or the error raised, with the
writer and the file system as the call leaves them. -/
abbrev Outcome (α : Type) := Except Error α × DiskWriter × FS

/-- The constructor `DiskWriter(out, fn, blockSize)`. -/
def newOpen [Unassigned] (out : String) (fn : String) (blockSize : Nat) : DiskWriter :=
  { impl := some ((Impl.new blockSize).open_ out), fn := fn, blockSize_deprecated := blockSize }

/-- The constructor `DiskWriter(blockSize)`: a closed writer. -/
def new (blockSize : Nat) : DiskWriter :=
  { impl := none, fn := "", blockSize_deprecated := blockSize }

/-- The method `DiskWriter::open` (`open` is a keyword of Lean). -/
def open_ [Unassigned] (w : DiskWriter) (fs : FS) (fn : String) : Outcome Unit :=
  match w.impl with
  | some _ => (Except.error (Error.RuntimeError "DiskWriter already open"), w, fs)
  | none =>
    let impl := (Impl.new w.blockSize_deprecated).open_ fn
    (Except.ok (), { w with impl := some impl, fn := fn }, fs.output fn)

/-- The method `DiskWriter::finish`. -/
def finish (w : DiskWriter) (fs : FS) : Outcome String :=
  match w.impl with
  | none => (Except.error (Error.RuntimeError "DiskWriter already closed"), w, fs)
  | some impl =>
    match impl.close fs with
    | none => (Except.error Error.nullPointer, w, fs)
    | some (_, fs₁) => (Except.ok w.fn, { w with impl := none }, fs₁)

/-- The method `DiskWriter::close`: it calls `finish` and drops the name. -/
def close (w : DiskWriter) (fs : FS) : Outcome Unit :=
  match w.finish fs with
  | (Except.ok _, w₁, fs₁) => (Except.ok (), w₁, fs₁)
  | (Except.error e, w₁, fs₁) => (Except.error e, w₁, fs₁)

/-- The method `DiskWriter::emitCell`. -/
def emitCell (w : DiskWriter) (fs : FS) (row column : Bytes) (timestamp : Int)
    (value : Bytes) : Outcome Unit :=
  match w.impl with
  | none => (Except.error (Error.RuntimeError "emitCell() to closed DiskWriter"), w, fs)
  | some impl =>
    match impl.emit fs row column timestamp value false with
    | none => (Except.error Error.nullPointer, w, fs)
    | some (impl₁, fs₁) => (Except.ok (), { w with impl := some impl₁ }, fs₁)

/-- The method `DiskWriter::emitErasure`; the value passed on is the empty
`StringRange()`. -/
def emitErasure (w : DiskWriter) (fs : FS) (row column : Bytes) (timestamp : Int) :
    Outcome Unit :=
  match w.impl with
  | none => (Except.error (Error.RuntimeError "emitErasure() to closed DiskWriter"), w, fs)
  | some impl =>
    match impl.emit fs row column timestamp [] true with
    | none => (Except.error Error.nullPointer, w, fs)
    | some (impl₁, fs₁) => (Except.ok (), { w with impl := some impl₁ }, fs₁)

/-- The method `DiskWriter::getCellCount`. -/
def getCellCount (w : DiskWriter) (fs : FS) : Outcome Nat :=
  match w.impl with
  | none => (Except.error (Error.RuntimeError "getCellCount() on closed DiskWriter"), w, fs)
  | some impl => (Except.ok impl.getCellCount, w, fs)

/-- The method `DiskWriter::getDataSize`. -/
def getDataSize (w : DiskWriter) (fs : FS) : Outcome Nat :=
  match w.impl with
  | none => (Except.error (Error.RuntimeError "getDataSize() on closed DiskWriter"), w, fs)
  | some impl =>
    match impl.getDataSize fs with
    | none => (Except.error Error.nullPointer, w, fs)
    | some n => (Except.ok n, w, fs)

end DiskWriter

/-- A call of `emitCell` (a cell with its value) or of `emitErasure`. -/
inductive Emit where
  | cell (row column : Bytes) (timestamp : Int) (value : Bytes)
  | erasure (row column : Bytes) (timestamp : Int)
  deriving DecidableEq, Repr

namespace Emit

/-- The row of an emitted cell. -/
def row : Emit → Bytes
  | cell r _ _ _ => r
  | erasure r _ _ => r

/-- The column of an emitted cell. -/
def column : Emit → Bytes
  | cell _ c _ _ => c
  | erasure _ c _ => c

/-- The timestamp of an emitted cell. -/
def timestamp : Emit → Int
  | cell _ _ t _ => t
  | erasure _ _ t => t

/-- Is the emitted cell an erasure. -/
def isErasure : Emit → Bool
  | cell _ _ _ _ => false
  | erasure _ _ _ => true

/-- The value argument `Impl::emit` receives for the call. -/
def valueArg : Emit → Bytes
  | cell _ _ _ v => v
  | erasure _ _ _ => []

end Emit

/-- The call of `emitCell` or `emitErasure` on a writer. -/
def DiskWriter.emit (w : DiskWriter) (fs : FS) : Emit → DiskWriter.Outcome Unit
  | Emit.cell r c t v => w.emitCell fs r c t v
  | Emit.erasure r c t => w.emitErasure fs r c t

/-- A sequence of emit calls, stopped at the first error. -/
def DiskWriter.emitAll (w : DiskWriter) (fs : FS) : List Emit → DiskWriter.Outcome Unit
  | [] => (Except.ok (), w, fs)
  | e :: es =>
    match w.emit fs e with
    | (Except.ok _, w₁, fs₁) => DiskWriter.emitAll w₁ fs₁ es
    | (Except.error err, w₁, fs₁) => (Except.error err, w₁, fs₁)

/-! ## `CellBlockBuilder` -/

/-- The value `size_t(-1)`. -/
def SIZE_MAX : Nat := 2 ^ 64 - 1

/-- The class `kdi::marshal::CellBlockBuilder`: the cell array, the string pool,
the count `nCells`, and `cellsLength`, the field `cells.length` that `append`
writes into the base block at `basePos + 4`. -/
structure CellBlockBuilder where
  arr : List CellData
  pool : StringPoolBuilder
  basePos : Nat
  nCells : Nat
  cellsLength : Nat

namespace CellBlockBuilder

/-- The private method `append(rowOffset, columnOffset, timestamp, valueOffset)`. -/
def append (b : CellBlockBuilder) (rowOffset columnOffset : Nat) (timestamp : Int)
    (valueOffset : Nat) : CellBlockBuilder :=
  let value := if valueOffset ≠ SIZE_MAX then Ref.pool valueOffset else Ref.null
  let cell : CellData :=
    { row := Ref.pool rowOffset, column := Ref.pool columnOffset, timestamp := timestamp,
      value := value, pad := 0 }
  { b with arr := b.arr ++ [cell], nCells := b.nCells + 1, cellsLength := b.nCells + 1 }

/-- The method `reset(builder)` on a base block of the given size. -/
def reset (basePos : Nat) : CellBlockBuilder :=
  { arr := [], pool := StringPoolBuilder.reset, basePos := basePos, nCells := 0,
    cellsLength := 0 }

/-- The method `appendCell`; the three strings are pooled from left to right. -/
def appendCell (b : CellBlockBuilder) (row column : Bytes) (timestamp : Int)
    (value : Bytes) : CellBlockBuilder :=
  let (r, pool₁) := b.pool.getStringOffset row
  let (c, pool₂) := pool₁.getStringOffset column
  let (v, pool₃) := pool₂.getStringOffset value
  { b with pool := pool₃ }.append r c timestamp v

/-- The method `appendErasure`. -/
def appendErasure (b : CellBlockBuilder) (row column : Bytes) (timestamp : Int) :
    CellBlockBuilder :=
  let (r, pool₁) := b.pool.getStringOffset row
  let (c, pool₂) := pool₁.getStringOffset column
  { b with pool := pool₂ }.append r c timestamp SIZE_MAX

/-- The method `append(Cell const &)`, on the row, column, timestamp, erasure flag
and value read from the cell. -/
def appendFrom (b : CellBlockBuilder) (row column : Bytes) (timestamp : Int)
    (isErasure : Bool) (value : Bytes) : CellBlockBuilder :=
  let (r, pool₁) := b.pool.getStringOffset row
  let (c, pool₂) := pool₁.getStringOffset column
  let (v, pool₃) :=
    if isErasure then (SIZE_MAX, pool₂) else pool₂.getStringOffset value
  { b with pool := pool₃ }.append r c timestamp v

/-- The method `getCellCount`. -/
def getCellCount (b : CellBlockBuilder) : Nat := b.nCells

end CellBlockBuilder

/-! ## Reading a fragment back

`DiskFragment.cc` is not among the sources (only `DiskFragment.h` and the unit
test are); the reader is modelled from section 4.2 of the spec. -/

/-- One end of an interval. -/
inductive Bound (α : Type) where
  | infinite
  | inclusive (a : α)
  | exclusive (a : α)
  deriving DecidableEq, Repr

/-- An interval with a lower and an upper end. -/
structure Interval (α : Type) where
  lower : Bound α
  upper : Bound α
  deriving DecidableEq, Repr

/-- Does the interval meet the closed range from `lo` (`none` is −∞) to `hi`. -/
def Interval.meets {α : Type} [LinearOrder α] (i : Interval α) (lo : Option α) (hi : α) : Bool :=
  (match i.lower with
   | Bound.infinite => true
   | Bound.inclusive l => decide (l ≤ hi)
   | Bound.exclusive l => decide (l < hi)) &&
  (match i.upper, lo with
   | Bound.infinite, _ => true
   | _, none => true
   | Bound.inclusive u, some l => decide (l ≤ u)
   | Bound.exclusive u, some l => decide (l < u))

/-- Is the value above a lower end. -/
def Bound.isBelow {α : Type} [LinearOrder α] : Bound α → α → Bool
  | Bound.infinite, _ => true
  | Bound.inclusive l, x => decide (l ≤ x)
  | Bound.exclusive l, x => decide (l < x)

/-- Is the value below an upper end. -/
def Bound.isAbove {α : Type} [LinearOrder α] : Bound α → α → Bool
  | Bound.infinite, _ => true
  | Bound.inclusive u, x => decide (x ≤ u)
  | Bound.exclusive u, x => decide (x < u)

/-- Does the interval contain the value. -/
def Interval.contains {α : Type} [LinearOrder α] (i : Interval α) (x : α) : Bool :=
  i.lower.isBelow x && i.upper.isAbove x

/-- The greater of two lower ends; of an inclusive and an exclusive end of one
value the exclusive one. -/
def Bound.maxLower {α : Type} [LinearOrder α] : Bound α → Bound α → Bound α
  | Bound.infinite, b => b
  | a, Bound.infinite => a
  | Bound.inclusive x, Bound.inclusive y => Bound.inclusive (max x y)
  | Bound.inclusive x, Bound.exclusive y => if x ≤ y then Bound.exclusive y else Bound.inclusive x
  | Bound.exclusive x, Bound.inclusive y => if y ≤ x then Bound.exclusive x else Bound.inclusive y
  | Bound.exclusive x, Bound.exclusive y => Bound.exclusive (max x y)

/-- The lesser of two upper ends; of an inclusive and an exclusive end of one
value the exclusive one. -/
def Bound.minUpper {α : Type} [LinearOrder α] : Bound α → Bound α → Bound α
  | Bound.infinite, b => b
  | a, Bound.infinite => a
  | Bound.inclusive x, Bound.inclusive y => Bound.inclusive (min x y)
  | Bound.inclusive x, Bound.exclusive y => if y ≤ x then Bound.exclusive y else Bound.inclusive x
  | Bound.exclusive x, Bound.inclusive y => if x ≤ y then Bound.exclusive x else Bound.inclusive y
  | Bound.exclusive x, Bound.exclusive y => Bound.exclusive (min x y)

/-- An interval whose ends leave nothing between them: the upper value is below
the lower value, or they are one value and an end is exclusive. -/
def Interval.isEmpty {α : Type} [LinearOrder α] (i : Interval α) : Bool :=
  match i.lower, i.upper with
  | Bound.infinite, _ => false
  | _, Bound.infinite => false
  | Bound.inclusive l, Bound.inclusive u => decide (u < l)
  | Bound.inclusive l, Bound.exclusive u => decide (u ≤ l)
  | Bound.exclusive l, Bound.inclusive u => decide (u ≤ l)
  | Bound.exclusive l, Bound.exclusive u => decide (u ≤ l)

/-- The intersection of two intervals. -/
def Interval.clip {α : Type} [LinearOrder α] (i span : Interval α) : Interval α :=
  { lower := i.lower.maxLower span.lower, upper := i.upper.minUpper span.upper }

/-- The interval of all values. -/
def Interval.all {α : Type} : Interval α := { lower := Bound.infinite, upper := Bound.infinite }

/-- The intersection of a set of intervals with an interval: each interval is
clipped, and what is left empty is dropped. -/
def clipSet {α : Type} [LinearOrder α] (s : List (Interval α)) (span : Interval α) :
    List (Interval α) :=
  (s.map fun i => i.clip span).filter fun i => !i.isEmpty

/-- Modelled from the spec: the upper end of a prefix match, "~= is prefix-match,
equivalent to [prefix, next-prefix)": the prefix without its trailing bytes 255
and with its last byte increased by one; `none` when no string follows all the
strings of the prefix (the empty prefix, or bytes 255 only). -/
def prefixSuccessor : Bytes → Option Bytes
  | [] => none
  | b :: rest =>
    match prefixSuccessor rest with
    | some r => some (b :: r)
    | none => if b = 255 then none else some [b + 1]

/-- The interval of a prefix match. -/
def prefixInterval (v : Bytes) : Interval Bytes :=
  { lower := Bound.inclusive v
    upper := match prefixSuccessor v with
      | some u => Bound.exclusive u
      | none => Bound.infinite }

/-- The interval of an equality. -/
def pointInterval (v : Bytes) : Interval Bytes :=
  { lower := Bound.inclusive v, upper := Bound.inclusive v }

/-- The family named by a bound on columns: the bytes before its first ':' (byte
58), when it has one. -/
def familyOfBound (v : Bytes) : Option Bytes :=
  if (58 : Byte) ∈ v then some (v.takeWhile fun b => b ≠ 58) else none

/-- The family named by the lower end of an interval of columns. -/
def lowerFamily : Bound Bytes → Option Bytes
  | Bound.infinite => none
  | Bound.inclusive l => familyOfBound l
  | Bound.exclusive l => familyOfBound l

/-- Does an upper end keep an interval of columns inside the family `f`: it is a
column of the family (it starts with `f:`), or the exclusive end `f;` (byte 59)
that closes the family. -/
def upperInFamily (f : Bytes) : Bound Bytes → Bool
  | Bound.infinite => false
  | Bound.inclusive u => (f ++ [58]).isPrefixOf u
  | Bound.exclusive u => (f ++ [58]).isPrefixOf u || decide (u = f ++ [59])

/-- Modelled from the spec: the one column family an interval of columns lies
in, if there is one: the lower end names a family and the upper end stays
inside it.  An interval without a lower or an upper end lies in no single
family. -/
def Interval.family (i : Interval Bytes) : Option Bytes :=
  match lowerFamily i.lower with
  | none => none
  | some f => if upperInFamily f i.upper then some f else none

/-- Modelled from the spec: `kdi::ScanPredicate` is not among the sources.  A
normalized predicate: the constraint on rows, on columns and on timestamps, each
a set of intervals or `none` for "unconstrained", and the number of versions
`history = N` selects (0 when there is no such atom).  The empty expression
gives the unconstrained predicate.  An empty set of intervals is the
unsatisfiable constraint, printed as `"" < row < ""`. -/
structure ScanPredicate where
  rows : Option (List (Interval Bytes)) := none
  columns : Option (List (Interval Bytes)) := none
  times : Option (List (Interval Int)) := none
  history : Nat := 0
  deriving DecidableEq, Repr

namespace ScanPredicate

/-- Modelled from the spec: the method `clipRows(interval)`: "intersect row
constraints with interval; if result is empty, the predicate becomes
"\"\" < row < \"\"" (unsatisfiable) rather than an error".  An unconstrained
predicate has all rows to intersect. -/
def clipRows (p : ScanPredicate) (span : Interval Bytes) : ScanPredicate :=
  { p with rows := some (clipSet (p.rows.getD [Interval.all]) span) }

/-- Modelled from the spec: the method `getColumnFamilies(&out)`: "true iff the
column constraint reduces to a finite union of whole families or family-prefix
equalities (each contributes one family); returns that set.  Ranges that don't
align with family boundaries or unconstrained prefixes return false."  An empty
range holds no column: it adds nothing to the union and contributes no family,
so that the constraint `'b' < column < 'a'` gives true with no family, as the
unit test expects.  The result is the flag and the families. -/
def getColumnFamilies (p : ScanPredicate) : Bool × List Bytes :=
  match p.columns with
  | none => (false, [])
  | some s =>
    if s.all fun i => i.isEmpty || i.family.isSome then
      (true, ((s.filter fun i => !i.isEmpty).filterMap fun i => i.family).dedup)
    else (false, [])

/-- The set of families the reader filters blocks by: the result of
`getColumnFamilies` when it returns true. -/
def families (p : ScanPredicate) : Option (List Bytes) :=
  if p.getColumnFamilies.1 then some p.getColumnFamilies.2 else none

/-- Does a row satisfy the constraint on rows. -/
def matchesRow (p : ScanPredicate) (row : Bytes) : Bool :=
  match p.rows with
  | none => true
  | some s => s.any fun i => i.contains row

end ScanPredicate

/-- A hexadecimal digit, in lower case. -/
def hexDigit (n : Nat) : Char := Char.ofNat (if n < 10 then 48 + n else 87 + n)

/-- Modelled from the spec: the text of one byte of a string in the canonical
form, "bytes outside printable ASCII are \xHH-escaped"; the unit test shows the
backslash doubled, and the model escapes the double quote alike. -/
def reprByte (b : Byte) : List Char :=
  if b = 34 ∨ b = 92 then [Char.ofNat 92, Char.ofNat b.val]
  else if 32 ≤ b.val ∧ b.val < 127 then [Char.ofNat b.val]
  else [Char.ofNat 92, Char.ofNat 120, hexDigit (b.val / 16), hexDigit (b.val % 16)]

/-- The text of a string in the canonical form, between double quotes. -/
def reprString (s : Bytes) : String :=
  String.mk ([Char.ofNat 34] ++ s.flatMap reprByte ++ [Char.ofNat 34])

/-- Modelled from the spec: the text of one interval of rows or columns, in the
shapes the unit test shows: a comparison, a range, an equality, a prefix match.
The sources show no text for the interval of all values. -/
def formatInterval (name : String) (i : Interval Bytes) : Option String :=
  match i.lower, i.upper with
  | Bound.infinite, Bound.infinite => none
  | Bound.infinite, Bound.inclusive u => some (name ++ " <= " ++ reprString u)
  | Bound.infinite, Bound.exclusive u => some (name ++ " < " ++ reprString u)
  | Bound.inclusive l, Bound.infinite => some (name ++ " >= " ++ reprString l)
  | Bound.exclusive l, Bound.infinite => some (name ++ " > " ++ reprString l)
  | Bound.inclusive l, Bound.inclusive u =>
    if l = u then some (name ++ " = " ++ reprString l)
    else some (reprString l ++ " <= " ++ name ++ " <= " ++ reprString u)
  | Bound.inclusive l, Bound.exclusive u =>
    if prefixSuccessor l = some u then some (name ++ " ~= " ++ reprString l)
    else some (reprString l ++ " <= " ++ name ++ " < " ++ reprString u)
  | Bound.exclusive l, Bound.inclusive u =>
    some (reprString l ++ " < " ++ name ++ " <= " ++ reprString u)
  | Bound.exclusive l, Bound.exclusive u =>
    some (reprString l ++ " < " ++ name ++ " < " ++ reprString u)

/-- Modelled from the spec: the text of a constraint on rows or columns: its
intervals joined by "or"; the empty set is printed as the unsatisfiable range
between two empty strings. -/
def formatStrings (name : String) (s : List (Interval Bytes)) : Option String :=
  if s = [] then some ("\"\" < " ++ name ++ " < \"\"")
  else (s.mapM (formatInterval name)).map fun parts => " or ".intercalate parts

/-- Modelled from the spec: the canonical text of a predicate without a
constraint on timestamps: the constraints on rows and columns and the history
joined by "and".  The text of a timestamp is not modelled. -/
def ScanPredicate.format (p : ScanPredicate) : Option String :=
  match p.times with
  | some _ => none
  | none =>
    let rows : Option (List String) :=
      match p.rows with
      | none => some []
      | some s => (formatStrings "row" s).map fun t => [t]
    let columns : Option (List String) :=
      match p.columns with
      | none => some []
      | some s => (formatStrings "column" s).map fun t => [t]
    let history : List String :=
      if p.history = 0 then [] else ["history = " ++ toString p.history]
    match rows, columns with
    | some r, some c => some (" and ".intercalate (r ++ c ++ history))
    | _, _ => none

/-- The bytes of a text of ASCII characters. -/
def bytesOf (s : String) : Bytes := s.toList.map fun c => Fin.ofNat c.toNat

/-- The interval the unit test clips to: from `lb`, inclusive, to `ub`,
exclusive, each absent when the pointer is null. -/
def testSpan (lb ub : Option String) : Interval Bytes :=
  { lower := match lb with
      | none => Bound.infinite
      | some l => Bound.inclusive (bytesOf l)
    upper := match ub with
      | none => Bound.infinite
      | some u => Bound.exclusive (bytesOf u) }

/-- The predicate of `row < 'v'`. -/
def rowBelow (v : String) : ScanPredicate :=
  { rows := some [{ lower := Bound.infinite, upper := Bound.exclusive (bytesOf v) }] }

/-- The predicate of `row > 'v'`. -/
def rowAbove (v : String) : ScanPredicate :=
  { rows := some [{ lower := Bound.exclusive (bytesOf v), upper := Bound.infinite }] }

/-- The predicate of a constraint on columns. -/
def onColumns (s : List (Interval Bytes)) : ScanPredicate := { columns := some s }

/-- The interval of a range of columns, each end inclusive or not. -/
def columnRange (l : String) (lowerIn : Bool) (u : String) (upperIn : Bool) : Interval Bytes :=
  { lower := if lowerIn then Bound.inclusive (bytesOf l) else Bound.exclusive (bytesOf l)
    upper := if upperIn then Bound.inclusive (bytesOf u) else Bound.exclusive (bytesOf u) }

/-- The predicate `ScanPredicate("")`. -/
def ScanPredicate.empty : ScanPredicate := {}

/-- The errors of the reader. -/
inductive ReadError where
  | IOError
  | CorruptionError
  | outOfFuel
  deriving DecidableEq, Repr

/-- The value `size_t(-1)` that `nextBlock` returns when no block is left. -/
def SENTINEL : Nat := SIZE_MAX

/-- The class `DiskFragment`: the file and the block index loaded from it. -/
structure DiskFragment where
  file : File
  indexRec : Record IndexEntryV1
  deriving DecidableEq, Repr

/-- The class `DiskBlock`: a loaded cell block record. -/
structure DiskBlock where
  blockRec : Record CellData
  deriving DecidableEq, Repr

/-- The class `DiskBlockReader`: the cells of the block not yet copied. -/
structure DiskBlockReader where
  strings : List (Nat × Bytes)
  rest : List CellData
  deriving DecidableEq, Repr

/-- The struct `CellKey`: row, column, timestamp. -/
structure CellKey where
  row : Bytes
  column : Bytes
  timestamp : Int
  deriving DecidableEq, Repr

/-- The canonical order on keys: row ascending, column ascending, timestamp
descending. -/
def CellKey.less (a b : CellKey) : Bool :=
  decide (a.row < b.row) ||
  (decide (a.row = b.row) &&
    (decide (a.column < b.column) ||
     (decide (a.column = b.column) && decide (b.timestamp < a.timestamp))))

/-- The string a reference of a block points to; a null row or column has none. -/
def derefString (strings : List (Nat × Bytes)) : Ref → Option Bytes
  | Ref.null => none
  | Ref.pool off => lookupString strings off

/-- The key of a stored cell. -/
def decodeKey (strings : List (Nat × Bytes)) (c : CellData) : Option CellKey := do
  let row ← derefString strings c.row
  let column ← derefString strings c.column
  pure { row := row, column := column, timestamp := c.timestamp }

/-- The cell a `CellData` stands for: "a value_off of 0 encodes an erasure;
otherwise it points into the pool". -/
def decodeCell (strings : List (Nat × Bytes)) (c : CellData) : Option Emit := do
  let row ← derefString strings c.row
  let column ← derefString strings c.column
  match c.value with
  | Ref.null => pure (Emit.erasure row column c.timestamp)
  | Ref.pool off =>
    let value ← lookupString strings off
    pure (Emit.cell row column c.timestamp value)

namespace DiskFragment

/-- Modelled from the spec: the constructor `DiskFragment(fn)`: "read the footer
to obtain index_offset", the footer being the last record of the file, then
"load BlockIndexV1 once into memory". -/
def open_ (fs : FS) (fn : String) : Except ReadError DiskFragment :=
  match (fs fn).getLast? with
  | some (FileRecord.tableInfo indexOffset) =>
    match (fs fn).readAt indexOffset with
    | some (FileRecord.blockIndex r) => Except.ok { file := fs fn, indexRec := r }
    | _ => Except.error ReadError.CorruptionError
  | _ => Except.error ReadError.CorruptionError

/-- The position of a family in the index's family array gives its bit of the
mask, wrapping around after 32 families. -/
def familyMask (df : DiskFragment) (families : List Bytes) : Nat :=
  match df.indexRec.fams with
  | none => 0
  | some f =>
    ((List.range f.1.length).filter fun i =>
        match f.1.get? i with
        | some ref =>
          (match derefString df.indexRec.strings ref with
           | some fam => decide (fam ∈ families)
           | none => false)
        | none => false).foldl (fun m i => m ||| 2 ^ (i % 32)) 0

/-- Does block `i` pass the predicate: its row range (from the last row of the
previous block to its own last row), its time range and its family mask each
meet the predicate's constraint. -/
def blockPasses (df : DiskFragment) (pred : ScanPredicate) (i : Nat) : Bool :=
  match df.indexRec.arr.get? i with
  | none => false
  | some e =>
    let prevLast : Option Bytes :=
      if i = 0 then none
      else (df.indexRec.arr.get? (i - 1)).bind fun p => derefString df.indexRec.strings p.row
    let rowsOk :=
      match pred.rows, derefString df.indexRec.strings e.row with
      | none, _ => true
      | some _, none => true
      | some ivs, some last => ivs.any fun iv => iv.meets prevLast last
    let timesOk :=
      match pred.times with
      | none => true
      | some ivs => ivs.any fun iv => iv.meets (some e.lowestTime) e.highestTime
    let famsOk :=
      match pred.families with
      | none => true
      | some fams => decide (e.colFamilyMask &&& df.familyMask fams ≠ 0)
    rowsOk && timesOk && famsOk

/-- Modelled from the spec: the method `nextBlock(pred, minBlock)`: "iterate
blocks from minBlock onward, skipping blocks" the predicate excludes, "return
the first ordinal that passes", or the sentinel. -/
def nextBlock (df : DiskFragment) (pred : ScanPredicate) (minBlock : Nat) : Nat :=
  match (List.range df.indexRec.nItems).find? fun i => decide (minBlock ≤ i) && df.blockPasses pred i with
  | some i => i
  | none => SENTINEL

/-- Modelled from the spec: the method `loadBlock(ordinal)`: "seek to
block_offset, read the record, verify adler32 matches, return a reader bound to
that block.  Checksum mismatch is a corruption error." -/
def loadBlock (df : DiskFragment) (blockAddr : Nat) : Except ReadError DiskBlock :=
  match df.indexRec.arr.get? blockAddr with
  | none => Except.error ReadError.IOError
  | some e =>
    match df.file.readAt e.blockOffset with
    | some (FileRecord.cellBlock r) =>
      if adler32 (FileRecord.cellBlock r).getData = e.checkSum then Except.ok { blockRec := r }
      else Except.error ReadError.CorruptionError
    | _ => Except.error ReadError.CorruptionError

end DiskFragment

/-- Modelled from the spec: the method `DiskBlock::makeReader(pred)`: a reader
at the first cell of the block.  The spec gives the predicate no effect on the
cells of a block. -/
def DiskBlock.makeReader (b : DiskBlock) (_pred : ScanPredicate) : DiskBlockReader :=
  { strings := b.blockRec.strings, rest := b.blockRec.arr.take b.blockRec.nItems }

namespace DiskBlockReader

/-- Modelled from the spec: the method `advance(nextKey)`: "produces the next
CellKey in canonical order"; the result is false (`none`) at the end of the
block. -/
def advance (r : DiskBlockReader) : Option CellKey :=
  match r.rest with
  | [] => none
  | c :: _ => decodeKey r.strings c

/-- The loop of `copyUntil` over the cells not yet copied: the cells left and
the sink after the copy. -/
def copyLoop (strings : List (Nat × Bytes)) (stopKey : Option CellKey) :
    List CellData → List Emit → Except ReadError (List CellData × List Emit)
  | [], out => Except.ok ([], out)
  | c :: cs, out =>
    match decodeKey strings c, decodeCell strings c with
    | some k, some e =>
      let stop := match stopKey with
        | none => false
        | some sk => !(k.less sk)
      if stop then Except.ok (c :: cs, out)
      else copyLoop strings stopKey cs (out ++ [e])
    | _, _ => Except.error ReadError.CorruptionError

/-- Modelled from the spec: the method `copyUntil(stopKey, sink)`: "emits cells
in order into a CellOutput sink until the next key ≥ stopKey, or end of
block"; a null stop key (`none`) copies to the end of the block. -/
def copyUntil (r : DiskBlockReader) (stopKey : Option CellKey) (out : List Emit) :
    Except ReadError (DiskBlockReader × List Emit) :=
  match copyLoop r.strings stopKey r.rest out with
  | Except.error e => Except.error e
  | Except.ok (rest, out₁) => Except.ok ({ r with rest := rest }, out₁)

end DiskBlockReader

/-- The loop of `dumpCells` (DiskFragment_unittest.cc) from a block address on.
The result holds the cells put into the sink and whether the two `BOOST_CHECK`s
held at every block.  `fuel` bounds the number of iterations. -/
def dumpLoop (df : DiskFragment) (pred : ScanPredicate) :
    Nat → Nat → List Emit × Bool → Except ReadError (List Emit × Bool)
  | 0, _, _ => Except.error ReadError.outOfFuel
  | fuel + 1, blockAddr, (out, ok) =>
    if blockAddr = SENTINEL then Except.ok (out, ok)
    else
      match df.loadBlock blockAddr with
      | Except.error e => Except.error e
      | Except.ok block =>
        let reader := block.makeReader pred
        let check₁ := reader.advance.isSome
        match reader.copyUntil none out with
        | Except.error e => Except.error e
        | Except.ok (reader₁, out₁) =>
          let check₂ := reader₁.advance.isNone
          dumpLoop df pred fuel (df.nextBlock pred (blockAddr + 1)) (out₁, ok && check₁ && check₂)

/-- The function `dumpCells` of the unit test, with the empty predicate; the
loop visits each block at most once. -/
def dumpCells (df : DiskFragment) : Except ReadError (List Emit × Bool) :=
  let pred := ScanPredicate.empty
  dumpLoop df pred (df.indexRec.nItems + 1) (df.nextBlock pred 0) ([], true)

/-- Open a fragment file and dump its cells, as `CHECK_FRAGMENT` does. -/
def readFragment (fs : FS) (fn : String) : Except ReadError (List Emit × Bool) :=
  match DiskFragment.open_ fs fn with
  | Except.error e => Except.error e
  | Except.ok df => dumpCells df

/-- An interpreter over (row, column, timestamp) triples, used to instantiate the
comparison theorems. -/
def tripleInterp (addr : Nat) : CellInterpreter (Bytes × Bytes × Int) where
  addr := addr
  getRow := fun d => d.1
  getColumn := fun d => d.2.1
  getValue := fun _ => []
  getTimestamp := fun d => d.2.2
  isErasure := fun _ => false
  isLess := fun _ _ => false

/-! ## Specification predicates -/

/-- A well-formed pool: each pooled string is the one found at its offset, and
every offset lies inside the string block. -/
def StringPoolBuilder.WF (p : StringPoolBuilder) : Prop :=
  (∀ e ∈ p.entries, lookupString p.entries e.1 = some e.2) ∧ (∀ e ∈ p.entries, e.1 < p.dataSz)

/-- The pair `lo`, `hi` is the least and the greatest timestamp of the cells. -/
def IsTimeRange (lo hi : Int) (cells : List CellData) : Prop :=
  (∀ c ∈ cells, lo ≤ c.timestamp ∧ c.timestamp ≤ hi) ∧
  (∃ c ∈ cells, c.timestamp = lo) ∧ (∃ c ∈ cells, c.timestamp = hi)

/-- The stored cells stand, one for one and in order, for the emitted cells. -/
def Decodes (strings : List (Nat × Bytes)) (cells : List CellData) (es : List Emit) : Prop :=
  List.Forall₂ (fun c e => decodeCell strings c = some e) cells es

/-- A cell block record that holds exactly the cells `es`, at least one. -/
def BlockOk (b : Record CellData) (es : List Emit) : Prop :=
  b.nItems = b.arr.length ∧ b.fams = none ∧ Decodes b.strings b.arr es ∧ es ≠ []

/-- What one index entry records of its block, when the block starts at the
file offset `base`. -/
def EntryOk (strings : List (Nat × Bytes)) (base : Nat) (e : IndexEntryV1)
    (b : Record CellData) : Prop :=
  e.blockOffset = base ∧ e.checkSum = adler32 (FileRecord.cellBlock b).getData ∧
  IsTimeRange e.lowestTime e.highestTime b.arr ∧
  (∃ row, Impl.lastRowOf b = some row ∧ derefString strings e.row = some row) ∧
  e.colFamilyMask = 0

/-- The index entries match, in order, the cell blocks laid out from the file
offset `base` on. -/
def EntriesMatch (strings : List (Nat × Bytes)) :
    Nat → List IndexEntryV1 → List (Record CellData) → Prop
  | _, [], [] => True
  | base, e :: es, b :: bs =>
    EntryOk strings base e b ∧
    EntriesMatch strings (base + (FileRecord.cellBlock b).fileSize) es bs
  | _, [], _ :: _ => False
  | _, _ :: _, [] => False

/-- The file made of the given cell blocks. -/
def blocksFile (blocks : List (Record CellData)) : File := blocks.map FileRecord.cellBlock

/-- The invariant of a writer between `open` and `close`: `blocks` are the cell
blocks written so far, holding the cells `ess`, and `pend` are the cells of the
pending block. -/
structure ImplInv (s : Impl) (blocks : List (Record CellData)) (ess : List (List Emit))
    (pend : List Emit) : Prop where
  blockPool : s.block.pool.WF
  indexPool : s.index.pool.WF
  nItems : s.block.nItems = s.block.arr.length
  pending : Decodes s.block.pool.entries s.block.arr pend
  blockFams : s.block.addFams = false
  elemSize : s.block.elemSize = CellData.size
  indexItems : s.index.nItems = s.index.arr.length
  indexFams : s.index.fams = []
  blocksOk : List.Forall₂ BlockOk blocks ess
  entries : EntriesMatch s.index.pool.entries 0 s.index.arr blocks
  times : s.block.arr ≠ [] → IsTimeRange s.lowestTime s.highestTime s.block.arr
  count : s.cellCount = ess.flatten.length + pend.length
  masks : s.colFamilyMasks = [] ∧ s.curColMask = 0

/-- The calls `open(fn)`, the emits and `close` on a writer. -/
def DiskWriter.writeSession [Unassigned] (w : DiskWriter) (fs : FS) (fn : String)
    (es : List Emit) :
    DiskWriter.Outcome Unit :=
  match w.open_ fs fn with
  | (Except.error e, w₁, fs₁) => (Except.error e, w₁, fs₁)
  | (Except.ok _, w₁, fs₁) =>
    match w₁.emitAll fs₁ es with
    | (Except.error e, w₂, fs₂) => (Except.error e, w₂, fs₂)
    | (Except.ok _, w₂, fs₂) => w₂.close fs₂

/-- The calls `open`, the emits and `close` on a fresh writer of the given block
size. -/
def writeFragment [Unassigned] (blockSize : Nat) (fs : FS) (fn : String) (es : List Emit) :
    DiskWriter.Outcome Unit :=
  (DiskWriter.new blockSize).writeSession fs fn es

/-- The pool of the pending block after `addCell`. -/
def addCellPool (pool : StringPoolBuilder) (row column value : Bytes) (isErasure : Bool) :
    StringPoolBuilder :=
  let pool₂ := ((pool.getStringOffset row).2.getStringOffset column).2
  if isErasure then pool₂ else (pool₂.getStringOffset value).2

/-- The `CellData` that `addCell` appends. -/
def addCellData (pool : StringPoolBuilder) (row column : Bytes) (timestamp : Int)
    (value : Bytes) (isErasure : Bool) : CellData :=
  let p₁ := pool.getStringOffset row
  let p₂ := p₁.2.getStringOffset column
  { row := Ref.pool p₁.1, column := Ref.pool p₂.1, timestamp := timestamp,
    value := if isErasure then Ref.null else Ref.pool (p₂.2.getStringOffset value).1,
    pad := 0 }

/-- The state `addIndexEntry` leaves, given the last row of the block and the
position of the file. -/
def Impl.withIndexEntry (s : Impl) (tell : Nat) (cbRec : Record CellData) (lastRow : Bytes) :
    Impl :=
  { s with
    index := { s.index with
      pool := (s.index.pool.getStringOffset lastRow).2
      arr := s.index.arr ++
        [{ checkSum := adler32 (FileRecord.cellBlock cbRec).getData,
           row := Ref.pool (s.index.pool.getStringOffset lastRow).1,
           blockOffset := tell, lowestTime := s.lowestTime, highestTime := s.highestTime,
           colFamilyMask := s.curColMask }]
      nItems := s.index.nItems + 1 }
    curColMask := 0 }

/-- A finished fragment: the cell blocks hold the cells `ess`, and the block
index `idx` has one matching entry per block, in file order. -/
structure FragInv (blocks : List (Record CellData)) (ess : List (List Emit))
    (idx : Record IndexEntryV1) : Prop where
  blocksOk : List.Forall₂ BlockOk blocks ess
  nItems : idx.nItems = idx.arr.length
  entries : EntriesMatch idx.strings 0 idx.arr blocks
  fams : idx.fams = some ([], 0)

/-- The records of a finished fragment file: the cell blocks, the block index,
and the footer pointing at the index. -/
def fragmentFile (blocks : List (Record CellData)) (idx : Record IndexEntryV1) : File :=
  blocksFile blocks ++
    [FileRecord.blockIndex idx, FileRecord.tableInfo (blocksFile blocks).tell]

/-- The index builder as `writeBlockIndex` completes it before the build: the
family offsets are appended, `addFams` and `nFams` are set. -/
def Impl.indexAtClose (s : Impl) : PooledBuilder IndexEntryV1 :=
  { s.index with
    fams := s.index.fams ++ s.colFamilyMasks.map (fun p => Ref.pool p.1)
    addFams := true
    nFams := s.colFamilyMasks.length }

/-! ## Concrete inputs -/

/-- The empty file system. -/
def emptyFS : FS := fun _ => []

/-- The bytes of "row1". -/
def row1 : Bytes := [114, 111, 119, 49]

/-- The bytes of "row2". -/
def row2 : Bytes := [114, 111, 119, 50]

/-- The bytes of "row3". -/
def row3 : Bytes := [114, 111, 119, 51]

/-- The bytes of "col1". -/
def col1 : Bytes := [99, 111, 108, 49]

/-- The bytes of "col2". -/
def col2 : Bytes := [99, 111, 108, 50]

/-- The bytes of "col3". -/
def col3 : Bytes := [99, 111, 108, 51]

/-- The bytes of "val" followed by a digit. -/
def val (d : Byte) : Bytes := [118, 97, 108, d]

/-- The cells of `simple_test` (DiskFragment_unittest.cc), in canonical order. -/
def simpleCells : List Emit :=
  [Emit.cell row1 col1 42 (val 49),
   Emit.cell row1 col2 42 (val 50),
   Emit.cell row1 col2 23 (val 51),
   Emit.erasure row1 col3 23,
   Emit.cell row2 col1 42 (val 52),
   Emit.cell row2 col3 42 (val 53),
   Emit.cell row3 col2 23 (val 54)]

/-- The key of an emitted cell. -/
def Emit.key (e : Emit) : CellKey :=
  { row := e.row, column := e.column, timestamp := e.timestamp }

/-- Canonical order of a sequence of emits: no cell sorts before an earlier one
(row ascending, column ascending, timestamp descending). -/
def Canonical (es : List Emit) : Prop :=
  es.Pairwise fun a b => CellKey.less b.key a.key = false

/-- The column family of a column: the part before the first ':' (byte 58), the
whole column when it has none. -/
def columnFamily (column : Bytes) : Bytes :=
  column.takeWhile fun b => b ≠ 58

/-! ## `warp::Interval<std::string>` and `TabletConfig`

`warp/interval.h`, `kdi/tablet/TabletConfig.h`, `kdi/tablet/TabletName.h`,
`warp/config.h`, `warp/uri.h` and `warp/fs.h` are not among the sources. -/

namespace warp

/-- Modelled from the spec: the enumeration `warp::PointType`.  The sources name
`PT_INFINITE_LOWER_BOUND`, `PT_EXCLUSIVE_LOWER_BOUND` and
`PT_INFINITE_UPPER_BOUND`; the other kinds of interval ends complete the list,
in the order in which points of one value sort. -/
inductive PointType where
  | PT_INFINITE_LOWER_BOUND
  | PT_EXCLUSIVE_UPPER_BOUND
  | PT_INCLUSIVE_LOWER_BOUND
  | PT_POINT
  | PT_INCLUSIVE_UPPER_BOUND
  | PT_EXCLUSIVE_LOWER_BOUND
  | PT_INFINITE_UPPER_BOUND
  deriving DecidableEq, Repr

/-- The place of a kind of point among the points of one value. -/
def PointType.rank : PointType → Nat
  | PT_INFINITE_LOWER_BOUND => 0
  | PT_EXCLUSIVE_UPPER_BOUND => 1
  | PT_INCLUSIVE_LOWER_BOUND => 2
  | PT_POINT => 3
  | PT_INCLUSIVE_UPPER_BOUND => 4
  | PT_EXCLUSIVE_LOWER_BOUND => 5
  | PT_INFINITE_UPPER_BOUND => 6

/-- The class `warp::IntervalPoint<std::string>`: a value and the kind of end. -/
structure IntervalPoint where
  value : Bytes
  type : PointType
  deriving DecidableEq, Repr

namespace IntervalPoint

/-- The method `isFinite`. -/
def isFinite (p : IntervalPoint) : Bool :=
  decide (p.type ≠ PointType.PT_INFINITE_LOWER_BOUND) &&
  decide (p.type ≠ PointType.PT_INFINITE_UPPER_BOUND)

/-- Modelled from the spec: `operator<` on interval points: −∞ sorts before every
other point and "the infinite upper bound sorts after any finite bound"; finite
points sort by value, then by kind. -/
def lt (a b : IntervalPoint) : Bool :=
  if a.type = PointType.PT_INFINITE_LOWER_BOUND then
    decide (b.type ≠ PointType.PT_INFINITE_LOWER_BOUND)
  else if b.type = PointType.PT_INFINITE_LOWER_BOUND then false
  else if a.type = PointType.PT_INFINITE_UPPER_BOUND then false
  else if b.type = PointType.PT_INFINITE_UPPER_BOUND then true
  else decide (a.value < b.value) || (decide (a.value = b.value) && decide (a.type.rank < b.type.rank))

/-- Modelled from the spec: `operator!=` on interval points: the kinds differ, or
the points are finite and the values differ. -/
def ne (a b : IntervalPoint) : Bool :=
  decide (a.type ≠ b.type) || (a.isFinite && decide (a.value ≠ b.value))

/-- Modelled from the spec: the method `getAdjacentComplement`: the end of the
adjacent interval on the other side, so that an inclusive upper bound gives the
exclusive lower bound of the same value, and so on. -/
def getAdjacentComplement (p : IntervalPoint) : IntervalPoint :=
  { value := p.value
    type := match p.type with
      | PointType.PT_INFINITE_LOWER_BOUND => PointType.PT_INFINITE_UPPER_BOUND
      | PointType.PT_EXCLUSIVE_UPPER_BOUND => PointType.PT_INCLUSIVE_LOWER_BOUND
      | PointType.PT_INCLUSIVE_LOWER_BOUND => PointType.PT_EXCLUSIVE_UPPER_BOUND
      | PointType.PT_POINT => PointType.PT_POINT
      | PointType.PT_INCLUSIVE_UPPER_BOUND => PointType.PT_EXCLUSIVE_LOWER_BOUND
      | PointType.PT_EXCLUSIVE_LOWER_BOUND => PointType.PT_INCLUSIVE_UPPER_BOUND
      | PointType.PT_INFINITE_UPPER_BOUND => PointType.PT_INFINITE_LOWER_BOUND }

end IntervalPoint

/-- The class `warp::Interval<std::string>`: a lower and an upper bound. -/
structure Interval where
  lowerBound : IntervalPoint
  upperBound : IntervalPoint
  deriving DecidableEq, Repr

end warp

/-- The class `kdi::tablet::TabletConfig`: the rows of the tablet and the URIs of
its fragments. -/
structure TabletConfig where
  rows : warp.Interval
  uris : List Bytes
  deriving DecidableEq, Repr

/-- The exceptions of the configuration code, with the fixed part of the
message. -/
inductive ConfigError where
  | ValueError (msg : String)
  | RuntimeError (msg : String)
  | IOError (msg : String)
  | assertion (msg : String)
  deriving DecidableEq, Repr

/-- A key of the configuration tree the code writes: `tables.i<idx>` or
`minRow`. -/
inductive ConfigKey where
  | tables (idx : Nat)
  | minRow
  deriving DecidableEq, Repr

/-- Modelled from the spec: `warp::Config`, of which the code uses `set`,
`findChild`, `numChildren` and `getChild`: the values set, in the order in which
their keys were first set. -/
abbrev Config := List (ConfigKey × Bytes)

namespace Config

/-- The method `set`: the value of a key already present is replaced in place, a
new key is added at the end. -/
def set (c : Config) (k : ConfigKey) (v : Bytes) : Config :=
  if c.any (fun e => e.1 = k) then c.map fun e => if e.1 = k then (k, v) else e
  else c ++ [(k, v)]

/-- The values of the children of `tables` (`findChild("tables")`, `getChild(i)`),
in order; none when there is no such child. -/
def tableChildren (c : Config) : List Bytes :=
  c.filterMap fun e =>
    match e.1 with
    | ConfigKey.tables _ => some e.2
    | ConfigKey.minRow => none

/-- The value of `minRow` (`findChild("minRow")`), if it is set. -/
def findMinRow (c : Config) : Option Bytes :=
  (c.find? fun e => e.1 = ConfigKey.minRow).map fun e => e.2

end Config

/-- Modelled from the spec: the functions of `warp` and `kdi::tablet` the
configuration code calls and that are not among the sources, taken as
parameters: the scheme of a URI (`Uri::popScheme`, `Uri::topScheme`,
`uriPushScheme`), path resolution (`fs::resolve`), the last row a tablet name
encodes (`TabletName(row).getLastRow()`), the text form of a `Config` (its
constructor from a file and `operator<<`), and the default-constructed
`Interval<string>`. -/
structure Library where
  popScheme : Bytes → Bytes
  topScheme : Bytes → Bytes
  uriPushScheme : Bytes → Bytes → Bytes
  fsResolve : Bytes → Bytes → Bytes
  tabletLastRow : Bytes → Except ConfigError warp.IntervalPoint
  configParse : Bytes → Except ConfigError Config
  configPrint : Config → Bytes
  defaultInterval : warp.Interval

/-- The byte '/'. -/
def slash : Byte := 47

/-- The function `resolveTableUri` of MetaConfigManager.cc. -/
def resolveTableUri (lib : Library) (root tableUri : Bytes) : Bytes :=
  lib.uriPushScheme (lib.fsResolve root (lib.popScheme tableUri)) (lib.topScheme tableUri)

/-- The function `unrootTableUri` of MetaConfigManager.cc; it calls itself once
when the root lacks the trailing slash. -/
def unrootTableUri (lib : Library) (root tableUri : Bytes) : Except ConfigError Bytes :=
  if root = [] then Except.error (ConfigError.ValueError "empty root")
  else if root.getLast? ≠ some slash then
    unrootTableUri lib (root ++ [slash]) tableUri
  else
    let rest := lib.popScheme tableUri
    if !(root.isPrefixOf rest) then
      Except.error (ConfigError.ValueError "table URI not under root")
    else
      let rest := rest.drop root.length
      if rest.isEmpty || rest.head? = some slash then
        Except.error (ConfigError.ValueError "table URI invalid after removing root")
      else Except.ok (lib.uriPushScheme rest (lib.topScheme tableUri))
termination_by (if root.getLast? = some slash then 0 else 1)
decreasing_by simp_all

/-- A cell of the META table as the scan returns it: row, column, timestamp and
value. -/
structure StoredCell where
  row : Bytes
  column : Bytes
  timestamp : Int
  value : Bytes
  deriving DecidableEq, Repr

/-- The function `getConfigFromCell` of MetaConfigManager.cc. -/
def getConfigFromCell (lib : Library) (configCell : StoredCell) (rootDir : Bytes) :
    Except ConfigError TabletConfig := do
  let lastRow ← lib.tabletLastRow configCell.row
  let state ← lib.configParse configCell.value
  let uris := state.tableChildren.map fun u => resolveTableUri lib rootDir u
  let minRow : warp.IntervalPoint :=
    match state.findMinRow with
    | some v => { value := v, type := warp.PointType.PT_EXCLUSIVE_LOWER_BOUND }
    | none => { value := [], type := warp.PointType.PT_INFINITE_LOWER_BOUND }
  pure { rows := { lowerBound := minRow, upperBound := lastRow }, uris := uris }

/-- The loop of `getConfigCellValue` that sets `tables.i<idx>` for the URIs from
index `idx` on. -/
def setTableUris (lib : Library) (rootDir : Bytes) :
    List Bytes → Nat → Config → Except ConfigError Config
  | [], _, state => Except.ok state
  | u :: us, idx, state =>
    match unrootTableUri lib rootDir u with
    | Except.error e => Except.error e
    | Except.ok rel => setTableUris lib rootDir us (idx + 1) (state.set (ConfigKey.tables idx) rel)

/-- The state `getConfigCellValue` builds before it serializes it. -/
def configState (lib : Library) (config : TabletConfig) (rootDir : Bytes) :
    Except ConfigError Config :=
  match setTableUris lib rootDir config.uris 0 [] with
  | Except.error e => Except.error e
  | Except.ok state =>
    match config.rows.lowerBound.type with
    | warp.PointType.PT_INFINITE_LOWER_BOUND => Except.ok state
    | warp.PointType.PT_EXCLUSIVE_LOWER_BOUND =>
      Except.ok (state.set ConfigKey.minRow config.rows.lowerBound.value)
    | _ => Except.error (ConfigError.ValueError "config has invalid lower bound")

/-- The function `getConfigCellValue` of MetaConfigManager.cc. -/
def getConfigCellValue (lib : Library) (config : TabletConfig) (rootDir : Bytes) :
    Except ConfigError Bytes :=
  match configState lib config rootDir with
  | Except.error e => Except.error e
  | Except.ok state => Except.ok (lib.configPrint state)

/-- A call made on the META table. -/
inductive MetaOp where
  | set (row column : Bytes) (timestamp : Int) (value : Bytes)
  | erase (row column : Bytes) (timestamp : Int)
  | sync
  deriving DecidableEq, Repr

/-- The local variables of `MetaConfigManager::loadTabletConfigs` between two
iterations of the scan, and the calls made on the META table so far. -/
structure LoadState where
  prevRows : warp.Interval
  changedMeta : Bool
  loadedPrev : Bool
  prev : Option StoredCell
  cfgs : List TabletConfig
  ops : List MetaOp

/-- The variables of `loadTabletConfigs` before the scan. -/
def LoadState.init (lib : Library) : LoadState :=
  { prevRows := lib.defaultInterval, changedMeta := false, loadedPrev := false, prev := none,
    cfgs := [], ops := [] }

/-- The lower bound `loadTabletConfigs` expects of the next cell: −∞ before the
first cell, else the adjacent complement of the previous upper bound. -/
def LoadState.expectedLowerBound (st : LoadState) : warp.IntervalPoint :=
  match st.prev with
  | none => { value := [], type := warp.PointType.PT_INFINITE_LOWER_BOUND }
  | some _ => st.prevRows.upperBound.getAdjacentComplement

/-- The body of the scan loop of `loadTabletConfigs` for the cell `x`.  `cfgRows`
is a reference to the rows of `cfg`, so after the gap repair has assigned the
expanded config to `cfg`, `prevRows = cfgRows` copies the expanded rows. -/
def loadStep (lib : Library) (rootDir : Bytes) (st : LoadState) (x : StoredCell) :
    Except ConfigError LoadState := do
  let lowerBound := st.expectedLowerBound
  let cfg ← getConfigFromCell lib x rootDir
  if cfg.rows.lowerBound.lt lowerBound then
    if cfg.rows.lowerBound.ne st.prevRows.lowerBound then
      Except.error (ConfigError.RuntimeError "uncorrectable overlap in META table")
    else
      match st.prev with
      | none => Except.error (ConfigError.assertion "prev")
      | some prev =>
        pure { prevRows := cfg.rows, changedMeta := true, loadedPrev := true, prev := some x,
               cfgs := (if st.loadedPrev then st.cfgs.dropLast else st.cfgs) ++ [cfg],
               ops := st.ops ++ [MetaOp.erase prev.row prev.column prev.timestamp] }
  else if lowerBound.lt cfg.rows.lowerBound then
    let cfg₁ : TabletConfig :=
      { rows := { lowerBound := lowerBound, upperBound := cfg.rows.upperBound }, uris := cfg.uris }
    let value ← getConfigCellValue lib cfg₁ rootDir
    pure { prevRows := cfg₁.rows, changedMeta := true, loadedPrev := true, prev := some x,
           cfgs := st.cfgs ++ [cfg₁],
           ops := st.ops ++ [MetaOp.set x.row x.column x.timestamp value] }
  else
    pure { prevRows := cfg.rows, changedMeta := st.changedMeta, loadedPrev := true, prev := some x,
           cfgs := st.cfgs ++ [cfg], ops := st.ops }

/-- The scan loop of `loadTabletConfigs` over the cells the scan returns: the
state after the last cell, or the exception raised, with the calls made on the
META table until then. -/
def loadLoop (lib : Library) (rootDir : Bytes) :
    LoadState → List StoredCell → Except ConfigError LoadState × List MetaOp
  | st, [] => (Except.ok st, st.ops)
  | st, x :: xs =>
    match loadStep lib rootDir st x with
    | Except.error e => (Except.error e, st.ops)
    | Except.ok st₁ => loadLoop lib rootDir st₁ xs

/-- The method `MetaConfigManager::loadTabletConfigs` on the config cells the
META scan returns for the table: the configs returned or the exception raised,
and the calls made on the META table. -/
def loadTabletConfigs (lib : Library) (rootDir : Bytes) (scan : List StoredCell) :
    Except ConfigError (List TabletConfig) × List MetaOp :=
  match loadLoop lib rootDir (LoadState.init lib) scan with
  | (Except.error e, ops) => (Except.error e, ops)
  | (Except.ok st, ops) =>
    (Except.ok st.cfgs, if st.changedMeta then ops ++ [MetaOp.sync] else ops)

/-- The outcome of `unrootTableUri` for a root that ends with a slash. -/
def unrootSlashed (lib : Library) (root tableUri : Bytes) : Except ConfigError Bytes :=
  if root.isPrefixOf (lib.popScheme tableUri) = false then
    Except.error (ConfigError.ValueError "table URI not under root")
  else if (lib.popScheme tableUri).drop root.length = [] ∨
      ((lib.popScheme tableUri).drop root.length).head? = some slash then
    Except.error (ConfigError.ValueError "table URI invalid after removing root")
  else
    Except.ok (lib.uriPushScheme ((lib.popScheme tableUri).drop root.length)
      (lib.topScheme tableUri))

/-- The root with its trailing slash, as `unrootTableUri` completes it. -/
def withSlash (root : Bytes) : Bytes :=
  if root.getLast? = some slash then root else root ++ [slash]

/-- A table URI that lies under the root, for a library that treats it as the
sources expect: without its scheme the URI is the root, a slash and a non-empty
relative path `rel` that does not begin with a slash; popping and pushing the
scheme are inverse on the URI and on the relative path; and `fs::resolve` joins
the root and the relative path. -/
def UriUnderRoot (lib : Library) (rootDir u : Bytes) : Prop :=
  ∃ rel, lib.popScheme u = withSlash rootDir ++ rel ∧ rel ≠ [] ∧ rel.head? ≠ some slash ∧
    lib.uriPushScheme (lib.popScheme u) (lib.topScheme u) = u ∧
    lib.popScheme (lib.uriPushScheme rel (lib.topScheme u)) = rel ∧
    lib.topScheme (lib.uriPushScheme rel (lib.topScheme u)) = lib.topScheme u ∧
    lib.fsResolve rootDir rel = withSlash rootDir ++ rel

/-- The relative URI `unrootTableUri` returns for a URI under the root. -/
def relativeUri (lib : Library) (rootDir u : Bytes) : Bytes :=
  lib.uriPushScheme ((lib.popScheme u).drop (withSlash rootDir).length) (lib.topScheme u)

/-- The byte ':'. -/
def colon : Byte := 58

/-- A toy text form of a `Config`, for the concrete library: each entry as a tag
(0 for `minRow`, 1 and the index for `tables.i<idx>`), the length of the value
and the value. -/
def toyPrint (c : Config) : Bytes :=
  c.flatMap fun e =>
    (match e.1 with
     | ConfigKey.minRow => [0]
     | ConfigKey.tables idx => [1, Fin.ofNat idx]) ++ [Fin.ofNat e.2.length] ++ e.2

/-- The inverse of `toyPrint`, with fuel for the number of entries. -/
def toyParse : Nat → Bytes → Except ConfigError Config
  | _, [] => Except.ok []
  | 0, _ :: _ => Except.error (ConfigError.IOError "config syntax")
  | fuel + 1, tag :: rest =>
    if tag = 0 then
      match rest with
      | len :: body =>
        match toyParse fuel (body.drop len.val) with
        | Except.ok c => Except.ok ((ConfigKey.minRow, body.take len.val) :: c)
        | Except.error e => Except.error e
      | [] => Except.error (ConfigError.IOError "config syntax")
    else
      match rest with
      | idx :: len :: body =>
        match toyParse fuel (body.drop len.val) with
        | Except.ok c => Except.ok ((ConfigKey.tables idx.val, body.take len.val) :: c)
        | Except.error e => Except.error e
      | _ => Except.error (ConfigError.IOError "config syntax")

/-- A concrete library, used to instantiate the theorems: URIs of the form
`scheme:path`, path resolution by joining with a slash, tablet names that are
the last row itself (the empty row for the last tablet), and the toy text form
of a `Config`. -/
def toyLibrary : Library where
  popScheme := fun u =>
    match u.dropWhile (fun b => b ≠ colon) with
    | [] => u
    | _ :: rest => rest
  topScheme := fun u => if colon ∈ u then u.takeWhile (fun b => b ≠ colon) else []
  uriPushScheme := fun rest scheme => scheme ++ [colon] ++ rest
  fsResolve := fun root rel => withSlash root ++ rel
  tabletLastRow := fun row =>
    Except.ok (if row = [] then { value := [], type := warp.PointType.PT_INFINITE_UPPER_BOUND }
               else { value := row, type := warp.PointType.PT_INCLUSIVE_UPPER_BOUND })
  configParse := fun b => toyParse b.length b
  configPrint := toyPrint
  defaultInterval :=
    { lowerBound := { value := [], type := warp.PointType.PT_POINT },
      upperBound := { value := [], type := warp.PointType.PT_POINT } }

/-- The bytes of "/root". -/
def rootDir0 : Bytes := [47, 114, 111, 111, 116]

/-- The bytes of "disk:/root/t/1". -/
def uri1 : Bytes := [100, 105, 115, 107, 58, 47, 114, 111, 111, 116, 47, 116, 47, 49]

/-- The bytes of "disk:/root/t/2". -/
def uri2 : Bytes := [100, 105, 115, 107, 58, 47, 114, 111, 111, 116, 47, 116, 47, 50]

/-- A tablet config with the rows ("row1", "row2"] and two fragments. -/
def config0 : TabletConfig :=
  { rows := { lowerBound := { value := row1, type := warp.PointType.PT_EXCLUSIVE_LOWER_BOUND },
              upperBound := { value := row2, type := warp.PointType.PT_INCLUSIVE_UPPER_BOUND } },
    uris := [uri1, uri2] }

/-- The config cell that stores `config0` under the root "/root". -/
def cell0 : StoredCell :=
  { row := row2, column := [99, 111, 110, 102, 105, 103], timestamp := 0,
    value := toyPrint
      [(ConfigKey.tables 0, [100, 105, 115, 107, 58, 116, 47, 49]),
       (ConfigKey.tables 1, [100, 105, 115, 107, 58, 116, 47, 50]),
       (ConfigKey.minRow, row1)] }

/-- The lower bound −∞, as `loadTabletConfigs` and `getConfigFromCell` build it. -/
def minusInfinity : warp.IntervalPoint :=
  { value := [], type := warp.PointType.PT_INFINITE_LOWER_BOUND }

/-- The config of the gap repair: the lower bound replaced by the expected one,
the upper bound and the URIs kept. -/
def expandedConfig (lowerBound : warp.IntervalPoint) (cfg : TabletConfig) : TabletConfig :=
  { rows := { lowerBound := lowerBound, upperBound := cfg.rows.upperBound }, uris := cfg.uris }

/-- The cells tile the rows from the lower bound `lb` on: each cell has a config,
whose lower bound is the expected one, `lb` for the first cell and the adjacent
complement of the previous upper bound for the others. -/
def WellTiled (lib : Library) (rootDir : Bytes) :
    warp.IntervalPoint → List StoredCell → Prop
  | _, [] => True
  | lb, x :: xs =>
    ∃ cfg, getConfigFromCell lib x rootDir = Except.ok cfg ∧ cfg.rows.lowerBound = lb ∧
      WellTiled lib rootDir cfg.rows.upperBound.getAdjacentComplement xs

/-- A call on the META table that repairs it: a `set` or an `erase`. -/
def MetaOp.isRepair : MetaOp → Bool
  | MetaOp.set _ _ _ _ => true
  | MetaOp.erase _ _ _ => true
  | MetaOp.sync => false

/-- What holds of the variables of `loadTabletConfigs` between two iterations:
the calls made so far are repairs, `changedMeta` is set exactly when one was
made, and once a cell has been read the last config loaded is the one of that
cell, with the rows `prevRows`. -/
def LoadInv (st : LoadState) : Prop :=
  (∀ op ∈ st.ops, op.isRepair = true) ∧
  (st.changedMeta = true ↔ st.ops ≠ []) ∧
  (∀ p, st.prev = some p →
    st.loadedPrev = true ∧ ∃ front c, st.cfgs = front ++ [c] ∧ c.rows = st.prevRows)

/-- The bytes of "config", the column of the config cells. -/
def configColumn : Bytes := [99, 111, 110, 102, 105, 103]

/-- The config cell of a tablet with the rows (−∞, "row1"] and one fragment. -/
def cellLow : StoredCell :=
  { row := row1, column := configColumn, timestamp := 0,
    value := toyPrint [(ConfigKey.tables 0, [100, 105, 115, 107, 58, 116, 47, 49])] }

/-- The config that `cellLow` stores under the root "/root". -/
def configLow : TabletConfig :=
  { rows := { lowerBound := minusInfinity,
              upperBound := { value := row1, type := warp.PointType.PT_INCLUSIVE_UPPER_BOUND } },
    uris := [uri1] }

/-- The config cell of a tablet with the rows (−∞, "row2"] and one fragment: with
`cellLow` before it, what a split leaves when it is interrupted. -/
def cellWhole : StoredCell :=
  { row := row2, column := configColumn, timestamp := 0,
    value := toyPrint [(ConfigKey.tables 0, [100, 105, 115, 107, 58, 116, 47, 50])] }

/-- The config that `cellWhole` stores under the root "/root". -/
def configWhole : TabletConfig :=
  { rows := { lowerBound := minusInfinity,
              upperBound := { value := row2, type := warp.PointType.PT_INCLUSIVE_UPPER_BOUND } },
    uris := [uri2] }

/-- The variables of `loadTabletConfigs` after it has read `cellLow` alone. -/
def stateLow : LoadState :=
  { prevRows := configLow.rows, changedMeta := false, loadedPrev := true, prev := some cellLow,
    cfgs := [configLow], ops := [] }

/-- The writer after `Impl::emit` has counted the cell and `addCell` has added
it to the pending block, before the block size is tested. -/
def Impl.afterAddCell (s : Impl) (e : Emit) : Impl :=
  Impl.addCell { s with cellCount := s.cellCount + 1 } e.row e.column e.timestamp e.valueArg
    e.isErasure

/-- The cells a cell block record holds, in the order of its array; a cell that
does not decode (a reference outside the string block) is `none`. -/
def blockCells (b : Record CellData) : List (Option Emit) :=
  b.arr.map (decodeCell b.strings)

/-- The cells of the cell block records of a file, in file order. -/
def fileCells (f : File) : List (Option Emit) :=
  f.flatMap fun r =>
    match r with
    | FileRecord.cellBlock b => blockCells b
    | FileRecord.blockIndex _ => []
    | FileRecord.tableInfo _ => []

/-- The configs tile the rows from the lower bound `lb` on: the lower bound of
the first is `lb` and the lower bound of each later one is the adjacent
complement of the upper bound of the one before, equality being that of
`operator!=` on interval points. -/
def TiledFrom : warp.IntervalPoint → List TabletConfig → Prop
  | _, [] => True
  | lb, c :: cs =>
    c.rows.lowerBound.ne lb = false ∧ TiledFrom c.rows.upperBound.getAdjacentComplement cs

/-- The lower bound that continues the tiling of `cfgs` from `lb`. -/
def nextBound (lb : warp.IntervalPoint) (cfgs : List TabletConfig) : warp.IntervalPoint :=
  match cfgs.getLast? with
  | none => lb
  | some c => c.rows.upperBound.getAdjacentComplement

/-- What holds of the configs loaded between two iterations of the scan: they
tile the rows from −∞, none is loaded before the first cell, and after a cell
the last one has the rows `prevRows`. -/
def TileInv (st : LoadState) : Prop :=
  TiledFrom minusInfinity st.cfgs ∧ (st.prev = none → st.cfgs = []) ∧
  (∀ p, st.prev = some p →
    st.loadedPrev = true ∧ ∃ front c, st.cfgs = front ++ [c] ∧ c.rows = st.prevRows)

/-- The config cell of a tablet with the rows (−∞, "row3"] and one fragment. -/
def cellWide : StoredCell :=
  { row := row3, column := configColumn, timestamp := 0,
    value := toyPrint [(ConfigKey.tables 0, [100, 105, 115, 107, 58, 116, 47, 50])] }

/-- The config that `cellWide` stores under the root "/root". -/
def configWide : TabletConfig :=
  { rows := { lowerBound := minusInfinity,
              upperBound := { value := row3, type := warp.PointType.PT_INCLUSIVE_UPPER_BOUND } },
    uris := [uri2] }

/-- The variables of `loadTabletConfigs` after it has read `cell0` alone and
repaired the gap before it. -/
def stateGap : LoadState :=
  { prevRows := (expandedConfig minusInfinity config0).rows, changedMeta := true,
    loadedPrev := true, prev := some cell0, cfgs := [expandedConfig minusInfinity config0],
    ops := [MetaOp.set cell0.row cell0.column cell0.timestamp
      (toyPrint
        [(ConfigKey.tables 0, [100, 105, 115, 107, 58, 116, 47, 49]),
         (ConfigKey.tables 1, [100, 105, 115, 107, 58, 116, 47, 50])])] }

/-- The variables of `loadTabletConfigs` after it has read `cell0` and then
`cellWide`. -/
def stateWide : LoadState :=
  { prevRows := configWide.rows, changedMeta := true, loadedPrev := true,
    prev := some cellWide, cfgs := [configWide],
    ops := stateGap.ops ++ [MetaOp.erase cell0.row cell0.column cell0.timestamp] }

/-! ## `kdi::meta::MetaTable`

`kdi/meta/meta_cache.h`, `kdi/table.h` and `warp/interval.h` are not among the
sources. -/

/-- Modelled from the spec: `kdi::meta::MetaEntry` (meta_cache.h), "(rows:
Interval<string>, location: string)". -/
structure MetaEntry where
  rows : warp.Interval
  location : Bytes
  deriving DecidableEq, Repr

/-- Modelled from the spec: what `MetaTable::getTablet` calls and is not among
the sources, taken as parameters: `Interval::contains(row, warp::less())`;
`MetaCache::lookup(tableName, row)` on a cache in the state `C`, which returns
an entry and leaves the cache in a new state, or raises; and
`Table::open(location)`, which returns a handle or raises. -/
structure MetaEnv (C H E : Type) where
  contains : warp.Interval → Bytes → Bool
  lookup : C → Bytes → Bytes → Except E (C × MetaEntry)
  tableOpen : Bytes → Except E H

/-- The class `kdi::meta::MetaTable`.  `tabletCache` is the `std::map` from
location to handle and touched flag, as the list of its entries (`getTablet`
never iterates over it, so their order plays no part); `lastIt` is the key of
the entry the iterator points at, `none` for `tabletCache.end()`. -/
structure MetaTable (C H : Type) where
  metaCache : C
  tableName : Bytes
  tabletCache : List (Bytes × (H × Bool))
  lastRows : warp.Interval
  lastIt : Option Bytes

/-- A call `getTablet` makes outside MetaTable. -/
inductive MetaEvent where
  | lookup (row : Bytes)
  | tableOpen (location : Bytes)
  deriving DecidableEq, Repr

/-- How a call of `getTablet` can fail: an exception of `lookup` or of
`Table::open`, or the dereference of the end iterator. -/
inductive MetaError (E : Type) where
  | raised (e : E)
  | endIterator
  deriving DecidableEq, Repr

namespace MetaTable

variable {C H E : Type}

/-- The call `tabletCache.find(location)`: the entry with that key, if any. -/
def find (t : MetaTable C H) (location : Bytes) : Option (H × Bool) :=
  (t.tabletCache.find? fun e => e.1 = location).map fun e => e.2

/-- The assignment `lastIt->second.second = true` on the entry with the key
`location`. -/
def touch (t : MetaTable C H) (location : Bytes) : MetaTable C H :=
  { t with tabletCache := t.tabletCache.map fun e =>
      if e.1 = location then (e.1, (e.2.1, true)) else e }

/-- The end of `getTablet`: mark the entry `lastIt` points at as touched and
return its handle. -/
def finish (t : MetaTable C H) (events : List MetaEvent) :
    Except (MetaError E) H × MetaTable C H × List MetaEvent :=
  match t.lastIt with
  | none => (Except.error MetaError.endIterator, t, events)
  | some location =>
    match t.find location with
    | none => (Except.error MetaError.endIterator, t, events)
    | some entry => (Except.ok entry.1, t.touch location, events)

/-- The method `MetaTable::getTablet`: the handle returned or the error, the
table after the call, and the calls made outside, in order. -/
def getTablet (env : MetaEnv C H E) (t : MetaTable C H) (row : Bytes) :
    Except (MetaError E) H × MetaTable C H × List MetaEvent :=
  if !env.contains t.lastRows row then
    match env.lookup t.metaCache t.tableName row with
    | Except.error e => (Except.error (MetaError.raised e), t, [MetaEvent.lookup row])
    | Except.ok (cache, ent) =>
      let t₁ : MetaTable C H :=
        { t with
          metaCache := cache
          lastRows := ent.rows
          lastIt := (t.find ent.location).map fun _ => ent.location }
      if t₁.lastIt = none then
        match env.tableOpen ent.location with
        | Except.error e =>
          (Except.error (MetaError.raised e), t₁,
            [MetaEvent.lookup row, MetaEvent.tableOpen ent.location])
        | Except.ok handle =>
          finish
            { t₁ with
              tabletCache := t₁.tabletCache ++ [(ent.location, (handle, true))]
              lastIt := some ent.location }
            [MetaEvent.lookup row, MetaEvent.tableOpen ent.location]
      else finish t₁ [MetaEvent.lookup row]
  else finish t []

/-- A sequence of calls of `getTablet`, stopped at the first error: the handles
returned, the table after the calls, and the calls made outside. -/
def getTablets (env : MetaEnv C H E) :
    MetaTable C H → List Bytes → Except (MetaError E) (List H) × MetaTable C H × List MetaEvent
  | t, [] => (Except.ok [], t, [])
  | t, row :: rows =>
    match getTablet env t row with
    | (Except.error e, t₁, events) => (Except.error e, t₁, events)
    | (Except.ok handle, t₁, events) =>
      match getTablets env t₁ rows with
      | (Except.error e, t₂, more) => (Except.error e, t₂, events ++ more)
      | (Except.ok handles, t₂, more) => (Except.ok (handle :: handles), t₂, events ++ more)

/-- The locations that have an entry in the location cache. -/
def keys (t : MetaTable C H) : List Bytes := t.tabletCache.map fun e => e.1

/-- A table between two calls: the keys of the location cache are distinct, and
when the last rows contain some row, the iterator points at an entry. -/
def WF (env : MetaEnv C H E) (t : MetaTable C H) : Prop :=
  t.keys.Nodup ∧
  ((∃ row, env.contains t.lastRows row = true) → ∃ location, t.lastIt = some location) ∧
  (∀ location, t.lastIt = some location → location ∈ t.keys)

end MetaTable

/-- The locations opened by a sequence of calls. -/
def openedLocations (events : List MetaEvent) : List Bytes :=
  events.filterMap fun ev =>
    match ev with
    | MetaEvent.tableOpen location => some location
    | MetaEvent.lookup _ => none

/-- The rows looked up by a sequence of calls. -/
def lookedUp (events : List MetaEvent) : List Bytes :=
  events.filterMap fun ev =>
    match ev with
    | MetaEvent.lookup row => some row
    | MetaEvent.tableOpen _ => none

/-- A concrete environment, used to instantiate the theorems: an interval
contains the rows from its lower value up to, but not including, its upper
value; the rows below "row2" are at the location "A", the others at "B"; the
handle of a location is the location itself. -/
def toyMetaEnv : MetaEnv Unit Bytes Unit where
  contains := fun i row => decide (i.lowerBound.value ≤ row) && decide (row < i.upperBound.value)
  lookup := fun c _ row =>
    Except.ok (c,
      if row < row2 then
        { rows := { lowerBound := { value := [], type := warp.PointType.PT_INCLUSIVE_LOWER_BOUND },
                    upperBound := { value := row2, type := warp.PointType.PT_EXCLUSIVE_UPPER_BOUND } },
          location := [65] }
      else
        { rows := { lowerBound := { value := row2, type := warp.PointType.PT_INCLUSIVE_LOWER_BOUND },
                    upperBound := { value := [255], type := warp.PointType.PT_EXCLUSIVE_UPPER_BOUND } },
          location := [66] })
  tableOpen := fun location => Except.ok location

/-- A table that has made no call yet: no location cached, last rows that
contain no row, the iterator at the end. -/
def toyMetaTable : MetaTable Unit Bytes :=
  { metaCache := (), tableName := [116], tabletCache := [],
    lastRows := { lowerBound := { value := [], type := warp.PointType.PT_INCLUSIVE_LOWER_BOUND },
                  upperBound := { value := [], type := warp.PointType.PT_EXCLUSIVE_UPPER_BOUND } },
    lastIt := none }

/-! # Theorems -/

/-! ## Facts about `string_compare` -/

theorem string_compare_neg_iff (a b : Bytes) : string_compare a b < 0 ↔ a < b := by
  induction a generalizing b with
  | nil =>
    cases b with
    | nil => simp [string_compare]
    | cons y ys =>
      simp only [string_compare]
      exact ⟨fun _ => List.Lex.nil, fun _ => by decide⟩
  | cons x xs ih =>
    cases b with
    | nil => simp [string_compare]
    | cons y ys =>
      unfold string_compare
      by_cases h₁ : x < y
      · simp only [h₁, if_true]
        constructor
        · intro _; exact List.Lex.rel h₁
        · intro _; decide
      · by_cases h₂ : y < x
        · simp only [h₁, h₂, if_false, if_true]
          constructor
          · intro h; exact absurd h (by decide)
          · intro h
            cases h with
            | cons h => exact absurd h₂ (lt_irrefl _)
            | rel h => exact absurd h h₁
        · have hxy : x = y := le_antisymm (not_lt.mp h₂) (not_lt.mp h₁)
          subst hxy
          simp only [h₁, if_false]
          rw [ih ys]
          exact (List.Lex.cons_iff).symm

theorem string_compare_eq_zero_iff (a b : Bytes) : string_compare a b = 0 ↔ a = b := by
  induction a generalizing b with
  | nil =>
    cases b with
    | nil => simp [string_compare]
    | cons y ys => simp [string_compare]
  | cons x xs ih =>
    cases b with
    | nil => simp [string_compare]
    | cons y ys =>
      unfold string_compare
      by_cases h₁ : x < y
      · simp only [h₁, if_true]
        constructor
        · intro h; exact absurd h (by decide)
        · intro h
          injection h with h _
          exact absurd h₁ (h ▸ lt_irrefl _)
      · by_cases h₂ : y < x
        · simp only [h₁, h₂, if_false, if_true]
          constructor
          · intro h; exact absurd h (by decide)
          · intro h
            injection h with h _
            exact absurd h₂ (h ▸ lt_irrefl _)
        · have hxy : x = y := le_antisymm (not_lt.mp h₂) (not_lt.mp h₁)
          subst hxy
          simp only [h₁, if_false]
          rw [ih ys]
          simp

/-! ## `Cell::operator==` and `Cell::operator<` -/

/-- C1: on the generic path of `Cell::operator<` (two non-null cells with
different interpreters) the comparison returns, and it returns true exactly when
the row is lexicographically smaller, or the rows are equal and the column is
smaller, or rows and columns are equal and the timestamp is greater. -/
theorem Cell.opLt_generic_canonical {D : Type} (ia io : CellInterpreter D) (da db : D)
    (h : ia.addr ≠ io.addr) :
    Cell.opLt ⟨some ia, da⟩ ⟨some io, db⟩ =
      some (decide
        (ia.getRow da < io.getRow db ∨
         (ia.getRow da = io.getRow db ∧ ia.getColumn da < io.getColumn db) ∨
         (ia.getRow da = io.getRow db ∧ ia.getColumn da = io.getColumn db ∧
            ia.getTimestamp da > io.getTimestamp db))) := by
  have hne : ¬ (some ia.addr = some io.addr) := fun e => h (Option.some.inj e)
  simp only [Cell.opLt, Option.map_some', hne, if_false, Cell.lessGeneric, Cell.getRow,
    Cell.getColumn, Cell.getTimestamp, Option.bind_eq_bind, Option.some_bind, ne_eq, ite_not,
    Option.pure_def]
  by_cases hr : string_compare (ia.getRow da) (io.getRow db) = 0
  · have hr' := (string_compare_eq_zero_iff _ _).mp hr
    by_cases hc : string_compare (ia.getColumn da) (io.getColumn db) = 0
    · have hc' := (string_compare_eq_zero_iff _ _).mp hc
      simp only [hr, hc, if_true, Option.some.injEq, decide_eq_decide]
      rw [hr', hc']
      simp [lt_irrefl]
    · have hc' : ia.getColumn da ≠ io.getColumn db :=
        fun e => hc ((string_compare_eq_zero_iff _ _).mpr e)
      simp only [hr, hc, if_true, if_false, Option.some.injEq, decide_eq_decide]
      rw [string_compare_neg_iff, hr']
      simp [lt_irrefl, hc']
  · have hr' : ia.getRow da ≠ io.getRow db :=
      fun e => hr ((string_compare_eq_zero_iff _ _).mpr e)
    simp only [hr, if_false, Option.some.injEq, decide_eq_decide]
    rw [string_compare_neg_iff]
    simp [hr']

/-- Witness of C1: two cells of different interpreters that differ only in the
timestamp; the newer one sorts first. -/
theorem Cell.opLt_generic_canonical_witness :
    (tripleInterp 1).addr ≠ (tripleInterp 2).addr ∧
    Cell.opLt ⟨some (tripleInterp 1), ([1], [2], 42)⟩ ⟨some (tripleInterp 2), ([1], [2], 23)⟩ =
      some (decide
        (([1] : Bytes) < [1] ∨ (([1] : Bytes) = [1] ∧ ([2] : Bytes) < [2]) ∨
         (([1] : Bytes) = [1] ∧ ([2] : Bytes) = [2] ∧ (42 : Int) > 23))) :=
  ⟨by decide,
   Cell.opLt_generic_canonical (tripleInterp 1) (tripleInterp 2) ([1], [2], 42) ([1], [2], 23)
     (by decide)⟩

/-- C2: for two non-null cells `Cell::operator==` returns, and it returns true
exactly when row, column and timestamp are equal; neither the value nor the
erasure flag is consulted, so a cell and an erasure with one key are equal. -/
theorem Cell.opEq_iff_key_eq {D : Type} (ia io : CellInterpreter D) (da db : D) :
    Cell.opEq ⟨some ia, da⟩ ⟨some io, db⟩ =
        some (decide (ia.getRow da = io.getRow db ∧ ia.getColumn da = io.getColumn db ∧
          ia.getTimestamp da = io.getTimestamp db)) ∧
    (ia.getRow da = io.getRow db → ia.getColumn da = io.getColumn db →
      ia.getTimestamp da = io.getTimestamp db →
      ∀ (va vb : D → Bytes) (ea eb : D → Bool),
        Cell.opEq ⟨some { ia with getValue := va, isErasure := ea }, da⟩
          ⟨some { io with getValue := vb, isErasure := eb }, db⟩ = some true) := by
  have key : ∀ (ja jo : CellInterpreter D),
      Cell.opEq ⟨some ja, da⟩ ⟨some jo, db⟩ =
        some (decide (ja.getRow da = jo.getRow db ∧ ja.getColumn da = jo.getColumn db ∧
          ja.getTimestamp da = jo.getTimestamp db)) := by
    intro ja jo
    simp only [Cell.opEq, Cell.getRow, Cell.getColumn, Cell.getTimestamp, Option.map_some',
      Option.bind_eq_bind, Option.some_bind, Option.pure_def]
    by_cases hr : ja.getRow da = jo.getRow db
    · by_cases hc : ja.getColumn da = jo.getColumn db
      · simp [hr, hc]
      · simp [hr, hc]
    · simp [hr]
  refine ⟨key ia io, ?_⟩
  intro hr hc ht va vb ea eb
  rw [key]
  simp [hr, hc, ht]

/-! ## The string pool -/

theorem lookupString_append_of_some {strings : List (Nat × Bytes)} {off : Nat} {x : Bytes}
    (extra : List (Nat × Bytes)) (h : lookupString strings off = some x) :
    lookupString (strings ++ extra) off = some x := by
  unfold lookupString at h ⊢
  rw [List.find?_append]
  cases hf : strings.find? (fun e => decide (e.1 = off)) with
  | none => simp [hf] at h
  | some e => simpa [hf] using h

theorem lookupString_append_new {strings : List (Nat × Bytes)} {off : Nat} (s : Bytes)
    (h : ∀ e ∈ strings, e.1 < off) :
    lookupString (strings ++ [(off, s)]) off = some s := by
  unfold lookupString
  rw [List.find?_append]
  have hnone : strings.find? (fun e => decide (e.1 = off)) = none := by
    rw [List.find?_eq_none]
    intro e he
    have := h e he
    simp only [decide_eq_true_eq]
    omega
  simp [hnone]

theorem StringPoolBuilder.reset_WF : StringPoolBuilder.reset.WF := by
  constructor <;> intro e he <;> simp [StringPoolBuilder.reset] at he

/-- What `getStringOffset` guarantees on a well-formed pool. -/
theorem StringPoolBuilder.getStringOffset_spec (p : StringPoolBuilder) (s : Bytes) (hp : p.WF) :
    (p.getStringOffset s).2.WF ∧
    lookupString (p.getStringOffset s).2.entries (p.getStringOffset s).1 = some s ∧
    (∃ extra, (p.getStringOffset s).2.entries = p.entries ++ extra) ∧
    p.dataSz ≤ (p.getStringOffset s).2.dataSz ∧
    (p.getStringOffset s).1 < (p.getStringOffset s).2.dataSz := by
  unfold StringPoolBuilder.getStringOffset
  cases hf : p.entries.find? (fun e => decide (e.2 = s)) with
  | some e =>
    have hmem : e ∈ p.entries := List.mem_of_find?_eq_some hf
    have hes : e.2 = s := by simpa using List.find?_some hf
    refine ⟨hp, ?_, ⟨[], by simp⟩, le_refl _, hp.2 e hmem⟩
    simpa [hes] using hp.1 e hmem
  | none =>
    simp only
    refine ⟨⟨?_, ?_⟩, lookupString_append_new s hp.2, ⟨_, rfl⟩, by omega, by omega⟩
    · intro e he
      rcases List.mem_append.mp he with h | h
      · exact lookupString_append_of_some _ (hp.1 e h)
      · have : e = (p.dataSz, s) := by simpa using h
        subst this
        exact lookupString_append_new s hp.2
    · intro e he
      rcases List.mem_append.mp he with h | h
      · have := hp.2 e h
        show e.1 < p.dataSz + (4 + s.length)
        omega
      · have : e = (p.dataSz, s) := by simpa using h
        subst this
        show p.dataSz < p.dataSz + (4 + s.length)
        omega

/-! ## Decoding stored cells -/

theorem derefString_mono {str str' : List (Nat × Bytes)}
    (h : ∀ o x, lookupString str o = some x → lookupString str' o = some x)
    {r : Ref} {x : Bytes} (hr : derefString str r = some x) : derefString str' r = some x := by
  cases r with
  | null => simp [derefString] at hr
  | pool off => exact h off x hr

theorem decodeCell_mono {str str' : List (Nat × Bytes)}
    (h : ∀ o x, lookupString str o = some x → lookupString str' o = some x)
    {c : CellData} {e : Emit} (hc : decodeCell str c = some e) : decodeCell str' c = some e := by
  unfold decodeCell at hc ⊢
  cases hr : derefString str c.row with
  | none => simp [hr] at hc
  | some row =>
    cases hcol : derefString str c.column with
    | none => simp [hr, hcol] at hc
    | some col =>
      rw [derefString_mono h hr, derefString_mono h hcol]
      rw [hr, hcol] at hc
      cases hv : c.value with
      | null => simpa [hv] using hc
      | pool off =>
        simp only [hv, Option.bind_eq_bind, Option.some_bind] at hc ⊢
        cases hl : lookupString str off with
        | none => simp [hl] at hc
        | some v =>
          rw [h off v hl]
          simpa [hl] using hc

theorem Decodes.mono_strings {str str' : List (Nat × Bytes)}
    (h : ∀ o x, lookupString str o = some x → lookupString str' o = some x)
    {cells : List CellData} {es : List Emit} (hd : Decodes str cells es) :
    Decodes str' cells es :=
  List.Forall₂.imp (fun _ _ hc => decodeCell_mono h hc) hd

theorem Decodes.append {str : List (Nat × Bytes)} {cells : List CellData} {es : List Emit}
    {c : CellData} {e : Emit} (hd : Decodes str cells es) (hc : decodeCell str c = some e) :
    Decodes str (cells ++ [c]) (es ++ [e]) :=
  List.rel_append hd (List.Forall₂.cons hc List.Forall₂.nil)

theorem Decodes.cells_length_eq {str : List (Nat × Bytes)} {cells : List CellData} {es : List Emit}
    (hd : Decodes str cells es) : cells.length = es.length :=
  List.Forall₂.length_eq hd

theorem decodeKey_of_decodeCell {str : List (Nat × Bytes)} {c : CellData} {e : Emit}
    (hc : decodeCell str c = some e) :
    decodeKey str c = some { row := e.row, column := e.column, timestamp := e.timestamp } := by
  unfold decodeCell at hc
  unfold decodeKey
  cases hr : derefString str c.row with
  | none => simp [hr] at hc
  | some row =>
    cases hcol : derefString str c.column with
    | none => simp [hr, hcol] at hc
    | some col =>
      rw [hr, hcol] at hc
      cases hv : c.value with
      | null =>
        simp only [hv, Option.bind_eq_bind, Option.some_bind, Option.pure_def,
          Option.some.injEq] at hc
        subst hc
        simp [Emit.row, Emit.column, Emit.timestamp]
      | pool off =>
        simp only [hv, Option.bind_eq_bind, Option.some_bind] at hc
        cases hl : lookupString str off with
        | none => simp [hl] at hc
        | some v =>
          simp only [hl, Option.some_bind, Option.pure_def, Option.some.injEq] at hc
          subst hc
          simp [Emit.row, Emit.column, Emit.timestamp]

theorem lookup_mono_of_append {str : List (Nat × Bytes)} (extra : List (Nat × Bytes)) :
    ∀ o x, lookupString str o = some x → lookupString (str ++ extra) o = some x :=
  fun _ _ h => lookupString_append_of_some extra h

/-! ## `Impl::addCell` -/

theorem Impl.addCell_block (s : Impl) (row column : Bytes) (t : Int) (value : Bytes)
    (er : Bool) :
    (s.addCell row column t value er).block =
      { s.block with
        pool := addCellPool s.block.pool row column value er
        arr := s.block.arr ++ [addCellData s.block.pool row column t value er]
        nItems := s.block.nItems + 1 } := by
  cases er <;> simp only [Impl.addCell, addCellPool, addCellData, Bool.not_false, Bool.not_true,
    if_true, Bool.false_eq_true, if_false] <;> split_ifs <;> rfl

theorem Impl.addCell_frame (s : Impl) (row column : Bytes) (t : Int) (value : Bytes)
    (er : Bool) :
    (s.addCell row column t value er).fp = s.fp ∧
    (s.addCell row column t value er).blockSize = s.blockSize ∧
    (s.addCell row column t value er).index = s.index ∧
    (s.addCell row column t value er).cellCount = s.cellCount ∧
    (s.addCell row column t value er).colFamilyMasks = s.colFamilyMasks ∧
    (s.addCell row column t value er).nextColMask = s.nextColMask ∧
    (s.addCell row column t value er).curColMask = s.curColMask := by
  cases er <;> simp only [Impl.addCell] <;> split_ifs <;> simp

theorem Impl.addCell_times (s : Impl) (row column : Bytes) (t : Int) (value : Bytes)
    (er : Bool) :
    (s.addCell row column t value er).lowestTime =
      (if s.block.nItems + 1 = 1 then t else if t < s.lowestTime then t else s.lowestTime) ∧
    (s.addCell row column t value er).highestTime =
      (if s.block.nItems + 1 = 1 then t else if t > s.highestTime then t else s.highestTime) := by
  cases er <;> simp only [Impl.addCell] <;> split_ifs <;> simp

theorem IsTimeRange.single (c : CellData) : IsTimeRange c.timestamp c.timestamp [c] := by
  refine ⟨?_, ⟨c, by simp, rfl⟩, ⟨c, by simp, rfl⟩⟩
  intro d hd
  have : d = c := by simpa using hd
  subst this
  exact ⟨le_refl _, le_refl _⟩

theorem IsTimeRange.snoc_cell {lo hi : Int} {cells : List CellData} (c : CellData)
    (h : IsTimeRange lo hi cells) :
    IsTimeRange (if c.timestamp < lo then c.timestamp else lo)
      (if c.timestamp > hi then c.timestamp else hi) (cells ++ [c]) := by
  obtain ⟨hall, ⟨cl, hcl, hlo⟩, ⟨ch, hch, hhi⟩⟩ := h
  refine ⟨?_, ?_, ?_⟩
  · intro d hd
    rcases List.mem_append.mp hd with hd | hd
    · have := hall d hd
      constructor <;> split_ifs <;> omega
    · have : d = c := by simpa using hd
      subst this
      constructor <;> split_ifs <;> omega
  · by_cases hlt : c.timestamp < lo
    · exact ⟨c, by simp, by simp [hlt]⟩
    · exact ⟨cl, List.mem_append_left _ hcl, by simp [hlt, hlo]⟩
  · by_cases hgt : c.timestamp > hi
    · exact ⟨c, by simp, by simp [hgt]⟩
    · exact ⟨ch, List.mem_append_left _ hch, by simp [hgt, hhi]⟩

/-- The cell `addCell` appends decodes, in the pool `addCell` leaves, to the
emitted cell; the pool stays well-formed and only grows. -/
theorem addCell_decodes (pool : StringPoolBuilder) (e : Emit) (hp : pool.WF) :
    (addCellPool pool e.row e.column e.valueArg e.isErasure).WF ∧
    (∃ extra, (addCellPool pool e.row e.column e.valueArg e.isErasure).entries =
        pool.entries ++ extra) ∧
    decodeCell (addCellPool pool e.row e.column e.valueArg e.isErasure).entries
      (addCellData pool e.row e.column e.timestamp e.valueArg e.isErasure) = some e := by
  obtain ⟨hw₁, hl₁, ⟨x₁, hx₁⟩, -, -⟩ := pool.getStringOffset_spec e.row hp
  obtain ⟨hw₂, hl₂, ⟨x₂, hx₂⟩, -, -⟩ :=
    (pool.getStringOffset e.row).2.getStringOffset_spec e.column hw₁
  cases e with
  | erasure row column t =>
    simp only [Emit.row, Emit.column, Emit.valueArg, Emit.isErasure, Emit.timestamp,
      addCellPool, addCellData, if_true] at *
    refine ⟨hw₂, ⟨x₁ ++ x₂, by rw [hx₂, hx₁, List.append_assoc]⟩, ?_⟩
    have hrow : lookupString ((pool.getStringOffset row).2.getStringOffset column).2.entries
        (pool.getStringOffset row).1 = some row := by
      rw [hx₂]; exact lookupString_append_of_some _ hl₁
    simp [decodeCell, derefString, hrow, hl₂]
  | cell row column t value =>
    simp only [Emit.row, Emit.column, Emit.valueArg, Emit.isErasure, Emit.timestamp,
      addCellPool, addCellData, Bool.false_eq_true, if_false] at *
    obtain ⟨hw₃, hl₃, ⟨x₃, hx₃⟩, -, -⟩ :=
      ((pool.getStringOffset row).2.getStringOffset column).2.getStringOffset_spec value hw₂
    refine ⟨hw₃, ⟨x₁ ++ x₂ ++ x₃, by rw [hx₃, hx₂, hx₁]; simp [List.append_assoc]⟩, ?_⟩
    have hrow : lookupString
        (((pool.getStringOffset row).2.getStringOffset column).2.getStringOffset value).2.entries
        (pool.getStringOffset row).1 = some row := by
      rw [hx₃, hx₂, List.append_assoc]; exact lookupString_append_of_some _ hl₁
    have hcol : lookupString
        (((pool.getStringOffset row).2.getStringOffset column).2.getStringOffset value).2.entries
        ((pool.getStringOffset row).2.getStringOffset column).1 = some column := by
      rw [hx₃]; exact lookupString_append_of_some _ hl₂
    simp [decodeCell, derefString, hrow, hcol, hl₃]

/-- The invariant is kept by `addCell`, which adds the emitted cell to the
pending block. -/
theorem ImplInv.addCell {s : Impl} {blocks : List (Record CellData)} {ess : List (List Emit)}
    {pend : List Emit} (h : ImplInv s blocks ess pend) (e : Emit) :
    ImplInv (Impl.addCell { s with cellCount := s.cellCount + 1 } e.row e.column e.timestamp
      e.valueArg e.isErasure) blocks ess (pend ++ [e]) := by
  obtain ⟨hw, ⟨extra, hext⟩, hdec⟩ := addCell_decodes s.block.pool e h.blockPool
  have hb := Impl.addCell_block { s with cellCount := s.cellCount + 1 } e.row e.column
    e.timestamp e.valueArg e.isErasure
  obtain ⟨-, -, hidx, hcnt, hcfm, -, hccm⟩ :=
    Impl.addCell_frame { s with cellCount := s.cellCount + 1 } e.row e.column
      e.timestamp e.valueArg e.isErasure
  obtain ⟨hlo, hhi⟩ := Impl.addCell_times { s with cellCount := s.cellCount + 1 } e.row e.column
    e.timestamp e.valueArg e.isErasure
  constructor
  · rw [hb]; exact hw
  · rw [hidx]; exact h.indexPool
  · rw [hb]; simp [h.nItems]
  · rw [hb]
    refine Decodes.append (Decodes.mono_strings ?_ h.pending) hdec
    show ∀ o x, lookupString s.block.pool.entries o = some x → _
    intro o x hx
    show lookupString (addCellPool s.block.pool e.row e.column e.valueArg e.isErasure).entries o
      = some x
    rw [hext]; exact lookupString_append_of_some _ hx
  · rw [hb]; exact h.blockFams
  · rw [hb]; exact h.elemSize
  · rw [hidx]; exact h.indexItems
  · rw [hidx]; exact h.indexFams
  · exact h.blocksOk
  · rw [hidx]; exact h.entries
  · intro _
    rw [hlo, hhi, hb]
    show IsTimeRange _ _ (s.block.arr ++ [addCellData s.block.pool e.row e.column e.timestamp
      e.valueArg e.isErasure])
    have hts : (addCellData s.block.pool e.row e.column e.timestamp e.valueArg
        e.isErasure).timestamp = e.timestamp := rfl
    by_cases hnil : s.block.arr = []
    · have hn : s.block.nItems = 0 := by rw [h.nItems, hnil]; rfl
      simp only [hn, hnil, List.nil_append, zero_add, if_true]
      have := IsTimeRange.single (addCellData s.block.pool e.row e.column e.timestamp e.valueArg
        e.isErasure)
      rwa [hts] at this
    · have hn : ¬ (s.block.nItems + 1 = 1) := by
        have : s.block.arr.length ≠ 0 := fun h0 => hnil (List.length_eq_zero.mp h0)
        rw [h.nItems]; omega
      simp only [hn, if_false]
      have := IsTimeRange.snoc_cell (addCellData s.block.pool e.row e.column e.timestamp e.valueArg
        e.isErasure) (h.times hnil)
      rwa [hts] at this
  · rw [hcnt]
    show s.cellCount + 1 = _
    rw [h.count]; simp; omega
  · rw [hcfm, hccm]; exact h.masks

/-! ## Index entries and `writeCellBlock` -/

theorem blocksFile_tell_append (blocks : List (Record CellData)) (b : Record CellData) :
    (blocksFile (blocks ++ [b])).tell =
      (blocksFile blocks).tell + (FileRecord.cellBlock b).fileSize := by
  simp [blocksFile, File.tell]

theorem EntryOk.mono_entry {str str' : List (Nat × Bytes)}
    (h : ∀ o x, lookupString str o = some x → lookupString str' o = some x)
    {base : Nat} {e : IndexEntryV1} {b : Record CellData} (he : EntryOk str base e b) :
    EntryOk str' base e b := by
  obtain ⟨h₁, h₂, h₃, ⟨row, hr₁, hr₂⟩, h₅⟩ := he
  exact ⟨h₁, h₂, h₃, ⟨row, hr₁, derefString_mono h hr₂⟩, h₅⟩

theorem EntriesMatch.mono_entries {str str' : List (Nat × Bytes)}
    (h : ∀ o x, lookupString str o = some x → lookupString str' o = some x) :
    ∀ {base : Nat} {es : List IndexEntryV1} {bs : List (Record CellData)},
      EntriesMatch str base es bs → EntriesMatch str' base es bs
  | _, [], [], _ => trivial
  | _, _ :: _, _ :: _, hm => ⟨EntryOk.mono_entry h hm.1, EntriesMatch.mono_entries h hm.2⟩
  | _, [], _ :: _, hm => hm.elim
  | _, _ :: _, [], hm => hm.elim

theorem EntriesMatch.snoc_block {str : List (Nat × Bytes)} :
    ∀ {base : Nat} {es : List IndexEntryV1} {bs : List (Record CellData)} {e : IndexEntryV1}
      {b : Record CellData}, EntriesMatch str base es bs →
      EntryOk str (base + (blocksFile bs).tell) e b →
      EntriesMatch str base (es ++ [e]) (bs ++ [b])
  | _, [], [], _, _, _, he => by
    simpa [EntriesMatch, blocksFile, File.tell] using he
  | base, e₀ :: es, b₀ :: bs, e, b, hm, he => by
    refine ⟨hm.1, EntriesMatch.snoc_block hm.2 ?_⟩
    have : base + (FileRecord.cellBlock b₀).fileSize + (blocksFile bs).tell =
        base + (blocksFile (b₀ :: bs)).tell := by
      simp [blocksFile, File.tell]; omega
    rw [this]; exact he
  | _, [], _ :: _, _, _, hm, _ => hm.elim
  | _, _ :: _, [], _, _, hm, _ => hm.elim

theorem EntriesMatch.entries_length_eq {str : List (Nat × Bytes)} :
    ∀ {base : Nat} {es : List IndexEntryV1} {bs : List (Record CellData)},
      EntriesMatch str base es bs → es.length = bs.length
  | _, [], [], _ => rfl
  | _, _ :: _, _ :: _, hm => by simp [EntriesMatch.entries_length_eq hm.2]
  | _, [], _ :: _, hm => hm.elim
  | _, _ :: _, [], hm => hm.elim

theorem derefRow_of_decodeCell {str : List (Nat × Bytes)} {c : CellData} {e : Emit}
    (hc : decodeCell str c = some e) : derefString str c.row = some e.row := by
  have hkey := decodeKey_of_decodeCell hc
  unfold decodeKey at hkey
  cases hr : derefString str c.row with
  | none => simp [hr] at hkey
  | some row =>
    cases hcol : derefString str c.column with
    | none => simp [hr, hcol] at hkey
    | some col =>
      simp only [hr, hcol, Option.bind_eq_bind, Option.some_bind, Option.pure_def,
        Option.some.injEq, CellKey.mk.injEq] at hkey
      rw [hkey.1]

/-- The last row of a block whose cells decode is the row of the last cell. -/
theorem lastRowOf_of_decodes {b : Record CellData} {es : List Emit}
    (hn : b.nItems = b.arr.length) (hd : Decodes b.strings b.arr es) (hne : es ≠ []) :
    ∃ e, es.getLast? = some e ∧ Impl.lastRowOf b = some e.row := by
  have hlen := hd.cells_length_eq
  have hpos : 0 < es.length := List.length_pos.mpr hne
  have hi₁ : es.length - 1 < b.arr.length := by omega
  have hi₂ : es.length - 1 < es.length := by omega
  have hrel := List.Forall₂.get hd hi₁ hi₂
  refine ⟨es.get ⟨es.length - 1, hi₂⟩, ?_, ?_⟩
  · rw [List.getLast?_eq_getElem?, List.getElem?_eq_getElem hi₂]
    rfl
  · have hget : b.arr.get? (es.length - 1) = some (b.arr.get ⟨es.length - 1, hi₁⟩) :=
      List.get?_eq_get hi₁
    generalize b.arr.get ⟨es.length - 1, hi₁⟩ = c at hrel hget
    have hrow := derefRow_of_decodeCell hrel
    unfold Impl.lastRowOf
    have hn0 : b.nItems ≠ 0 := by omega
    have hidx : b.nItems - 1 = es.length - 1 := by omega
    simp only [hn0, if_false, hidx, hget]
    cases hr : c.row with
    | null => simp [hr, derefString] at hrow
    | pool off => simpa [hr, derefString] using hrow

theorem Impl.addIndexEntry_eq (s : Impl) (fs : FS) (cbRec : Record CellData) {f : String}
    {lastRow : Bytes} (hfp : s.fp = some f) (hrow : Impl.lastRowOf cbRec = some lastRow) :
    s.addIndexEntry fs cbRec = some (s.withIndexEntry (fs f).tell cbRec lastRow) := by
  simp [Impl.addIndexEntry, Impl.withIndexEntry, hfp, hrow]

theorem Impl.writeCellBlock_eq (s : Impl) (fs : FS) {f : String} {lastRow : Bytes}
    (hfp : s.fp = some f) (hrow : Impl.lastRowOf s.block.build = some lastRow) :
    s.writeCellBlock fs =
      some ({ s.withIndexEntry (fs f).tell s.block.build lastRow with block := s.block.reset },
            fs.put f (FileRecord.cellBlock s.block.build)) := by
  simp [Impl.writeCellBlock, Impl.addIndexEntry_eq s fs s.block.build hfp hrow,
    Impl.withIndexEntry, hfp]

/-- Flushing a pending block that holds at least one cell: the record is put at
the end of the file, its index entry is added, and the invariant holds with an
empty pending block. -/
theorem ImplInv.writeCellBlock {s : Impl} {blocks : List (Record CellData)}
    {ess : List (List Emit)} {pend : List Emit} (h : ImplInv s blocks ess pend)
    (hpend : pend ≠ []) {f : String} (hfp : s.fp = some f) (fs : FS)
    (hfile : fs f = blocksFile blocks) :
    ∃ s', s.writeCellBlock fs = some (s', fs.put f (FileRecord.cellBlock s.block.build)) ∧
      s'.fp = some f ∧ s'.blockSize = s.blockSize ∧ s'.cellCount = s.cellCount ∧
      ImplInv s' (blocks ++ [s.block.build]) (ess ++ [pend]) [] := by
  have hbn : s.block.build.nItems = s.block.build.arr.length := h.nItems
  have hbd : Decodes s.block.build.strings s.block.build.arr pend := h.pending
  obtain ⟨e, -, hrow⟩ := lastRowOf_of_decodes hbn hbd hpend
  refine ⟨_, Impl.writeCellBlock_eq s fs hfp hrow, hfp, rfl, rfl, ?_⟩
  obtain ⟨hw, hl, ⟨extra, hext⟩, -, -⟩ := s.index.pool.getStringOffset_spec e.row h.indexPool
  have harr : s.block.arr ≠ [] := by
    intro h0
    have := hbd.cells_length_eq
    simp only [PooledBuilder.build, h0, List.length_nil] at this
    exact hpend (List.length_eq_zero.mp this.symm)
  constructor
  · exact StringPoolBuilder.reset_WF
  · exact hw
  · rfl
  · exact List.Forall₂.nil
  · exact h.blockFams
  · exact h.elemSize
  · simp [Impl.withIndexEntry, h.indexItems]
  · exact h.indexFams
  · refine List.rel_append h.blocksOk (List.Forall₂.cons ⟨hbn, ?_, hbd, hpend⟩ List.Forall₂.nil)
    simp [PooledBuilder.build, h.blockFams]
  · show EntriesMatch (s.index.pool.getStringOffset e.row).2.entries 0 (s.index.arr ++ [_])
      (blocks ++ [s.block.build])
    refine EntriesMatch.snoc_block (EntriesMatch.mono_entries ?_ h.entries) ?_
    · intro o x hx
      rw [hext]; exact lookupString_append_of_some _ hx
    · refine ⟨?_, rfl, h.times harr, ⟨e.row, hrow, hl⟩, h.masks.2⟩
      show (fs f).tell = 0 + (blocksFile blocks).tell
      rw [hfile]; omega
  · intro hne; exact absurd rfl hne
  · show s.cellCount = _
    rw [h.count]; simp
  · exact ⟨h.masks.1, rfl⟩

/-! ## `Impl::emit` and sequences of emits -/

theorem FS.put_same (fs : FS) (f : String) (r : FileRecord) : (fs.put f r) f = fs f ++ [r] := by
  simp [FS.put]

theorem FS.put_other (fs : FS) (f g : String) (r : FileRecord) (h : g ≠ f) :
    (fs.put f r) g = fs g := by
  simp [FS.put, Function.update_noteq h]

/-- One emit keeps the invariant: the cell joins the pending block, which is
then either kept or written to the file as one more block. -/
theorem ImplInv.emit {s : Impl} {blocks : List (Record CellData)} {ess : List (List Emit)}
    {pend : List Emit} (h : ImplInv s blocks ess pend) {f : String} (hfp : s.fp = some f)
    (fs : FS) (hfile : fs f = blocksFile blocks) (e : Emit) :
    ∃ s' fs' blocks' ess' pend',
      s.emit fs e.row e.column e.timestamp e.valueArg e.isErasure = some (s', fs') ∧
      s'.fp = some f ∧ s'.blockSize = s.blockSize ∧ s'.cellCount = s.cellCount + 1 ∧
      fs' f = blocksFile blocks' ∧ (∀ g, g ≠ f → fs' g = fs g) ∧
      ImplInv s' blocks' ess' pend' ∧
      ess'.flatten ++ pend' = ess.flatten ++ pend ++ [e] ∧
      (∃ more, blocks' = blocks ++ more) := by
  have h₂ := h.addCell e
  obtain ⟨hfp₂, hbs₂, -, hcnt₂, -, -, -⟩ :=
    Impl.addCell_frame { s with cellCount := s.cellCount + 1 } e.row e.column
      e.timestamp e.valueArg e.isErasure
  unfold Impl.emit
  simp only
  split_ifs with hbig
  · have hne : pend ++ [e] ≠ [] := by simp
    obtain ⟨s', hw, hfp', hbs', hcnt', hinv⟩ :=
      h₂.writeCellBlock hne (f := f) (by rw [hfp₂]; exact hfp) fs hfile
    refine ⟨s', _, _, _, [], hw, hfp', ?_, ?_, ?_, ?_, hinv, ?_, ⟨_, rfl⟩⟩
    · rw [hbs', hbs₂]
    · rw [hcnt', hcnt₂]
    · rw [FS.put_same, hfile]; simp [blocksFile]
    · intro g hg; exact FS.put_other fs f g _ hg
    · simp
  · refine ⟨_, fs, blocks, ess, pend ++ [e], rfl, ?_, hbs₂, hcnt₂, hfile, fun _ _ => rfl, h₂,
      ?_, ⟨[], by simp⟩⟩
    · rw [hfp₂]; exact hfp
    · simp

theorem ImplInv.init [Unassigned] (blockSize : Nat) (out : String) :
    ImplInv ((Impl.new blockSize).open_ out) [] [] [] := by
  constructor
  · exact StringPoolBuilder.reset_WF
  · exact StringPoolBuilder.reset_WF
  · rfl
  · exact List.Forall₂.nil
  · rfl
  · rfl
  · rfl
  · rfl
  · exact List.Forall₂.nil
  · trivial
  · intro hne; exact absurd rfl hne
  · rfl
  · exact ⟨rfl, rfl⟩

theorem DiskWriter.emit_eq (w : DiskWriter) (fs : FS) (e : Emit) {s s' : Impl} {fs' : FS}
    (hw : w.impl = some s)
    (he : s.emit fs e.row e.column e.timestamp e.valueArg e.isErasure = some (s', fs')) :
    w.emit fs e = (Except.ok (), { w with impl := some s' }, fs') := by
  cases e with
  | cell r c t v =>
    simp only [Emit.row, Emit.column, Emit.timestamp, Emit.valueArg, Emit.isErasure] at he
    simp [DiskWriter.emit, DiskWriter.emitCell, hw, he]
  | erasure r c t =>
    simp only [Emit.row, Emit.column, Emit.timestamp, Emit.valueArg, Emit.isErasure] at he
    simp [DiskWriter.emit, DiskWriter.emitErasure, hw, he]

/-- A sequence of emits on an open writer succeeds and keeps the invariant; the
cells written and pending are the earlier ones followed by the emitted ones. -/
theorem ImplInv.emitAll (es : List Emit) :
    ∀ {w : DiskWriter} {s : Impl} {blocks : List (Record CellData)} {ess : List (List Emit)}
      {pend : List Emit} {f : String} {fs : FS},
      w.impl = some s → ImplInv s blocks ess pend → s.fp = some f → fs f = blocksFile blocks →
      ∃ s' fs' blocks' ess' pend',
        w.emitAll fs es = (Except.ok (), { w with impl := some s' }, fs') ∧
        s'.fp = some f ∧ s'.blockSize = s.blockSize ∧ s'.cellCount = s.cellCount + es.length ∧
        fs' f = blocksFile blocks' ∧ (∀ g, g ≠ f → fs' g = fs g) ∧
        ImplInv s' blocks' ess' pend' ∧
        ess'.flatten ++ pend' = ess.flatten ++ pend ++ es ∧
        (∃ more, blocks' = blocks ++ more) := by
  induction es with
  | nil =>
    intro w s blocks ess pend f fs hw h hfp hfile
    refine ⟨s, fs, blocks, ess, pend, ?_, hfp, rfl, rfl, hfile, fun _ _ => rfl, h, by simp,
      ⟨[], by simp⟩⟩
    simp only [DiskWriter.emitAll]
    cases w
    simp only at hw
    subst hw
    rfl
  | cons e es ih =>
    intro w s blocks ess pend f fs hw h hfp hfile
    obtain ⟨s₁, fs₁, blocks₁, ess₁, pend₁, he, hfp₁, hbs₁, hcnt₁, hfile₁, hframe₁, hinv₁, hcells₁,
      ⟨more₁, hmore₁⟩⟩ := h.emit hfp fs hfile e
    have hstep := DiskWriter.emit_eq w fs e hw he
    obtain ⟨s₂, fs₂, blocks₂, ess₂, pend₂, hall, hfp₂, hbs₂, hcnt₂, hfile₂, hframe₂, hinv₂, hcells₂,
      ⟨more₂, hmore₂⟩⟩ :=
      ih (w := { w with impl := some s₁ }) (s := s₁) rfl hinv₁ hfp₁ hfile₁
    refine ⟨s₂, fs₂, blocks₂, ess₂, pend₂, ?_, hfp₂, ?_, ?_, hfile₂, ?_, hinv₂, ?_, ?_⟩
    · simp only [DiskWriter.emitAll, hstep]
      exact hall
    · rw [hbs₂, hbs₁]
    · rw [hcnt₂, hcnt₁]; simp; omega
    · intro g hg; rw [hframe₂ g hg, hframe₁ g hg]
    · rw [hcells₂, hcells₁]; simp
    · exact ⟨more₁ ++ more₂, by rw [hmore₂, hmore₁, List.append_assoc]⟩

/-! ## `Impl::close` -/

theorem Impl.writeBlockIndex_eq (s : Impl) (fs : FS) {f : String} (hfp : s.fp = some f) :
    s.writeBlockIndex fs =
      some ({ s with index := s.indexAtClose.reset },
            fs.put f (FileRecord.blockIndex s.indexAtClose.build)) := by
  simp [Impl.writeBlockIndex, Impl.indexAtClose, hfp]

theorem Impl.close_eq_some (s : Impl) (fs : FS) {s₁ : Impl} {fs₁ : FS} {f : String}
    (hflush : (if s.block.nItems ≠ 0 then s.writeCellBlock fs else pure (s, fs)) = some (s₁, fs₁))
    (hfp : s₁.fp = some f) :
    s.close fs =
      some ({ s₁ with index := s₁.indexAtClose.reset, fp := none },
            (fs₁.put f (FileRecord.blockIndex s₁.indexAtClose.build)).put f
              (FileRecord.tableInfo (fs₁ f).tell)) := by
  unfold Impl.close
  by_cases hn : s.block.nItems = 0
  · simp only [hn, ne_eq, not_true_eq_false, if_false, Option.pure_def, Option.some.injEq,
      Prod.mk.injEq] at hflush
    obtain ⟨rfl, rfl⟩ := hflush
    simp [hn, Impl.writeBlockIndex_eq s fs hfp, hfp]
  · simp only [hn, ne_eq, not_false_eq_true, if_true] at hflush
    simp [hn, hflush, Impl.writeBlockIndex_eq s₁ fs₁ hfp, hfp]

/-- Closing after a state with no pending cell: the index and the footer are
put after the blocks, and the file is a finished fragment. -/
theorem ImplInv.close_flushed {s : Impl} {blocks : List (Record CellData)}
    {ess : List (List Emit)} (h : ImplInv s blocks ess []) {f : String} (fs : FS)
    (hfile : fs f = blocksFile blocks) :
    ((fs.put f (FileRecord.blockIndex s.indexAtClose.build)).put f
        (FileRecord.tableInfo (fs f).tell)) f = fragmentFile blocks s.indexAtClose.build ∧
    (∀ g, g ≠ f → ((fs.put f (FileRecord.blockIndex s.indexAtClose.build)).put f
        (FileRecord.tableInfo (fs f).tell)) g = fs g) ∧
    FragInv blocks ess s.indexAtClose.build := by
  refine ⟨?_, ?_, ?_⟩
  · rw [FS.put_same, FS.put_same, hfile, fragmentFile, List.append_assoc]
    rfl
  · intro g hg
    rw [FS.put_other _ _ _ _ hg, FS.put_other _ _ _ _ hg]
  · constructor
    · exact h.blocksOk
    · exact h.indexItems
    · exact h.entries
    · simp [PooledBuilder.build, Impl.indexAtClose, h.indexFams, h.masks.1]

/-- Closing an open writer state: the pending block is written if it holds a
cell, then the block index and the footer; the file is a finished fragment
holding all the cells. -/
theorem ImplInv.close {s : Impl} {blocks : List (Record CellData)} {ess : List (List Emit)}
    {pend : List Emit} (h : ImplInv s blocks ess pend) {f : String} (hfp : s.fp = some f)
    (fs : FS) (hfile : fs f = blocksFile blocks) :
    ∃ s' fs' blocks' ess' idx, s.close fs = some (s', fs') ∧
      fs' f = fragmentFile blocks' idx ∧ (∀ g, g ≠ f → fs' g = fs g) ∧
      FragInv blocks' ess' idx ∧ ess'.flatten = ess.flatten ++ pend ∧
      (pend = [] → blocks' = blocks) ∧ (pend ≠ [] → blocks' = blocks ++ [s.block.build]) := by
  have hlen := h.pending.cells_length_eq
  by_cases hn : s.block.nItems = 0
  · have hp : pend = [] := by
      apply List.length_eq_zero.mp
      rw [← hlen, ← h.nItems, hn]
    subst hp
    obtain ⟨hf, hframe, hinv⟩ := h.close_flushed fs hfile
    have hflush : (if s.block.nItems ≠ 0 then s.writeCellBlock fs else pure (s, fs)) =
        some (s, fs) := by simp [hn]
    exact ⟨_, _, blocks, ess, _, Impl.close_eq_some s fs hflush hfp, hf, hframe, hinv, by simp,
      fun _ => rfl, fun hne => absurd rfl hne⟩
  · have hp : pend ≠ [] := by
      intro h0
      apply hn
      rw [h.nItems, hlen, h0]; rfl
    obtain ⟨s₁, hw, hfp₁, -, -, hinv₁⟩ := h.writeCellBlock hp hfp fs hfile
    have hfile₁ : (fs.put f (FileRecord.cellBlock s.block.build)) f =
        blocksFile (blocks ++ [s.block.build]) := by
      rw [FS.put_same, hfile]; simp [blocksFile]
    obtain ⟨hf, hframe, hinv⟩ := hinv₁.close_flushed _ hfile₁
    have hflush : (if s.block.nItems ≠ 0 then s.writeCellBlock fs else pure (s, fs)) =
        some (s₁, fs.put f (FileRecord.cellBlock s.block.build)) := by simp [hn, hw]
    refine ⟨_, _, _, _, _, Impl.close_eq_some s fs hflush hfp₁, hf, ?_, hinv, by simp,
      fun h0 => absurd h0 hp, fun _ => rfl⟩
    intro g hg
    rw [hframe g hg, FS.put_other _ _ _ _ hg]

/-! ## A whole session: open, emits, close -/

theorem DiskWriter.close_eq_ok (w : DiskWriter) (fs : FS) {s s' : Impl} {fs' : FS}
    (hw : w.impl = some s) (hc : s.close fs = some (s', fs')) :
    w.close fs = (Except.ok (), { w with impl := none }, fs') := by
  simp [DiskWriter.close, DiskWriter.finish, hw, hc]

/-- The state after `open(fn)` and a sequence of emits on a closed writer. -/
theorem DiskWriter.open_emitAll_spec [Unassigned] (w : DiskWriter) (hw : w.impl = none) (fs : FS)
    (fn : String) (es : List Emit) :
    ∃ s fs₁ blocks ess pend,
      (w.open_ fs fn).2.1.emitAll (w.open_ fs fn).2.2 es =
        (Except.ok (), { w with impl := some s, fn := fn }, fs₁) ∧
      (w.open_ fs fn).1 = Except.ok () ∧
      s.fp = some fn ∧ s.blockSize = w.blockSize_deprecated ∧ s.cellCount = es.length ∧
      fs₁ fn = blocksFile blocks ∧ (∀ g, g ≠ fn → fs₁ g = fs g) ∧
      ImplInv s blocks ess pend ∧ ess.flatten ++ pend = es := by
  have hopen : w.open_ fs fn =
      (Except.ok (), { w with impl := some ((Impl.new w.blockSize_deprecated).open_ fn),
                              fn := fn }, fs.output fn) := by
    simp [DiskWriter.open_, hw]
  rw [hopen]
  have hfile : (fs.output fn) fn = blocksFile [] := by simp [FS.output, blocksFile]
  obtain ⟨s, fs₁, blocks, ess, pend, hall, hfp, hbs, hcnt, hfile₁, hframe, hinv, hcells, -⟩ :=
    @ImplInv.emitAll es { w with impl := some ((Impl.new w.blockSize_deprecated).open_ fn),
                                 fn := fn } _ _ _ _ fn (fs.output fn) rfl (ImplInv.init _ fn) rfl hfile
  refine ⟨s, fs₁, blocks, ess, pend, hall, rfl, hfp, hbs, ?_, hfile₁, ?_, hinv, ?_⟩
  · rw [hcnt]; simp [Impl.open_, Impl.new]
  · intro g hg
    rw [hframe g hg]
    simp [FS.output, Function.update_noteq hg]
  · simpa using hcells

/-- A session on a closed writer succeeds, leaves the writer closed, changes no
other file, and leaves in the named file a finished fragment that holds exactly
the emitted cells. -/
theorem DiskWriter.writeSession_spec [Unassigned] (w : DiskWriter) (hw : w.impl = none) (fs : FS)
    (fn : String) (es : List Emit) :
    ∃ fs' blocks ess idx,
      w.writeSession fs fn es = (Except.ok (), { w with impl := none, fn := fn }, fs') ∧
      fs' fn = fragmentFile blocks idx ∧ (∀ g, g ≠ fn → fs' g = fs g) ∧
      FragInv blocks ess idx ∧ ess.flatten = es := by
  obtain ⟨s, fs₁, blocks, ess, pend, hall, hok, hfp, -, -, hfile₁, hframe₁, hinv, hcells⟩ :=
    w.open_emitAll_spec hw fs fn es
  obtain ⟨s', fs', blocks', ess', idx, hc, hf, hframe, hfrag, hcells', -, -⟩ :=
    hinv.close hfp fs₁ hfile₁
  refine ⟨fs', blocks', ess', idx, ?_, hf, ?_, hfrag, by rw [hcells', hcells]⟩
  · unfold DiskWriter.writeSession
    have h₁ : w.open_ fs fn = (Except.ok (), (w.open_ fs fn).2.1, (w.open_ fs fn).2.2) := by
      rw [← hok]
    rw [h₁]
    simp only [hall]
    exact DiskWriter.close_eq_ok _ fs₁ rfl hc
  · intro g hg
    rw [hframe g hg, hframe₁ g hg]

/-! ## Reading back -/

theorem FileRecord.fileSize_pos (r : FileRecord) : 0 < r.fileSize := by
  unfold FileRecord.fileSize; omega

theorem File.tell_append (xs ys : File) : File.tell (xs ++ ys) = File.tell xs + File.tell ys := by
  simp [File.tell]

/-- The record that follows a prefix of the file starts at the size of the
prefix. -/
theorem File.readAt_append (xs : File) (r : FileRecord) (ys : File) :
    File.readAt (xs ++ r :: ys) (File.tell xs) = some r := by
  induction xs with
  | nil => simp [File.readAt, File.tell]
  | cons x xs ih =>
    have hpos := x.fileSize_pos
    have htell : File.tell (x :: xs) = x.fileSize + File.tell xs := by simp [File.tell]
    rw [htell]
    show File.readAt (x :: (xs ++ r :: ys)) _ = _
    unfold File.readAt
    have h₁ : ¬ (x.fileSize + File.tell xs = 0) := by omega
    have h₂ : ¬ (x.fileSize + File.tell xs < x.fileSize) := by omega
    simp only [h₁, h₂, if_false]
    rw [Nat.add_sub_cancel_left]
    exact ih

theorem blocksFile_take (blocks : List (Record CellData)) (i : Nat) :
    blocksFile (blocks.take i) = (blocksFile blocks).take i := by
  simp [blocksFile, List.map_take]

/-- The `i`-th index entry describes the `i`-th block, which starts where the
blocks before it end. -/
theorem EntriesMatch.get {str : List (Nat × Bytes)} :
    ∀ {base : Nat} {es : List IndexEntryV1} {bs : List (Record CellData)} {i : Nat}
      {e : IndexEntryV1} {b : Record CellData},
      EntriesMatch str base es bs → es.get? i = some e → bs.get? i = some b →
      EntryOk str (base + (blocksFile (bs.take i)).tell) e b
  | _, [], _, _, _, _, _, he, _ => by simp at he
  | _, _ :: _, [], _, _, _, hm, _, _ => hm.elim
  | base, e₀ :: es, b₀ :: bs, 0, e, b, hm, he, hb => by
    simp only [List.get?_cons_zero, Option.some.injEq] at he hb
    subst he; subst hb
    simpa [blocksFile, File.tell] using hm.1
  | base, e₀ :: es, b₀ :: bs, i + 1, e, b, hm, he, hb => by
    simp only [List.get?_cons_succ] at he hb
    have := EntriesMatch.get hm.2 he hb
    have heq : base + (FileRecord.cellBlock b₀).fileSize + (blocksFile (bs.take i)).tell =
        base + (blocksFile ((b₀ :: bs).take (i + 1))).tell := by
      simp [blocksFile, File.tell]; omega
    rw [heq] at this
    exact this

/-- In a finished fragment the record at the offset of the `i`-th index entry is
the `i`-th cell block. -/
theorem fragmentFile_readAt_block {blocks : List (Record CellData)} (idx : Record IndexEntryV1)
    {i : Nat} {b : Record CellData} (hb : blocks.get? i = some b) :
    (fragmentFile blocks idx).readAt (blocksFile (blocks.take i)).tell =
      some (FileRecord.cellBlock b) := by
  have hi : i < blocks.length := by
    by_contra hge
    rw [List.get?_eq_none.mpr (by omega)] at hb
    exact absurd hb (by simp)
  have hsplit : blocks = blocks.take i ++ b :: blocks.drop (i + 1) := by
    have hb' : blocks[i] = b := by
      have := List.get?_eq_get hi
      rw [hb] at this
      exact (Option.some.inj this).symm
    rw [← hb']
    exact (List.take_append_drop i blocks).symm.trans (by rw [List.drop_eq_getElem_cons hi])
  have hfile : fragmentFile blocks idx =
      blocksFile (blocks.take i) ++ FileRecord.cellBlock b ::
        (blocksFile (blocks.drop (i + 1)) ++
          [FileRecord.blockIndex idx, FileRecord.tableInfo (blocksFile blocks).tell]) := by
    have hbf : blocksFile blocks =
        blocksFile (blocks.take i) ++ FileRecord.cellBlock b :: blocksFile (blocks.drop (i + 1)) := by
      conv_lhs => rw [hsplit]
      simp [blocksFile]
    unfold fragmentFile
    calc blocksFile blocks ++
            [FileRecord.blockIndex idx, FileRecord.tableInfo (blocksFile blocks).tell]
        = (blocksFile (blocks.take i) ++
              FileRecord.cellBlock b :: blocksFile (blocks.drop (i + 1))) ++
            [FileRecord.blockIndex idx, FileRecord.tableInfo (blocksFile blocks).tell] := by
          rw [← hbf]
      _ = _ := by simp
  rw [hfile]
  exact File.readAt_append _ _ _

theorem fragmentFile_readAt_index (blocks : List (Record CellData)) (idx : Record IndexEntryV1) :
    (fragmentFile blocks idx).readAt (blocksFile blocks).tell =
      some (FileRecord.blockIndex idx) := by
  unfold fragmentFile
  exact File.readAt_append _ _ _

/-- Opening a finished fragment finds the footer and loads the block index. -/
theorem DiskFragment.open_fragmentFile {fs : FS} {fn : String}
    {blocks : List (Record CellData)} {idx : Record IndexEntryV1}
    (hf : fs fn = fragmentFile blocks idx) :
    DiskFragment.open_ fs fn = Except.ok { file := fragmentFile blocks idx, indexRec := idx } := by
  unfold DiskFragment.open_
  rw [hf]
  have hlast : (fragmentFile blocks idx).getLast? =
      some (FileRecord.tableInfo (blocksFile blocks).tell) := by
    simp [fragmentFile]
  rw [hlast]
  simp only [fragmentFile_readAt_index]

theorem range_find_from (p : Nat → Bool) (m : Nat) :
    ∀ n, (∀ i, i < n → p i = true) →
      (List.range n).find? (fun i => decide (m ≤ i) && p i) = if m < n then some m else none
  | 0, _ => by simp
  | n + 1, hp => by
    have ih := range_find_from p m n (fun i hi => hp i (by omega))
    rw [List.range_succ, List.find?_append, ih]
    by_cases h₁ : m < n
    · have h₂ : m < n + 1 := by omega
      simp [h₁, h₂]
    · by_cases h₂ : m = n
      · subst h₂
        simp [hp m (by omega)]
      · have h₃ : ¬ m < n + 1 := by omega
        have h₄ : ¬ m ≤ n := by omega
        simp [h₁, h₃, h₄]

theorem DiskFragment.blockPasses_empty (df : DiskFragment) (i : Nat)
    (hi : i < df.indexRec.arr.length) : df.blockPasses ScanPredicate.empty i = true := by
  unfold DiskFragment.blockPasses
  rw [List.get?_eq_get hi]
  simp [ScanPredicate.empty, ScanPredicate.families, ScanPredicate.getColumnFamilies]

/-- With the unconstrained predicate `nextBlock` returns `minBlock` itself while
blocks are left, and the sentinel after the last block. -/
theorem DiskFragment.nextBlock_empty (df : DiskFragment)
    (hn : df.indexRec.nItems = df.indexRec.arr.length) (minBlock : Nat) :
    df.nextBlock ScanPredicate.empty minBlock =
      if minBlock < df.indexRec.arr.length then minBlock else SENTINEL := by
  unfold DiskFragment.nextBlock
  rw [range_find_from (fun i => df.blockPasses ScanPredicate.empty i) minBlock df.indexRec.nItems
    (fun i hi => df.blockPasses_empty i (by omega)), hn]
  split_ifs <;> rfl

/-- Loading the `i`-th block of a finished fragment returns that block: the
record is found at the offset the index gives and its checksum matches. -/
theorem DiskFragment.loadBlock_fragmentFile {blocks : List (Record CellData)}
    {ess : List (List Emit)} {idx : Record IndexEntryV1} (h : FragInv blocks ess idx)
    {i : Nat} {b : Record CellData} (hb : blocks.get? i = some b) :
    DiskFragment.loadBlock { file := fragmentFile blocks idx, indexRec := idx } i =
      Except.ok { blockRec := b } := by
  have hlen := h.entries.entries_length_eq
  have hi : i < blocks.length := by
    by_contra hge
    rw [List.get?_eq_none.mpr (by omega)] at hb
    exact absurd hb (by simp)
  obtain ⟨e, he⟩ : ∃ e, idx.arr.get? i = some e :=
    ⟨idx.arr.get ⟨i, by omega⟩, List.get?_eq_get (by omega)⟩
  obtain ⟨hoff, hsum, -, -, -⟩ := h.entries.get he hb
  unfold DiskFragment.loadBlock
  simp only [he]
  rw [hoff, Nat.zero_add, fragmentFile_readAt_block idx hb]
  simp [hsum]

theorem copyLoop_decodes (strings : List (Nat × Bytes)) :
    ∀ {cells : List CellData} {es : List Emit} (out : List Emit), Decodes strings cells es →
      DiskBlockReader.copyLoop strings none cells out = Except.ok ([], out ++ es) := by
  intro cells es out hd
  induction hd generalizing out with
  | nil => simp [DiskBlockReader.copyLoop]
  | @cons c e cs es' hc _ ih =>
    unfold DiskBlockReader.copyLoop
    rw [decodeKey_of_decodeCell hc, hc]
    simp only [Bool.false_eq_true, if_false]
    rw [ih]
    simp

/-- The loop of `dumpCells` over a finished fragment, started at block `i` with
enough fuel, appends to the sink the cells of the blocks from `i` on, and both
checks hold at every block. -/
theorem dumpLoop_fragment {blocks : List (Record CellData)} {ess : List (List Emit)}
    {idx : Record IndexEntryV1} (h : FragInv blocks ess idx) (hn : blocks.length < SENTINEL) :
    ∀ (k i fuel : Nat) (out : List Emit) (ok : Bool), i + k = blocks.length → k + 1 ≤ fuel →
      dumpLoop { file := fragmentFile blocks idx, indexRec := idx } ScanPredicate.empty fuel
        (if i < blocks.length then i else SENTINEL) (out, ok) =
      Except.ok (out ++ (ess.drop i).flatten, ok) := by
  have hlen₁ := h.entries.entries_length_eq
  have hlen₂ := h.blocksOk.length_eq
  intro k
  induction k with
  | zero =>
    intro i fuel out ok hik hfuel
    obtain ⟨fuel', rfl⟩ : ∃ f', fuel = f' + 1 := ⟨fuel - 1, by omega⟩
    have hi : ¬ i < blocks.length := by omega
    simp only [hi, if_false, dumpLoop, if_true]
    rw [List.drop_eq_nil_of_le (by omega)]
    simp
  | succ k ih =>
    intro i fuel out ok hik hfuel
    obtain ⟨fuel', rfl⟩ : ∃ f', fuel = f' + 1 := ⟨fuel - 1, by omega⟩
    have hi : i < blocks.length := by omega
    have hi' : i < ess.length := by omega
    have hne : i ≠ SENTINEL := by omega
    have hb : blocks.get? i = some (blocks.get ⟨i, hi⟩) := List.get?_eq_get hi
    have hrel := List.Forall₂.get h.blocksOk hi hi'
    generalize blocks.get ⟨i, hi⟩ = b at hb hrel
    have hdrop : ess.drop i = ess.get ⟨i, hi'⟩ :: ess.drop (i + 1) := by
      rw [List.drop_eq_getElem_cons hi']; rfl
    generalize ess.get ⟨i, hi'⟩ = es at hrel hdrop
    obtain ⟨hbn, -, hbd, hbne⟩ := hrel
    have hload := DiskFragment.loadBlock_fragmentFile h hb
    have hrest : b.arr.take b.nItems = b.arr := by rw [hbn]; exact List.take_length _
    have hcopy := copyLoop_decodes b.strings out hbd
    have hnext := DiskFragment.nextBlock_empty
      { file := fragmentFile blocks idx, indexRec := idx } h.nItems (i + 1)
    simp only [hlen₁] at hnext
    have harr : b.arr ≠ [] := by
      intro h0
      have := hbd.cells_length_eq
      rw [h0] at this
      exact hbne (List.length_eq_zero.mp this.symm)
    obtain ⟨c, cs, hcs⟩ := List.exists_cons_of_ne_nil harr
    obtain ⟨e, es', hes⟩ : ∃ e es', es = e :: es' := List.exists_cons_of_ne_nil hbne
    have hc : decodeCell b.strings c = some e := by
      have := hbd
      rw [hcs, hes] at this
      cases this with
      | cons hc _ => exact hc
    have hadv : (DiskBlockReader.advance { strings := b.strings, rest := b.arr }).isSome = true := by
      simp [DiskBlockReader.advance, hcs, decodeKey_of_decodeCell hc]
    simp only [hi, if_true, dumpLoop, hne, if_false, hload, DiskBlock.makeReader, hrest,
      DiskBlockReader.copyUntil, hcopy, hadv, hnext]
    have := ih (i + 1) fuel' (out ++ es) (ok && true && (DiskBlockReader.advance
      { strings := b.strings, rest := [] }).isNone) (by omega) (by omega)
    rw [this, hdrop]
    simp [DiskBlockReader.advance]

/-- Reading a finished fragment back: the fragment opens, the dump returns, the
cells are those of the blocks in order, and every check of `dumpCells` holds. -/
theorem readFragment_fragmentFile {fs : FS} {fn : String} {blocks : List (Record CellData)}
    {ess : List (List Emit)} {idx : Record IndexEntryV1} (hf : fs fn = fragmentFile blocks idx)
    (h : FragInv blocks ess idx) (hn : blocks.length < SENTINEL) :
    readFragment fs fn = Except.ok (ess.flatten, true) := by
  unfold readFragment
  rw [DiskFragment.open_fragmentFile hf]
  simp only [dumpCells]
  have hlen := h.entries.entries_length_eq
  have hnext := DiskFragment.nextBlock_empty
    { file := fragmentFile blocks idx, indexRec := idx } h.nItems 0
  simp only [hlen] at hnext
  rw [hnext, h.nItems, hlen]
  have := dumpLoop_fragment h hn blocks.length 0 (blocks.length + 1) [] true (by omega) (by omega)
  simpa using this

/-- A fragment has at most as many blocks as cells: no block is empty. -/
theorem FragInv.blocks_le {blocks : List (Record CellData)} {ess : List (List Emit)}
    {idx : Record IndexEntryV1} (h : FragInv blocks ess idx) :
    blocks.length ≤ ess.flatten.length := by
  have hlen := h.blocksOk.length_eq
  rw [hlen]
  have hall : ∀ es ∈ ess, es ≠ [] := by
    intro es hes
    obtain ⟨i, hi, rfl⟩ := List.getElem_of_mem hes
    have := List.Forall₂.get h.blocksOk (i := i) (by omega) hi
    exact this.2.2.2
  clear hlen h
  induction ess with
  | nil => simp
  | cons es ess ih =>
    have h₁ : 0 < es.length := List.length_pos.mpr (hall es (by simp))
    have h₂ := ih (fun x hx => hall x (by simp [hx]))
    simp only [List.flatten_cons, List.length_append, List.length_cons]
    omega

/-! # The claims about the fragment writer -/

/-- C3: round trip.  For every sequence of cells and erasures (so for every
canonical one) emitted to a fresh `DiskWriter` between `open` and `close`, the
session succeeds, and reading the file back with the empty predicate
(`nextBlock`, `loadBlock`, `copyUntil` over all blocks, as `dumpCells` does)
returns exactly the emitted sequence: same order, same row, column and value
bytes, same timestamps, erasures as erasures; the checks of `dumpCells` hold. -/
theorem DiskWriter.round_trip [Unassigned] (blockSize : Nat) (fs : FS) (fn : String) (es : List Emit)
    (hlen : es.length < SIZE_MAX) :
    ∃ w' fs', writeFragment blockSize fs fn es = (Except.ok (), w', fs') ∧
      readFragment fs' fn = Except.ok (es, true) := by
  obtain ⟨fs', blocks, ess, idx, hw, hf, -, hfrag, hcells⟩ :=
    (DiskWriter.new blockSize).writeSession_spec rfl fs fn es
  refine ⟨_, fs', hw, ?_⟩
  have hle := hfrag.blocks_le
  rw [hcells] at hle
  have := readFragment_fragmentFile hf hfrag (by unfold SENTINEL; omega)
  rw [hcells] at this
  exact this

/-- Witness of C3: the seven cells of `simple_test`, block size 128. -/
theorem DiskWriter.round_trip_witness :
    simpleCells.length < SIZE_MAX ∧
    ∃ w' fs', writeFragment 128 emptyFS "memfs:simple" simpleCells = (Except.ok (), w', fs') ∧
      readFragment fs' "memfs:simple" = Except.ok (simpleCells, true) :=
  ⟨by decide, DiskWriter.round_trip 128 emptyFS "memfs:simple" simpleCells (by decide)⟩

/-- C4: on a closed `DiskWriter` (the constructor without a file gives one, and
so does a successful `close`) each of `emitCell`, `emitErasure`, `getCellCount`,
`getDataSize` and `close` raises `RuntimeError`; `open` on an open writer raises
`RuntimeError`; in each case the writer and the files are left as they were. -/
theorem DiskWriter.closed_raises [Unassigned] (wc wo : DiskWriter) (fs : FS) (hc : wc.impl = none)
    (ho : wo.impl ≠ none) (row column value : Bytes) (t : Int) (fn : String) :
    wc.emitCell fs row column t value =
      (Except.error (Error.RuntimeError "emitCell() to closed DiskWriter"), wc, fs) ∧
    wc.emitErasure fs row column t =
      (Except.error (Error.RuntimeError "emitErasure() to closed DiskWriter"), wc, fs) ∧
    wc.getCellCount fs =
      (Except.error (Error.RuntimeError "getCellCount() on closed DiskWriter"), wc, fs) ∧
    wc.getDataSize fs =
      (Except.error (Error.RuntimeError "getDataSize() on closed DiskWriter"), wc, fs) ∧
    wc.close fs = (Except.error (Error.RuntimeError "DiskWriter already closed"), wc, fs) ∧
    wo.open_ fs fn = (Except.error (Error.RuntimeError "DiskWriter already open"), wo, fs) ∧
    (∀ blockSize, (DiskWriter.new blockSize).impl = none) ∧
    (∀ w₁ fs₁, wo.close fs = (Except.ok (), w₁, fs₁) → w₁.impl = none) := by
  refine ⟨?_, ?_, ?_, ?_, ?_, ?_, fun _ => rfl, ?_⟩
  · simp [DiskWriter.emitCell, hc]
  · simp [DiskWriter.emitErasure, hc]
  · simp [DiskWriter.getCellCount, hc]
  · simp [DiskWriter.getDataSize, hc]
  · simp [DiskWriter.close, DiskWriter.finish, hc]
  · cases hi : wo.impl with
    | none => exact absurd hi ho
    | some i => simp [DiskWriter.open_, hi]
  · intro w₁ fs₁ hcl
    cases hi : wo.impl with
    | none => exact absurd hi ho
    | some i =>
      cases hcl' : i.close fs with
      | none => simp [DiskWriter.close, DiskWriter.finish, hi, hcl'] at hcl
      | some r =>
        simp only [DiskWriter.close, DiskWriter.finish, hi, hcl', Prod.mk.injEq, true_and] at hcl
        rw [← hcl.1]

/-- Witness of C4: a writer constructed without a file, and a writer opened on
"memfs:output". -/
theorem DiskWriter.closed_raises_witness :
    (DiskWriter.new 128).impl = none ∧
    (DiskWriter.new 128).emitCell emptyFS row1 col1 0 (val 49) =
      (Except.error (Error.RuntimeError "emitCell() to closed DiskWriter"),
        DiskWriter.new 128, emptyFS) ∧
    (DiskWriter.newOpen "memfs:output" "memfs:output" 128).open_ emptyFS "memfs:two" =
      (Except.error (Error.RuntimeError "DiskWriter already open"),
        DiskWriter.newOpen "memfs:output" "memfs:output" 128, emptyFS) :=
  have h := DiskWriter.closed_raises (DiskWriter.new 128)
    (DiskWriter.newOpen "memfs:output" "memfs:output" 128) emptyFS rfl
    (by simp [DiskWriter.newOpen]) row1 col1 (val 49) 0 "memfs:two"
  ⟨rfl, h.1, h.2.2.2.2.2.1⟩

/-- C5: `getCellCount` is 0 right after `open`, and after `n` calls of `emitCell`
or `emitErasure` in any mix, all of which succeed, it is `n`, for every block
size (so whether or not an emit flushed a block). -/
theorem DiskWriter.getCellCount_counts [Unassigned] (w : DiskWriter) (hw : w.impl = none) (fs : FS)
    (fn : String) (es : List Emit) :
    (∃ w₀ fs₀, w.open_ fs fn = (Except.ok (), w₀, fs₀) ∧
      w₀.getCellCount fs₀ = (Except.ok 0, w₀, fs₀) ∧
      ∃ w₁ fs₁, w₀.emitAll fs₀ es = (Except.ok (), w₁, fs₁) ∧
        w₁.getCellCount fs₁ = (Except.ok es.length, w₁, fs₁)) := by
  obtain ⟨s, fs₁, blocks, ess, pend, hall, hok, -, -, hcnt, -⟩ :=
    w.open_emitAll_spec hw fs fn es
  have hopen : w.open_ fs fn =
      (Except.ok (), { w with impl := some ((Impl.new w.blockSize_deprecated).open_ fn),
                              fn := fn }, fs.output fn) := by
    simp [DiskWriter.open_, hw]
  rw [hopen] at hall
  refine ⟨_, _, hopen, ?_, _, _, hall, ?_⟩
  · simp [DiskWriter.getCellCount, Impl.getCellCount, Impl.open_, Impl.new]
  · simp [DiskWriter.getCellCount, Impl.getCellCount, hcnt]

/-- Witness of C5: the seven cells of `simple_test` with block size 128, where
emits flush blocks on the way. -/
theorem DiskWriter.getCellCount_counts_witness :
    (DiskWriter.new 128).impl = none ∧
    ∃ w₀ fs₀, (DiskWriter.new 128).open_ emptyFS "memfs:output" = (Except.ok (), w₀, fs₀) ∧
      w₀.getCellCount fs₀ = (Except.ok 0, w₀, fs₀) ∧
      ∃ w₁ fs₁, w₀.emitAll fs₀ simpleCells = (Except.ok (), w₁, fs₁) ∧
        w₁.getCellCount fs₁ = (Except.ok simpleCells.length, w₁, fs₁) :=
  ⟨rfl, DiskWriter.getCellCount_counts (DiskWriter.new 128) rfl emptyFS "memfs:output" simpleCells⟩

/-- C6: a fragment opened and closed with no cell emitted holds no cell block: its
file is a block index with zero entries followed by the `TableInfo` footer (with
index offset 0); reading it back yields zero cells, and `nextBlock` returns the
sentinel for every predicate and every starting block. -/
theorem DiskWriter.empty_fragment [Unassigned] (blockSize : Nat) (fs : FS) (fn : String) :
    ∃ w' fs' idx df,
      writeFragment blockSize fs fn [] = (Except.ok (), w', fs') ∧
      fs' fn = [FileRecord.blockIndex idx, FileRecord.tableInfo 0] ∧
      idx.nItems = 0 ∧ idx.arr = [] ∧
      readFragment fs' fn = Except.ok ([], true) ∧
      DiskFragment.open_ fs' fn = Except.ok df ∧
      ∀ (pred : ScanPredicate) (minBlock : Nat), df.nextBlock pred minBlock = SENTINEL := by
  obtain ⟨fs', blocks, ess, idx, hw, hf, -, hfrag, hcells⟩ :=
    (DiskWriter.new blockSize).writeSession_spec rfl fs fn []
  have hle := hfrag.blocks_le
  rw [hcells] at hle
  have hb : blocks = [] := List.length_eq_zero.mp (by simpa using hle)
  subst hb
  have harr : idx.arr = [] := List.length_eq_zero.mp (by simpa using hfrag.entries.entries_length_eq)
  have hn : idx.nItems = 0 := by rw [hfrag.nItems, harr]; rfl
  have hread := readFragment_fragmentFile hf hfrag (by unfold SENTINEL SIZE_MAX; simp)
  rw [hcells] at hread
  refine ⟨_, fs', idx, _, hw, ?_, hn, harr, hread, DiskFragment.open_fragmentFile hf, ?_⟩
  · rw [hf]; simp [fragmentFile, blocksFile, File.tell]
  · intro pred minBlock
    simp [DiskFragment.nextBlock, hn]

/-- C7: a `DiskWriter` reused after `close` starts clean.  After a first session
on `fn₁`, the second `open` gives a writer with cell count 0, an empty pending
block and string pool, an empty index and a reset time range and masks, whatever
the members that the constructors leave unassigned held; the fragment the
second session leaves in `fn₂` reads back as exactly the cells emitted after the
second `open`, and the first fragment (a different file) is unchanged and still
reads back as the cells of the first session.  The reset is the work of
`Impl::open`: on every `Impl`, whatever its state, it empties both builders and
their pools and family arrays, sets the time range to 0, clears the family masks
and sets `nextColMask` to 1 and `curColMask` to 0; the cell count it leaves as it
is, and that one is 0 from the constructor. -/
theorem DiskWriter.reuse_after_close [Unassigned] (w : DiskWriter) (hw : w.impl = none) (fs : FS)
    (fn₁ fn₂ : String) (es₁ es₂ : List Emit) (hne : fn₁ ≠ fn₂)
    (hlen₁ : es₁.length < SIZE_MAX) (hlen₂ : es₂.length < SIZE_MAX) :
    ∃ w₁ fs₁ impl w₂ fs₂,
      w.writeSession fs fn₁ es₁ = (Except.ok (), w₁, fs₁) ∧
      w₁.open_ fs₁ fn₂ = (Except.ok (), { w₁ with impl := some impl, fn := fn₂ }, fs₁.output fn₂) ∧
      impl.getCellCount = 0 ∧
      impl.block.nItems = 0 ∧ impl.block.arr = [] ∧ impl.block.pool = StringPoolBuilder.reset ∧
      impl.index.nItems = 0 ∧ impl.index.arr = [] ∧ impl.index.pool = StringPoolBuilder.reset ∧
      impl.lowestTime = 0 ∧ impl.highestTime = 0 ∧
      impl.colFamilyMasks = [] ∧ impl.nextColMask = 1 ∧ impl.curColMask = 0 ∧
      impl.block.fams = [] ∧ impl.index.fams = [] ∧
      w₁.writeSession fs₁ fn₂ es₂ = (Except.ok (), w₂, fs₂) ∧
      readFragment fs₂ fn₂ = Except.ok (es₂, true) ∧
      fs₂ fn₁ = fs₁ fn₁ ∧
      readFragment fs₁ fn₁ = Except.ok (es₁, true) ∧
      readFragment fs₂ fn₁ = Except.ok (es₁, true) ∧
      (∀ (s : Impl) (out : String),
        (s.open_ out).fp = some out ∧
        (s.open_ out).block.nItems = 0 ∧ (s.open_ out).block.arr = [] ∧
        (s.open_ out).block.fams = [] ∧ (s.open_ out).block.pool = StringPoolBuilder.reset ∧
        (s.open_ out).index.nItems = 0 ∧ (s.open_ out).index.arr = [] ∧
        (s.open_ out).index.fams = [] ∧ (s.open_ out).index.pool = StringPoolBuilder.reset ∧
        (s.open_ out).lowestTime = 0 ∧ (s.open_ out).highestTime = 0 ∧
        (s.open_ out).colFamilyMasks = [] ∧ (s.open_ out).nextColMask = 1 ∧
        (s.open_ out).curColMask = 0 ∧
        (s.open_ out).cellCount = s.cellCount ∧ (s.open_ out).blockSize = s.blockSize) ∧
      (∀ blockSize : Nat, (Impl.new blockSize).cellCount = 0) := by
  obtain ⟨fs₁, blocks₁, ess₁, idx₁, hs₁, hf₁, -, hfrag₁, hcells₁⟩ :=
    w.writeSession_spec hw fs fn₁ es₁
  obtain ⟨fs₂, blocks₂, ess₂, idx₂, hs₂, hf₂, hframe₂, hfrag₂, hcells₂⟩ :=
    DiskWriter.writeSession_spec { w with impl := none, fn := fn₁ } rfl fs₁ fn₂ es₂
  have hle₁ := hfrag₁.blocks_le
  rw [hcells₁] at hle₁
  have hle₂ := hfrag₂.blocks_le
  rw [hcells₂] at hle₂
  have hr₁ := readFragment_fragmentFile hf₁ hfrag₁ (by unfold SENTINEL; omega)
  rw [hcells₁] at hr₁
  have hr₂ := readFragment_fragmentFile hf₂ hfrag₂ (by unfold SENTINEL; omega)
  rw [hcells₂] at hr₂
  have hsame : fs₂ fn₁ = fs₁ fn₁ := hframe₂ fn₁ hne
  have hr₁' : readFragment fs₂ fn₁ = Except.ok (es₁, true) := by
    have hf₁' : fs₂ fn₁ = fragmentFile blocks₁ idx₁ := by rw [hsame, hf₁]
    have := readFragment_fragmentFile hf₁' hfrag₁ (by unfold SENTINEL; omega)
    rw [hcells₁] at this
    exact this
  refine ⟨_, fs₁, (Impl.new w.blockSize_deprecated).open_ fn₂, _, fs₂, hs₁, ?_, rfl, rfl, rfl,
    rfl, rfl, rfl, rfl, rfl, rfl, rfl, rfl, rfl, rfl, rfl, hs₂, hr₂, hsame, hr₁, hr₁', ?_,
    fun _ => rfl⟩
  · simp [DiskWriter.open_]
  · intro s out
    repeat' apply And.intro
    all_goals rfl

/-- Witness of C7: the two sessions of `rewrite_test`, on "memfs:one" and then
"memfs:two", with one writer. -/
theorem DiskWriter.reuse_after_close_witness :
    ∃ w₁ fs₁ impl w₂ fs₂,
      (DiskWriter.new 128).writeSession emptyFS "memfs:one"
        [Emit.cell row1 col1 42 (val 49), Emit.cell row1 col2 42 (val 50)] =
          (Except.ok (), w₁, fs₁) ∧
      w₁.open_ fs₁ "memfs:two" =
        (Except.ok (), { w₁ with impl := some impl, fn := "memfs:two" }, fs₁.output "memfs:two") ∧
      impl.getCellCount = 0 ∧
      impl.block.nItems = 0 ∧ impl.block.arr = [] ∧ impl.block.pool = StringPoolBuilder.reset ∧
      impl.index.nItems = 0 ∧ impl.index.arr = [] ∧ impl.index.pool = StringPoolBuilder.reset ∧
      impl.lowestTime = 0 ∧ impl.highestTime = 0 ∧
      impl.colFamilyMasks = [] ∧ impl.nextColMask = 1 ∧ impl.curColMask = 0 ∧
      impl.block.fams = [] ∧ impl.index.fams = [] ∧
      w₁.writeSession fs₁ "memfs:two"
        [Emit.cell row1 col1 42 (val 51), Emit.cell row1 col3 42 (val 52)] =
          (Except.ok (), w₂, fs₂) ∧
      readFragment fs₂ "memfs:two" =
        Except.ok ([Emit.cell row1 col1 42 (val 51), Emit.cell row1 col3 42 (val 52)], true) ∧
      fs₂ "memfs:one" = fs₁ "memfs:one" ∧
      readFragment fs₁ "memfs:one" =
        Except.ok ([Emit.cell row1 col1 42 (val 49), Emit.cell row1 col2 42 (val 50)], true) ∧
      readFragment fs₂ "memfs:one" =
        Except.ok ([Emit.cell row1 col1 42 (val 49), Emit.cell row1 col2 42 (val 50)], true) ∧
      (∀ (s : Impl) (out : String),
        (s.open_ out).fp = some out ∧
        (s.open_ out).block.nItems = 0 ∧ (s.open_ out).block.arr = [] ∧
        (s.open_ out).block.fams = [] ∧ (s.open_ out).block.pool = StringPoolBuilder.reset ∧
        (s.open_ out).index.nItems = 0 ∧ (s.open_ out).index.arr = [] ∧
        (s.open_ out).index.fams = [] ∧ (s.open_ out).index.pool = StringPoolBuilder.reset ∧
        (s.open_ out).lowestTime = 0 ∧ (s.open_ out).highestTime = 0 ∧
        (s.open_ out).colFamilyMasks = [] ∧ (s.open_ out).nextColMask = 1 ∧
        (s.open_ out).curColMask = 0 ∧
        (s.open_ out).cellCount = s.cellCount ∧ (s.open_ out).blockSize = s.blockSize) ∧
      (∀ blockSize : Nat, (Impl.new blockSize).cellCount = 0) :=
  DiskWriter.reuse_after_close (DiskWriter.new 128) rfl emptyFS "memfs:one" "memfs:two"
    [Emit.cell row1 col1 42 (val 49), Emit.cell row1 col2 42 (val 50)]
    [Emit.cell row1 col1 42 (val 51), Emit.cell row1 col3 42 (val 52)]
    (by decide) (by decide) (by decide)

theorem StringPoolBuilder.getStringOffset_dataSz_le (p : StringPoolBuilder) (s : Bytes) :
    (p.getStringOffset s).2.dataSz ≤ p.dataSz + (4 + s.length) := by
  unfold StringPoolBuilder.getStringOffset
  split <;> simp

theorem Ref.toOffset_eq_zero_iff {stringsBase : Nat} (h : 0 < stringsBase) (r : Ref) :
    r.toOffset stringsBase = 0 ↔ r = Ref.null := by
  cases r with
  | null => simp [Ref.toOffset]
  | pool off =>
    simp only [Ref.toOffset, reduceCtorEq, iff_false]
    omega

theorem CellBlockBuilder.appendFrom_arr (cb : CellBlockBuilder) (row column : Bytes) (t : Int)
    (er : Bool) (value : Bytes) :
    (cb.appendFrom row column t er value).arr =
      cb.arr ++ [{ row := Ref.pool (cb.pool.getStringOffset row).1,
                   column := Ref.pool ((cb.pool.getStringOffset row).2.getStringOffset column).1,
                   timestamp := t,
                   value :=
                     if (if er then SIZE_MAX else
                          (((cb.pool.getStringOffset row).2.getStringOffset column).2.getStringOffset
                            value).1) ≠ SIZE_MAX
                     then Ref.pool (((cb.pool.getStringOffset row).2.getStringOffset
                            column).2.getStringOffset value).1
                     else Ref.null,
                   pad := 0 }] ∧
    (cb.appendFrom row column t er value).pool = addCellPool cb.pool row column value er := by
  cases er <;> simp [CellBlockBuilder.appendFrom, CellBlockBuilder.append, addCellPool]

/-- C8: the `CellData` appended for a cell has a null value offset (flattened: 0)
exactly when the cell was emitted as an erasure; a cell emitted with a value,
the empty string included, gets an offset into the block's string pool at which
that value is stored.  This holds for `DiskWriter::Impl::addCell` and for
`CellBlockBuilder` (`appendCell`, `appendErasure`, `append(Cell)`), whose pool is
assumed to fit `size_t`. -/
theorem value_offset_null_iff_erasure (s : Impl) (cb : CellBlockBuilder)
    (row column value : Bytes) (t : Int) (er : Bool)
    (hs : s.block.pool.WF) (hcb : cb.pool.WF)
    (hsz : cb.pool.dataSz + (4 + row.length) + (4 + column.length) + (4 + value.length)
      ≤ SIZE_MAX) :
    (∃ c, (s.addCell row column t value er).block.arr = s.block.arr ++ [c] ∧
      (c.value = Ref.null ↔ er = true) ∧
      (∀ stringsBase, 0 < stringsBase → (c.value.toOffset stringsBase = 0 ↔ er = true)) ∧
      (er = false → ∃ off, c.value = Ref.pool off ∧
        lookupString (s.addCell row column t value er).block.pool.entries off = some value)) ∧
    (∃ c, (cb.appendFrom row column t er value).arr = cb.arr ++ [c] ∧
      (c.value = Ref.null ↔ er = true) ∧
      (∀ stringsBase, 0 < stringsBase → (c.value.toOffset stringsBase = 0 ↔ er = true)) ∧
      (er = false → ∃ off, c.value = Ref.pool off ∧
        lookupString (cb.appendFrom row column t er value).pool.entries off = some value)) ∧
    cb.appendCell row column t value = cb.appendFrom row column t false value ∧
    cb.appendErasure row column t = cb.appendFrom row column t true value := by
  refine ⟨?_, ?_, ?_, ?_⟩
  · refine ⟨addCellData s.block.pool row column t value er, ?_, ?_, ?_, ?_⟩
    · rw [Impl.addCell_block]
    · cases er <;> simp [addCellData]
    · intro base hbase
      refine (Ref.toOffset_eq_zero_iff hbase _).trans ?_
      cases er <;> simp [addCellData]
    · intro her
      subst her
      obtain ⟨hw₁, -⟩ := s.block.pool.getStringOffset_spec row hs
      obtain ⟨hw₂, -⟩ := (s.block.pool.getStringOffset row).2.getStringOffset_spec column hw₁
      obtain ⟨-, hl₃, -⟩ :=
        ((s.block.pool.getStringOffset row).2.getStringOffset column).2.getStringOffset_spec
          value hw₂
      refine ⟨_, rfl, ?_⟩
      rw [Impl.addCell_block]
      simpa [addCellPool] using hl₃
  · obtain ⟨harr, hpool⟩ := cb.appendFrom_arr row column t er value
    obtain ⟨hw₁, -, -, hd₁, -⟩ := cb.pool.getStringOffset_spec row hcb
    obtain ⟨hw₂, -, -, hd₂, -⟩ := (cb.pool.getStringOffset row).2.getStringOffset_spec column hw₁
    obtain ⟨-, hl₃, -, hd₃, ho₃⟩ :=
      ((cb.pool.getStringOffset row).2.getStringOffset column).2.getStringOffset_spec value hw₂
    have hoff : (((cb.pool.getStringOffset row).2.getStringOffset column).2.getStringOffset
        value).1 ≠ SIZE_MAX := by
      have hb : (((cb.pool.getStringOffset row).2.getStringOffset column).2.getStringOffset
          value).2.dataSz ≤ SIZE_MAX := by
        have h₁ := StringPoolBuilder.getStringOffset_dataSz_le cb.pool row
        have h₂ := StringPoolBuilder.getStringOffset_dataSz_le (cb.pool.getStringOffset row).2 column
        have h₃ := StringPoolBuilder.getStringOffset_dataSz_le
          ((cb.pool.getStringOffset row).2.getStringOffset column).2 value
        omega
      omega
    refine ⟨_, harr, ?_, ?_, ?_⟩
    · cases er
      · simp [hoff]
      · simp
    · intro base hbase
      refine (Ref.toOffset_eq_zero_iff hbase _).trans ?_
      cases er
      · simp [hoff]
      · simp
    · intro her
      subst her
      refine ⟨(((cb.pool.getStringOffset row).2.getStringOffset column).2.getStringOffset
        value).1, by simp [hoff], ?_⟩
      rw [hpool]
      simpa [addCellPool] using hl₃
  · simp [CellBlockBuilder.appendCell, CellBlockBuilder.appendFrom]
  · simp [CellBlockBuilder.appendErasure, CellBlockBuilder.appendFrom]

/-- Witness of C8: a cell with the empty value appended to fresh builders. -/
theorem value_offset_null_iff_erasure_witness :
    ∃ c, (((Impl.new 128).open_ "memfs:output").addCell row1 col1 0 [] false).block.arr =
        ((Impl.new 128).open_ "memfs:output").block.arr ++ [c] ∧
      (c.value = Ref.null ↔ false = true) ∧
      (∀ stringsBase, 0 < stringsBase → (c.value.toOffset stringsBase = 0 ↔ false = true)) ∧
      (false = false → ∃ off, c.value = Ref.pool off ∧
        lookupString (((Impl.new 128).open_ "memfs:output").addCell row1 col1 0 []
          false).block.pool.entries off = some []) :=
  (value_offset_null_iff_erasure ((Impl.new 128).open_ "memfs:output") (CellBlockBuilder.reset 0)
    row1 col1 [] 0 false StringPoolBuilder.reset_WF StringPoolBuilder.reset_WF (by decide)).1

theorem fragmentFile_take {blocks : List (Record CellData)} (idx : Record IndexEntryV1)
    {i : Nat} (hi : i ≤ blocks.length) :
    (fragmentFile blocks idx).take i = blocksFile (blocks.take i) := by
  unfold fragmentFile
  rw [List.take_append_of_le_length (by simpa [blocksFile] using hi), blocksFile_take]

theorem fragmentFile_get_block {blocks : List (Record CellData)} (idx : Record IndexEntryV1)
    {i : Nat} {b : Record CellData} (hb : blocks.get? i = some b) :
    (fragmentFile blocks idx).get? i = some (FileRecord.cellBlock b) := by
  have hi : i < blocks.length := by
    by_contra hge
    rw [List.get?_eq_none.mpr (by omega)] at hb
    exact absurd hb (by simp)
  unfold fragmentFile
  simp only [List.get?_eq_getElem?] at hb ⊢
  rw [List.getElem?_append_left (by simpa [blocksFile] using hi)]
  simp [blocksFile, hb]

/-- C9: Adler invariant.  In the fragment a session leaves, whose cell blocks hold
exactly the emitted cells, the index has one entry per cell block, and the entry
of the `i`-th block has as checksum the Adler-32 of that block record's data
bytes as put in the file, and as block offset the file offset at which that
record begins: the size of the `i` records before it, where reading finds it. -/
theorem DiskWriter.index_checksum_and_offset [Unassigned] (blockSize : Nat) (fs : FS) (fn : String)
    (es : List Emit) :
    ∃ w' fs' blocks ess idx,
      writeFragment blockSize fs fn es = (Except.ok (), w', fs') ∧
      fs' fn = fragmentFile blocks idx ∧
      List.Forall₂ BlockOk blocks ess ∧ ess.flatten = es ∧
      idx.arr.length = blocks.length ∧
      ∀ (i : Nat) (e : IndexEntryV1) (b : Record CellData),
        idx.arr.get? i = some e → blocks.get? i = some b →
        (fs' fn).get? i = some (FileRecord.cellBlock b) ∧
        e.checkSum = adler32 (FileRecord.cellBlock b).getData ∧
        e.blockOffset = File.tell ((fs' fn).take i) ∧
        (fs' fn).readAt e.blockOffset = some (FileRecord.cellBlock b) := by
  obtain ⟨fs', blocks, ess, idx, hw, hf, -, hfrag, hcells⟩ :=
    (DiskWriter.new blockSize).writeSession_spec rfl fs fn es
  refine ⟨_, fs', blocks, ess, idx, hw, hf, hfrag.blocksOk, hcells, hfrag.entries.entries_length_eq, ?_⟩
  intro i e b he hb
  have hi : i < blocks.length := by
    by_contra hge
    rw [List.get?_eq_none.mpr (by omega)] at hb
    exact absurd hb (by simp)
  obtain ⟨hoff, hsum, -, -, -⟩ := hfrag.entries.get he hb
  rw [Nat.zero_add] at hoff
  rw [hf]
  refine ⟨fragmentFile_get_block idx hb, hsum, ?_, ?_⟩
  · rw [hoff, fragmentFile_take idx (by omega)]
  · rw [hoff]; exact fragmentFile_readAt_block idx hb

/-- C10: in the fragment a session leaves, whose cell blocks hold exactly the
emitted cells, the entry of each block has as `lowestTime` and `highestTime` the
least and the greatest timestamp among the cells of that block alone: both are
timestamps of cells of the block, every cell of the block lies between them, and
so `lowestTime ≤ highestTime`. -/
theorem DiskWriter.index_time_range [Unassigned] (blockSize : Nat) (fs : FS) (fn : String)
    (es : List Emit) :
    ∃ w' fs' blocks ess idx,
      writeFragment blockSize fs fn es = (Except.ok (), w', fs') ∧
      fs' fn = fragmentFile blocks idx ∧
      List.Forall₂ BlockOk blocks ess ∧ ess.flatten = es ∧
      idx.arr.length = blocks.length ∧
      ∀ (i : Nat) (e : IndexEntryV1) (b : Record CellData),
        idx.arr.get? i = some e → blocks.get? i = some b →
        (∀ c ∈ b.arr, e.lowestTime ≤ c.timestamp ∧ c.timestamp ≤ e.highestTime) ∧
        (∃ c ∈ b.arr, c.timestamp = e.lowestTime) ∧
        (∃ c ∈ b.arr, c.timestamp = e.highestTime) ∧
        e.lowestTime ≤ e.highestTime := by
  obtain ⟨fs', blocks, ess, idx, hw, hf, -, hfrag, hcells⟩ :=
    (DiskWriter.new blockSize).writeSession_spec rfl fs fn es
  refine ⟨_, fs', blocks, ess, idx, hw, hf, hfrag.blocksOk, hcells, hfrag.entries.entries_length_eq, ?_⟩
  intro i e b he hb
  obtain ⟨-, -, ⟨hall, ⟨cl, hcl, hlo⟩, hhi⟩, -, -⟩ := hfrag.entries.get he hb
  refine ⟨hall, ⟨cl, hcl, hlo⟩, hhi, ?_⟩
  have := hall cl hcl
  omega

theorem row_le_of_not_less {a b : Emit} (h : CellKey.less b.key a.key = false) :
    a.row ≤ b.row := by
  unfold CellKey.less at h
  simp only [Emit.key, Bool.or_eq_false_iff, decide_eq_false_iff_not] at h
  exact not_lt.mp h.1

/-- C11: when the cells are emitted in canonical order, the last row stored in
each index entry (the string its row reference points to in the index's pool)
is the row of the last cell of that entry's block, and no cell of the block has
a greater row. -/
theorem DiskWriter.index_last_row [Unassigned] (blockSize : Nat) (fs : FS) (fn : String) (es : List Emit)
    (hcan : Canonical es) :
    ∃ w' fs' blocks ess idx,
      writeFragment blockSize fs fn es = (Except.ok (), w', fs') ∧
      fs' fn = fragmentFile blocks idx ∧
      List.Forall₂ BlockOk blocks ess ∧ ess.flatten = es ∧
      idx.arr.length = blocks.length ∧
      ∀ (i : Nat) (e : IndexEntryV1) (cells : List Emit),
        idx.arr.get? i = some e → ess.get? i = some cells →
        ∃ last, cells.getLast? = some last ∧
          derefString idx.strings e.row = some last.row ∧
          ∀ c ∈ cells, c.row ≤ last.row := by
  obtain ⟨fs', blocks, ess, idx, hw, hf, -, hfrag, hcells⟩ :=
    (DiskWriter.new blockSize).writeSession_spec rfl fs fn es
  refine ⟨_, fs', blocks, ess, idx, hw, hf, hfrag.blocksOk, hcells,
    hfrag.entries.entries_length_eq, ?_⟩
  intro i e cells he hc
  have hlen := hfrag.blocksOk.length_eq
  obtain ⟨hi, hci⟩ := List.get?_eq_some.mp hc
  have hib : i < blocks.length := by omega
  have hb : blocks.get? i = some (blocks.get ⟨i, hib⟩) := List.get?_eq_get hib
  have hrel := List.Forall₂.get hfrag.blocksOk hib hi
  rw [hci] at hrel
  generalize blocks.get ⟨i, hib⟩ = b at hb hrel
  obtain ⟨-, -, -, ⟨row, hrow, hderef⟩, -⟩ := hfrag.entries.get he hb
  obtain ⟨last, hlast, hlastrow⟩ := lastRowOf_of_decodes hrel.1 hrel.2.2.1 hrel.2.2.2
  rw [hrow] at hlastrow
  have hrl : row = last.row := Option.some.inj hlastrow
  refine ⟨last, hlast, by rw [hderef, hrl], ?_⟩
  have hpw : cells.Pairwise fun a b => CellKey.less b.key a.key = false := by
    have hall : Canonical ess.flatten := by rw [hcells]; exact hcan
    exact (List.pairwise_flatten.mp hall).1 cells (List.get?_mem hc)
  obtain ⟨init, hinit⟩ := List.getLast?_eq_some_iff.mp hlast
  rw [hinit] at hpw ⊢
  obtain ⟨-, -, hcross⟩ := List.pairwise_append.mp hpw
  intro c hcmem
  rcases List.mem_append.mp hcmem with h | h
  · exact row_le_of_not_less (hcross c h last (by simp))
  · have : c = last := by simpa using h
    rw [this]

/-- Witness of C11: the cells of `simple_test`, which are in canonical order. -/
theorem DiskWriter.index_last_row_witness :
    Canonical simpleCells ∧
    ∃ w' fs' blocks ess idx,
      writeFragment 128 emptyFS "memfs:simple" simpleCells = (Except.ok (), w', fs') ∧
      fs' "memfs:simple" = fragmentFile blocks idx ∧
      List.Forall₂ BlockOk blocks ess ∧ ess.flatten = simpleCells ∧
      idx.arr.length = blocks.length ∧
      ∀ (i : Nat) (e : IndexEntryV1) (cells : List Emit),
        idx.arr.get? i = some e → ess.get? i = some cells →
        ∃ last, cells.getLast? = some last ∧
          derefString idx.strings e.row = some last.row ∧
          ∀ c ∈ cells, c.row ≤ last.row :=
  ⟨by unfold Canonical; decide,
   DiskWriter.index_last_row 128 emptyFS "memfs:simple" simpleCells (by unfold Canonical; decide)⟩

/-- C12 (the code departs from the claim): in every fragment `DiskWriter` writes,
the column-family mask of every index entry is 0 and the index holds no family,
whatever the columns of the cells: the update of the mask in `addCell` is
commented out.  A fragment with a cell has a block, whose cells all have a
column family, so the mask misses a bit for each of them. -/
theorem DiskWriter.index_mask_zero [Unassigned] (blockSize : Nat) (fs : FS) (fn : String) (es : List Emit) :
    ∃ w' fs' blocks ess idx,
      writeFragment blockSize fs fn es = (Except.ok (), w', fs') ∧
      fs' fn = fragmentFile blocks idx ∧
      List.Forall₂ BlockOk blocks ess ∧ ess.flatten = es ∧
      idx.arr.length = blocks.length ∧
      (es ≠ [] → blocks ≠ []) ∧
      idx.fams = some ([], 0) ∧
      ∀ (i : Nat) (e : IndexEntryV1), idx.arr.get? i = some e → e.colFamilyMask = 0 := by
  obtain ⟨fs', blocks, ess, idx, hw, hf, -, hfrag, hcells⟩ :=
    (DiskWriter.new blockSize).writeSession_spec rfl fs fn es
  have hlen := hfrag.entries.entries_length_eq
  refine ⟨_, fs', blocks, ess, idx, hw, hf, hfrag.blocksOk, hcells, hlen, ?_, hfrag.fams, ?_⟩
  · intro hne hb
    subst hb
    have h0 : ess = [] := List.length_eq_zero.mp (by simpa using hfrag.blocksOk.length_eq.symm)
    rw [h0] at hcells
    exact hne hcells.symm
  · intro i e he
    obtain ⟨hi, -⟩ := List.get?_eq_some.mp he
    have hib : i < blocks.length := by omega
    exact (hfrag.entries.get he (List.get?_eq_get hib)).2.2.2.2

/-- The two cells of the counterexample to C13: "row2" first, then "row1". -/
theorem outOfOrder_less :
    CellKey.less (Emit.cell row1 col1 42 (val 50)).key (Emit.cell row2 col1 42 (val 49)).key
      = true := by
  decide

/-- Counterexample to C13: after `emitCell("row2", ...)` the call
`emitCell("row1", ...)`, whose key sorts before the previous one, raises nothing:
both emits succeed, the count is 2, and the closed fragment reads back as the
two cells in emission order. -/
theorem DiskWriter.emit_out_of_order_accepted :
    CellKey.less (Emit.cell row1 col1 42 (val 50)).key (Emit.cell row2 col1 42 (val 49)).key
      = true ∧
    ∃ w₀ fs₀ w₁ fs₁ w₂ fs₂ w₃ fs₃,
      (DiskWriter.new 128).open_ emptyFS "memfs:order" = (Except.ok (), w₀, fs₀) ∧
      w₀.emitCell fs₀ row2 col1 42 (val 49) = (Except.ok (), w₁, fs₁) ∧
      w₁.emitCell fs₁ row1 col1 42 (val 50) = (Except.ok (), w₂, fs₂) ∧
      w₂.getCellCount fs₂ = (Except.ok 2, w₂, fs₂) ∧
      w₂.close fs₂ = (Except.ok (), w₃, fs₃) ∧
      readFragment fs₃ "memfs:order" =
        Except.ok ([Emit.cell row2 col1 42 (val 49), Emit.cell row1 col1 42 (val 50)], true) := by
  refine ⟨outOfOrder_less, ?_⟩
  obtain ⟨fs', blocks, ess, idx, hw, hf, -, hfrag, hcells⟩ :=
    (DiskWriter.new 128).writeSession_spec rfl emptyFS "memfs:order"
      [Emit.cell row2 col1 42 (val 49), Emit.cell row1 col1 42 (val 50)]
  have hle := hfrag.blocks_le
  rw [hcells] at hle
  have hread := readFragment_fragmentFile hf hfrag
    (by unfold SENTINEL SIZE_MAX; simp at hle; omega)
  rw [hcells] at hread
  obtain ⟨s, fs₁, blocks₁, ess₁, pend₁, hall, hok, hfp, -, hcnt, -⟩ :=
    (DiskWriter.new 128).open_emitAll_spec rfl emptyFS "memfs:order"
      [Emit.cell row2 col1 42 (val 49), Emit.cell row1 col1 42 (val 50)]
  have hopen : (DiskWriter.new 128).open_ emptyFS "memfs:order" =
      (Except.ok (), ((DiskWriter.new 128).open_ emptyFS "memfs:order").2.1,
        ((DiskWriter.new 128).open_ emptyFS "memfs:order").2.2) := by
    rw [← hok]
  generalize ((DiskWriter.new 128).open_ emptyFS "memfs:order").2.1 = w₀ at hopen hall
  generalize ((DiskWriter.new 128).open_ emptyFS "memfs:order").2.2 = fs₀ at hopen hall
  unfold DiskWriter.writeSession at hw
  rw [hopen] at hw
  simp only [hall] at hw
  simp only [DiskWriter.emitAll, DiskWriter.emit] at hall
  cases h₁ : w₀.emitCell fs₀ row2 col1 42 (val 49) with
  | mk r₁ p₁ =>
    obtain ⟨w₁, fs₁'⟩ := p₁
    rw [h₁] at hall
    cases r₁ with
    | error err => simp at hall
    | ok u₁ =>
      simp only at hall
      cases h₂ : w₁.emitCell fs₁' row1 col1 42 (val 50) with
      | mk r₂ p₂ =>
        obtain ⟨w₂, fs₂'⟩ := p₂
        rw [h₂] at hall
        cases r₂ with
        | error err => simp at hall
        | ok u₂ =>
          simp only [Prod.mk.injEq, true_and] at hall
          obtain ⟨hw₂, hfs₂⟩ := hall
          subst hw₂; subst hfs₂
          refine ⟨w₀, fs₀, w₁, fs₁', _, _, _, fs', hopen, h₁, h₂, ?_, hw, hread⟩
          simp [DiskWriter.getCellCount, Impl.getCellCount, hcnt]

/-- C13 as amended: `DiskWriter` does not check the order of the cells.  After
any sequence of emits, an emit of any cell, whatever its key, succeeds; the cell
is counted, and the closed fragment reads back as the emitted cells in emission
order. -/
theorem DiskWriter.emit_accepts_any_order [Unassigned] (w : DiskWriter) (hw : w.impl = none) (fs : FS)
    (fn : String) (es : List Emit) (e : Emit) (hlen : es.length + 1 < SIZE_MAX) :
    ∃ w₀ fs₀ w₁ fs₁ w₂ fs₂ w₃ fs₃,
      w.open_ fs fn = (Except.ok (), w₀, fs₀) ∧
      w₀.emitAll fs₀ es = (Except.ok (), w₁, fs₁) ∧
      w₁.emit fs₁ e = (Except.ok (), w₂, fs₂) ∧
      w₂.getCellCount fs₂ = (Except.ok (es.length + 1), w₂, fs₂) ∧
      w₂.close fs₂ = (Except.ok (), w₃, fs₃) ∧
      readFragment fs₃ fn = Except.ok (es ++ [e], true) := by
  obtain ⟨s, fs₁, blocks, ess, pend, hall, hok, hfp, -, hcnt, hfile, -, hinv, hcells⟩ :=
    w.open_emitAll_spec hw fs fn es
  have hopen : w.open_ fs fn = (Except.ok (), (w.open_ fs fn).2.1, (w.open_ fs fn).2.2) := by
    rw [← hok]
  obtain ⟨s₂, fs₂, blocks₂, ess₂, pend₂, he, hfp₂, -, hcnt₂, hfile₂, -, hinv₂, hcells₂, -⟩ :=
    hinv.emit hfp fs₁ hfile e
  have hemit := DiskWriter.emit_eq { w with impl := some s, fn := fn } fs₁ e rfl he
  obtain ⟨s₃, fs₃, blocks₃, ess₃, idx, hc, hf₃, -, hfrag, hcells₃, -, -⟩ :=
    hinv₂.close hfp₂ fs₂ hfile₂
  have hclose := DiskWriter.close_eq_ok
    { w with impl := some s₂, fn := fn } fs₂ rfl hc
  have hall' : ess₃.flatten = es ++ [e] := by rw [hcells₃, hcells₂, hcells]
  have hle := hfrag.blocks_le
  rw [hall'] at hle
  have hread := readFragment_fragmentFile hf₃ hfrag
    (by unfold SENTINEL; simp at hle; omega)
  rw [hall'] at hread
  refine ⟨_, _, _, fs₁, _, fs₂, _, fs₃, hopen, hall, hemit, ?_, hclose, hread⟩
  simp [DiskWriter.getCellCount, Impl.getCellCount, hcnt₂, hcnt]

/-- Witness of the amended C13: "row1" emitted after "row2". -/
theorem DiskWriter.emit_accepts_any_order_witness :
    ∃ w₀ fs₀ w₁ fs₁ w₂ fs₂ w₃ fs₃,
      (DiskWriter.new 128).open_ emptyFS "memfs:order" = (Except.ok (), w₀, fs₀) ∧
      w₀.emitAll fs₀ [Emit.cell row2 col1 42 (val 49)] = (Except.ok (), w₁, fs₁) ∧
      w₁.emit fs₁ (Emit.cell row1 col1 42 (val 50)) = (Except.ok (), w₂, fs₂) ∧
      w₂.getCellCount fs₂ =
        (Except.ok ([Emit.cell row2 col1 42 (val 49)].length + 1), w₂, fs₂) ∧
      w₂.close fs₂ = (Except.ok (), w₃, fs₃) ∧
      readFragment fs₃ "memfs:order" =
        Except.ok ([Emit.cell row2 col1 42 (val 49)] ++ [Emit.cell row1 col1 42 (val 50)], true) :=
  DiskWriter.emit_accepts_any_order (DiskWriter.new 128) rfl emptyFS "memfs:order"
    [Emit.cell row2 col1 42 (val 49)] (Emit.cell row1 col1 42 (val 50)) (by decide)

/-- C14: `close` on an open writer puts, in this order, the pending cell block if
and only if it holds at least one cell (`nItems ≠ 0`, that is a non-empty cell
array), then the block index, then the `TableInfo` record; the index offset in
`TableInfo` is the file offset at which the block index begins; and the index
holds one entry per cell block written since `open`, in the order of the blocks:
the `i`-th entry has the offset and the checksum of the `i`-th record. -/
theorem DiskWriter.close_layout [Unassigned] (w : DiskWriter) (hw : w.impl = none) (fs : FS) (fn : String)
    (es : List Emit) :
    ∃ w₀ fs₀ s fs₁ before w₂ fs₂ idx,
      w.open_ fs fn = (Except.ok (), w₀, fs₀) ∧
      w₀.emitAll fs₀ es = (Except.ok (), { w with impl := some s, fn := fn }, fs₁) ∧
      fs₁ fn = blocksFile before ∧
      DiskWriter.close { w with impl := some s, fn := fn } fs₁ = (Except.ok (), w₂, fs₂) ∧
      w₂.impl = none ∧
      (s.block.nItems ≠ 0 ↔ s.block.arr ≠ []) ∧
      fs₂ fn = blocksFile (before ++ if s.block.nItems ≠ 0 then [s.block.build] else []) ++
        [FileRecord.blockIndex idx,
         FileRecord.tableInfo
           (blocksFile (before ++ if s.block.nItems ≠ 0 then [s.block.build] else [])).tell] ∧
      (fs₂ fn).readAt
          (blocksFile (before ++ if s.block.nItems ≠ 0 then [s.block.build] else [])).tell =
        some (FileRecord.blockIndex idx) ∧
      idx.nItems = idx.arr.length ∧
      idx.arr.length = (before ++ if s.block.nItems ≠ 0 then [s.block.build] else []).length ∧
      ∀ (i : Nat) (e : IndexEntryV1) (b : Record CellData),
        idx.arr.get? i = some e →
        (before ++ if s.block.nItems ≠ 0 then [s.block.build] else []).get? i = some b →
        (fs₂ fn).get? i = some (FileRecord.cellBlock b) ∧
        e.blockOffset = File.tell ((fs₂ fn).take i) ∧
        e.checkSum = adler32 (FileRecord.cellBlock b).getData := by
  obtain ⟨s, fs₁, blocks, ess, pend, hall, hok, hfp, -, -, hfile, -, hinv, -⟩ :=
    w.open_emitAll_spec hw fs fn es
  have hopen : w.open_ fs fn = (Except.ok (), (w.open_ fs fn).2.1, (w.open_ fs fn).2.2) := by
    rw [← hok]
  obtain ⟨s₃, fs₃, blocks₃, ess₃, idx, hc, hf₃, -, hfrag, -, hnil, hcons⟩ :=
    hinv.close hfp fs₁ hfile
  have hclose := DiskWriter.close_eq_ok { w with impl := some s, fn := fn } fs₁ rfl hc
  have hlen := hinv.pending.cells_length_eq
  have hiff : s.block.nItems ≠ 0 ↔ s.block.arr ≠ [] := by
    rw [hinv.nItems]
    exact not_congr List.length_eq_zero
  have hblocks : blocks₃ = blocks ++ if s.block.nItems ≠ 0 then [s.block.build] else [] := by
    by_cases hp : pend = []
    · have hn : s.block.nItems = 0 := by rw [hinv.nItems, hlen, hp]; rfl
      rw [hnil hp]; simp [hn]
    · have hn : s.block.nItems ≠ 0 := by
        intro h0
        apply hp
        apply List.length_eq_zero.mp
        rw [← hlen, ← hinv.nItems, h0]
      rw [hcons hp]; simp [hn]
  subst hblocks
  refine ⟨_, _, s, fs₁, blocks, _, fs₃, idx, hopen, hall, hfile, hclose, rfl, hiff, hf₃, ?_,
    hfrag.nItems, hfrag.entries.entries_length_eq, ?_⟩
  · rw [hf₃]; exact fragmentFile_readAt_index _ idx
  · intro i e b he hb
    obtain ⟨hi, -⟩ := List.get?_eq_some.mp hb
    obtain ⟨hoff, hsum, -, -, -⟩ := hfrag.entries.get he hb
    rw [Nat.zero_add] at hoff
    rw [hf₃]
    exact ⟨fragmentFile_get_block idx hb,
      by rw [hoff, fragmentFile_take idx (by omega)], hsum⟩

/-- Witness of C14: the cells of `simple_test`, whose last block is pending at
`close`. -/
theorem DiskWriter.close_layout_witness :
    (DiskWriter.new 128).impl = none ∧
    ∃ w₀ fs₀ s fs₁ before w₂ fs₂ idx,
      (DiskWriter.new 128).open_ emptyFS "memfs:simple" = (Except.ok (), w₀, fs₀) ∧
      w₀.emitAll fs₀ simpleCells =
        (Except.ok (), { DiskWriter.new 128 with impl := some s, fn := "memfs:simple" }, fs₁) ∧
      fs₁ "memfs:simple" = blocksFile before ∧
      DiskWriter.close { DiskWriter.new 128 with impl := some s, fn := "memfs:simple" } fs₁ =
        (Except.ok (), w₂, fs₂) ∧
      w₂.impl = none ∧
      (s.block.nItems ≠ 0 ↔ s.block.arr ≠ []) ∧
      fs₂ "memfs:simple" =
        blocksFile (before ++ if s.block.nItems ≠ 0 then [s.block.build] else []) ++
        [FileRecord.blockIndex idx,
         FileRecord.tableInfo
           (blocksFile (before ++ if s.block.nItems ≠ 0 then [s.block.build] else [])).tell] ∧
      (fs₂ "memfs:simple").readAt
          (blocksFile (before ++ if s.block.nItems ≠ 0 then [s.block.build] else [])).tell =
        some (FileRecord.blockIndex idx) ∧
      idx.nItems = idx.arr.length ∧
      idx.arr.length = (before ++ if s.block.nItems ≠ 0 then [s.block.build] else []).length ∧
      ∀ (i : Nat) (e : IndexEntryV1) (b : Record CellData),
        idx.arr.get? i = some e →
        (before ++ if s.block.nItems ≠ 0 then [s.block.build] else []).get? i = some b →
        (fs₂ "memfs:simple").get? i = some (FileRecord.cellBlock b) ∧
        e.blockOffset = File.tell ((fs₂ "memfs:simple").take i) ∧
        e.checkSum = adler32 (FileRecord.cellBlock b).getData :=
  ⟨rfl, DiskWriter.close_layout (DiskWriter.new 128) rfl emptyFS "memfs:simple" simpleCells⟩

/-! # The claims about `MetaConfigManager` -/

theorem unrootTableUri_of_slash (lib : Library) (root uri : Bytes)
    (h : root.getLast? = some slash) :
    unrootTableUri lib root uri = unrootSlashed lib root uri := by
  have hne : root ≠ [] := by
    intro h0
    rw [h0] at h
    simp at h
  rw [unrootTableUri]
  simp only [hne, if_false, h, ne_eq, not_true_eq_false, dite_false, unrootSlashed]
  by_cases hp : root.isPrefixOf (lib.popScheme uri) = true
  · by_cases he : List.drop root.length (lib.popScheme uri) = []
    · simp [hp, he]
    · by_cases hs : (List.drop root.length (lib.popScheme uri)).head? = some slash
      · simp [hp, hs]
      · simp [hp, he, hs]
  · simp [hp]

/-- C15: `unrootTableUri(root, uri)` raises `ValueError` when root is empty, when
the URI without its scheme does not start with the root followed by a slash
(the root itself when it already ends with one), or when what is left after
that prefix is empty or begins with a slash; in every other case it returns what
is left with the scheme put back.  A non-empty root gives the same outcome with
and without the trailing slash. -/
theorem unrootTableUri_outcome (lib : Library) (root uri : Bytes) :
    unrootTableUri lib root uri =
      (if root = [] then Except.error (ConfigError.ValueError "empty root")
       else if (if root.getLast? = some slash then root else root ++ [slash]).isPrefixOf
            (lib.popScheme uri) = false then
         Except.error (ConfigError.ValueError "table URI not under root")
       else if (lib.popScheme uri).drop
              (if root.getLast? = some slash then root else root ++ [slash]).length = [] ∨
            ((lib.popScheme uri).drop
              (if root.getLast? = some slash then root else root ++ [slash]).length).head? =
              some slash then
         Except.error (ConfigError.ValueError "table URI invalid after removing root")
       else
         Except.ok (lib.uriPushScheme
           ((lib.popScheme uri).drop
             (if root.getLast? = some slash then root else root ++ [slash]).length)
           (lib.topScheme uri))) ∧
    ∀ (pre : Bytes) (c : Byte),
      unrootTableUri lib ((pre ++ [c]) ++ if c = slash then [] else [slash]) uri =
        unrootTableUri lib (pre ++ [c]) uri := by
  have key : ∀ r : Bytes, r ≠ [] → r.getLast? ≠ some slash →
      unrootTableUri lib r uri = unrootSlashed lib (r ++ [slash]) uri := by
    intro r hr hl
    rw [unrootTableUri]
    simp only [hr, if_false, hl, ne_eq, not_false_eq_true, dite_true]
    exact unrootTableUri_of_slash lib (r ++ [slash]) uri (by simp)
  constructor
  · by_cases h0 : root = []
    · subst h0
      rw [unrootTableUri]
      simp
    · by_cases hl : root.getLast? = some slash
      · rw [unrootTableUri_of_slash lib root uri hl]
        simp only [h0, if_false, hl, if_true]
        rfl
      · rw [key root h0 hl]
        simp only [h0, if_false, hl]
        rfl
  · intro pre c
    by_cases hc : c = slash
    · simp [hc]
    · have hl : (pre ++ [c]).getLast? ≠ some slash := by
        rw [List.getLast?_append, List.getLast?_singleton]
        intro h
        exact hc (by simpa [Option.or] using h)
      simp only [hc, if_false]
      rw [key (pre ++ [c]) (by simp) hl]
      exact unrootTableUri_of_slash lib _ uri (by simp)

theorem withSlash_getLast (root : Bytes) : (withSlash root).getLast? = some slash := by
  unfold withSlash
  split_ifs with h
  · exact h
  · simp

/-- For a non-empty root `unrootTableUri` is the outcome for the root completed
with its slash. -/
theorem unrootTableUri_eq_slashed (lib : Library) (root uri : Bytes) (h0 : root ≠ []) :
    unrootTableUri lib root uri = unrootSlashed lib (withSlash root) uri := by
  by_cases hl : root.getLast? = some slash
  · rw [unrootTableUri_of_slash lib root uri hl]
    simp [withSlash, hl]
  · rw [unrootTableUri]
    simp only [h0, if_false, hl, ne_eq, not_false_eq_true, dite_true]
    rw [unrootTableUri_of_slash lib (root ++ [slash]) uri (by simp)]
    simp [withSlash, hl]

theorem unrootTableUri_underRoot (lib : Library) (rootDir u : Bytes) (h0 : rootDir ≠ [])
    (hu : UriUnderRoot lib rootDir u) :
    unrootTableUri lib rootDir u = Except.ok (relativeUri lib rootDir u) ∧
    resolveTableUri lib rootDir (relativeUri lib rootDir u) = u := by
  obtain ⟨rel, hpop, hne, hhead, hpp, hpr, htr, hres⟩ := hu
  have hdrop : (lib.popScheme u).drop (withSlash rootDir).length = rel := by
    rw [hpop]; simp
  have hpre : (withSlash rootDir).isPrefixOf (lib.popScheme u) = true := by
    rw [hpop]; simp
  constructor
  · rw [unrootTableUri_eq_slashed lib rootDir u h0]
    unfold unrootSlashed relativeUri
    simp [hpre, hdrop, hne, hhead]
  · unfold resolveTableUri relativeUri
    rw [hdrop, hpr, htr, hres, ← hpop, hpp]

theorem Config.set_fresh (c : Config) (k : ConfigKey) (v : Bytes)
    (h : ∀ e ∈ c, e.1 ≠ k) : Config.set c k v = c ++ [(k, v)] := by
  unfold Config.set
  have : c.any (fun e => decide (e.1 = k)) = false := by
    rw [List.any_eq_false]
    intro e he
    simpa using h e he
  simp [this]

theorem Config.tableChildren_append (c d : Config) :
    Config.tableChildren (c ++ d) = Config.tableChildren c ++ Config.tableChildren d := by
  simp [Config.tableChildren, List.filterMap_append]

theorem Config.findMinRow_of_tables (c : Config) (h : ∀ e ∈ c, ∃ j, e.1 = ConfigKey.tables j) :
    Config.findMinRow c = none := by
  unfold Config.findMinRow
  have : c.find? (fun e => decide (e.1 = ConfigKey.minRow)) = none := by
    rw [List.find?_eq_none]
    intro e he
    obtain ⟨j, hj⟩ := h e he
    simp [hj]
  simp [this]

/-- The loop over the URIs appends one child of `tables` per URI, in order. -/
theorem setTableUris_spec (lib : Library) (rootDir : Bytes) (h0 : rootDir ≠ []) :
    ∀ (us : List Bytes) (idx : Nat) (state : Config),
      (∀ e ∈ state, ∃ j, j < idx ∧ e.1 = ConfigKey.tables j) →
      (∀ u ∈ us, UriUnderRoot lib rootDir u) →
      ∃ st, setTableUris lib rootDir us idx state = Except.ok st ∧
        Config.tableChildren st =
          Config.tableChildren state ++ us.map (relativeUri lib rootDir) ∧
        ∀ e ∈ st, ∃ j, e.1 = ConfigKey.tables j
  | [], idx, state, hst, _ => by
    refine ⟨state, rfl, by simp, ?_⟩
    intro e he
    obtain ⟨j, -, hj⟩ := hst e he
    exact ⟨j, hj⟩
  | u :: us, idx, state, hst, hus => by
    obtain ⟨hun, -⟩ := unrootTableUri_underRoot lib rootDir u h0 (hus u (by simp))
    have hfresh : ∀ e ∈ state, e.1 ≠ ConfigKey.tables idx := by
      intro e he heq
      obtain ⟨j, hj, hk⟩ := hst e he
      rw [hk] at heq
      injection heq with heq
      omega
    have hset := Config.set_fresh state (ConfigKey.tables idx) (relativeUri lib rootDir u) hfresh
    obtain ⟨st, hst', hch, hall⟩ := setTableUris_spec lib rootDir h0 us (idx + 1)
      (Config.set state (ConfigKey.tables idx) (relativeUri lib rootDir u))
      (by
        intro e he
        rw [hset] at he
        rcases List.mem_append.mp he with h | h
        · obtain ⟨j, hj, hk⟩ := hst e h
          exact ⟨j, by omega, hk⟩
        · have : e = (ConfigKey.tables idx, relativeUri lib rootDir u) := by simpa using h
          exact ⟨idx, by omega, by rw [this]⟩)
      (fun x hx => hus x (by simp [hx]))
    refine ⟨st, ?_, ?_, hall⟩
    · simp only [setTableUris, hun]
      exact hst'
    · rw [hch, hset, Config.tableChildren_append]
      simp [Config.tableChildren]

theorem toy_uri1_underRoot : UriUnderRoot toyLibrary rootDir0 uri1 :=
  ⟨[116, 47, 49], by decide, by decide, by decide, by decide, by decide, by decide, by decide⟩

theorem toy_uri2_underRoot : UriUnderRoot toyLibrary rootDir0 uri2 :=
  ⟨[116, 47, 50], by decide, by decide, by decide, by decide, by decide, by decide, by decide⟩

theorem Config.findMinRow_append_minRow (c : Config) (v : Bytes)
    (h : ∀ e ∈ c, ∃ j, e.1 = ConfigKey.tables j) :
    Config.findMinRow (c ++ [(ConfigKey.minRow, v)]) = some v := by
  unfold Config.findMinRow
  have : c.find? (fun e => decide (e.1 = ConfigKey.minRow)) = none := by
    rw [List.find?_eq_none]
    intro e he
    obtain ⟨j, hj⟩ := h e he
    simp [hj]
  rw [List.find?_append, this]
  simp

/-- The state `getConfigCellValue` builds for a config with URIs under the root
and a lower bound that is −∞ or exclusive. -/
theorem configState_spec (lib : Library) (rootDir : Bytes) (config : TabletConfig)
    (h0 : rootDir ≠ [])
    (hlow : config.rows.lowerBound =
        { value := [], type := warp.PointType.PT_INFINITE_LOWER_BOUND } ∨
      config.rows.lowerBound.type = warp.PointType.PT_EXCLUSIVE_LOWER_BOUND)
    (huris : ∀ u ∈ config.uris, UriUnderRoot lib rootDir u) :
    ∃ st, configState lib config rootDir = Except.ok st ∧
      Config.tableChildren st = config.uris.map (relativeUri lib rootDir) ∧
      (config.rows.lowerBound.type = warp.PointType.PT_INFINITE_LOWER_BOUND →
        Config.findMinRow st = none) ∧
      (config.rows.lowerBound.type = warp.PointType.PT_EXCLUSIVE_LOWER_BOUND →
        Config.findMinRow st = some config.rows.lowerBound.value) := by
  obtain ⟨st, hst, hch, hall⟩ := setTableUris_spec lib rootDir h0 config.uris 0 []
    (by intro e he; simp at he) huris
  simp only [Config.tableChildren, List.filterMap_nil, List.nil_append] at hch
  rcases hlow with hinf | hexc
  · have ht : config.rows.lowerBound.type = warp.PointType.PT_INFINITE_LOWER_BOUND := by
      rw [hinf]
    refine ⟨st, ?_, hch, fun _ => Config.findMinRow_of_tables st hall, ?_⟩
    · simp [configState, hst, ht]
    · intro h; rw [ht] at h; exact absurd h (by decide)
  · have hfresh : ∀ e ∈ st, e.1 ≠ ConfigKey.minRow := by
      intro e he heq
      obtain ⟨j, hj⟩ := hall e he
      rw [hj] at heq
      exact absurd heq (by simp)
    have hset := Config.set_fresh st ConfigKey.minRow config.rows.lowerBound.value hfresh
    refine ⟨Config.set st ConfigKey.minRow config.rows.lowerBound.value, ?_, ?_, ?_, ?_⟩
    · simp [configState, hst, hexc]
    · rw [hset, Config.tableChildren_append]
      simpa [Config.tableChildren] using hch
    · intro h; rw [hexc] at h; exact absurd h (by decide)
    · intro _
      rw [hset]
      exact Config.findMinRow_append_minRow st _ hall

theorem getConfigFromCell_eq (lib : Library) (cell : StoredCell) (rootDir : Bytes)
    {lastRow : warp.IntervalPoint} {st : Config}
    (hrow : lib.tabletLastRow cell.row = Except.ok lastRow)
    (hparse : lib.configParse cell.value = Except.ok st) :
    getConfigFromCell lib cell rootDir =
      Except.ok
        { rows :=
            { lowerBound :=
                match Config.findMinRow st with
                | some v => { value := v, type := warp.PointType.PT_EXCLUSIVE_LOWER_BOUND }
                | none => { value := [], type := warp.PointType.PT_INFINITE_LOWER_BOUND }
              upperBound := lastRow }
          uris := (Config.tableChildren st).map fun u => resolveTableUri lib rootDir u } := by
  simp only [getConfigFromCell, hrow, hparse, bind, Except.bind, pure, Except.pure]

theorem toy_configState :
    configState toyLibrary config0 rootDir0 =
      Except.ok
        [(ConfigKey.tables 0, [100, 105, 115, 107, 58, 116, 47, 49]),
         (ConfigKey.tables 1, [100, 105, 115, 107, 58, 116, 47, 50]),
         (ConfigKey.minRow, row1)] := by
  have h₁ := (unrootTableUri_underRoot toyLibrary rootDir0 uri1 (by decide)
    toy_uri1_underRoot).1
  have h₂ := (unrootTableUri_underRoot toyLibrary rootDir0 uri2 (by decide)
    toy_uri2_underRoot).1
  have r₁ : relativeUri toyLibrary rootDir0 uri1 = [100, 105, 115, 107, 58, 116, 47, 49] := by
    decide
  have r₂ : relativeUri toyLibrary rootDir0 uri2 = [100, 105, 115, 107, 58, 116, 47, 50] := by
    decide
  rw [r₁] at h₁
  rw [r₂] at h₂
  simp only [configState, config0, setTableUris, h₁, h₂]
  rfl

/-- C16: config serialization round trip.  For a config whose lower bound is −∞
or exclusive and whose URIs lie under the (non-empty) root, `getConfigCellValue`
succeeds; `minRow` is in the state it serializes exactly when the lower bound is
finite; and `getConfigFromCell` on a cell with that value, whose row encodes the
config's upper bound, returns the config itself: the same rows and the same
URIs in the same order, however many.  A cell whose value has no `minRow` reads
back with lower bound −∞.  The text form of `Config` is assumed to parse back to
the state that was printed. -/
theorem config_cell_round_trip (lib : Library) (rootDir : Bytes) (config : TabletConfig)
    (h0 : rootDir ≠ [])
    (hlow : config.rows.lowerBound =
        { value := [], type := warp.PointType.PT_INFINITE_LOWER_BOUND } ∨
      config.rows.lowerBound.type = warp.PointType.PT_EXCLUSIVE_LOWER_BOUND)
    (huris : ∀ u ∈ config.uris, UriUnderRoot lib rootDir u)
    (hcodec : ∀ st, configState lib config rootDir = Except.ok st →
      lib.configParse (lib.configPrint st) = Except.ok st) :
    (∃ st, configState lib config rootDir = Except.ok st ∧
      getConfigCellValue lib config rootDir = Except.ok (lib.configPrint st) ∧
      (Config.findMinRow st = none ↔
        config.rows.lowerBound.type = warp.PointType.PT_INFINITE_LOWER_BOUND) ∧
      (config.rows.lowerBound.type = warp.PointType.PT_EXCLUSIVE_LOWER_BOUND →
        Config.findMinRow st = some config.rows.lowerBound.value) ∧
      ∀ cell : StoredCell, cell.value = lib.configPrint st →
        lib.tabletLastRow cell.row = Except.ok config.rows.upperBound →
        getConfigFromCell lib cell rootDir = Except.ok config) ∧
    (∀ (cell : StoredCell) (st : Config) (lastRow : warp.IntervalPoint),
      lib.configParse cell.value = Except.ok st → Config.findMinRow st = none →
      lib.tabletLastRow cell.row = Except.ok lastRow →
      ∃ cfg, getConfigFromCell lib cell rootDir = Except.ok cfg ∧
        cfg.rows.lowerBound = { value := [], type := warp.PointType.PT_INFINITE_LOWER_BOUND }) := by
  obtain ⟨st, hst, hch, hinf, hexc⟩ := configState_spec lib rootDir config h0 hlow huris
  constructor
  · refine ⟨st, hst, by simp [getConfigCellValue, hst], ?_, hexc, ?_⟩
    · constructor
      · intro hnone
        rcases hlow with h | h
        · rw [h]
        · rw [hexc h] at hnone
          exact absurd hnone (by simp)
      · exact hinf
    · intro cell hval hrow
      have hparse := hcodec st hst
      have huri : (Config.tableChildren st).map (fun u => resolveTableUri lib rootDir u) =
          config.uris := by
        rw [hch, List.map_map]
        conv_rhs => rw [← List.map_id config.uris]
        apply List.map_congr_left
        intro u hu
        exact (unrootTableUri_underRoot lib rootDir u h0 (huris u hu)).2
      cases hcfg : config with
      | mk rows uris =>
        cases hrows : rows with
        | mk lo hi =>
          rw [hcfg] at hrow huri hinf hexc hlow
          rw [hrows] at hrow hinf hexc hlow
          simp only at hrow huri hinf hexc hlow
          rw [← hval] at hparse
          rw [getConfigFromCell_eq lib cell rootDir hrow hparse, huri]
          rcases hlow with h | h
          · have hm := hinf (by rw [h])
            rw [hm, h]
          · have hm := hexc h
            cases lo with
            | mk v t =>
              simp only at h hm
              subst h
              rw [hm]
  · intro cell st' lastRow hparse hnone hrow
    refine ⟨_, getConfigFromCell_eq lib cell rootDir hrow hparse, ?_⟩
    simp only [hnone]

/-- Witness of C16: a config with rows ("row1", "row2"] and two fragments under
"/root", in the concrete library. -/
theorem config_cell_round_trip_witness :
    getConfigCellValue toyLibrary config0 rootDir0 = Except.ok cell0.value ∧
    getConfigFromCell toyLibrary cell0 rootDir0 = Except.ok config0 := by
  have h := config_cell_round_trip toyLibrary rootDir0 config0 (by decide)
    (Or.inr rfl)
    (by
      intro u hu
      simp only [config0, List.mem_cons, List.mem_singleton, List.not_mem_nil, or_false] at hu
      rcases hu with rfl | rfl
      · exact toy_uri1_underRoot
      · exact toy_uri2_underRoot)
    (by
      intro st hst
      rw [toy_configState] at hst
      injection hst with hst
      subst hst
      rfl)
  obtain ⟨st, hst, hval, -, -, hback⟩ := h.1
  rw [toy_configState] at hst
  injection hst with hst
  subst hst
  exact ⟨hval, hback cell0 rfl rfl⟩

/-! ## `loadTabletConfigs` -/

theorem warp.IntervalPoint.lt_minusInfinity (a : warp.IntervalPoint) :
    a.lt minusInfinity = false := by
  unfold warp.IntervalPoint.lt minusInfinity
  by_cases h : a.type = warp.PointType.PT_INFINITE_LOWER_BOUND <;> simp [h]

theorem warp.IntervalPoint.lt_self_false (a : warp.IntervalPoint) : a.lt a = false := by
  unfold warp.IntervalPoint.lt
  by_cases h₁ : a.type = warp.PointType.PT_INFINITE_LOWER_BOUND
  · simp [h₁]
  · by_cases h₂ : a.type = warp.PointType.PT_INFINITE_UPPER_BOUND
    · simp [h₂]
    · simp [h₁, h₂]

theorem warp.IntervalPoint.lt_flip_false {a b : warp.IntervalPoint} (h : a.lt b = true) :
    b.lt a = false := by
  unfold warp.IntervalPoint.lt at h ⊢
  by_cases ha₁ : a.type = warp.PointType.PT_INFINITE_LOWER_BOUND
  · by_cases hb₁ : b.type = warp.PointType.PT_INFINITE_LOWER_BOUND
    · simp [ha₁, hb₁] at h
    · simp [ha₁, hb₁]
  · by_cases hb₁ : b.type = warp.PointType.PT_INFINITE_LOWER_BOUND
    · simp [ha₁, hb₁] at h
    · by_cases ha₂ : a.type = warp.PointType.PT_INFINITE_UPPER_BOUND
      · simp [ha₁, hb₁, ha₂] at h
      · by_cases hb₂ : b.type = warp.PointType.PT_INFINITE_UPPER_BOUND
        · simp [ha₁, hb₁, ha₂, hb₂]
        · simp only [ha₁, hb₁, ha₂, hb₂, if_false, Bool.or_eq_true, Bool.and_eq_true,
            decide_eq_true_eq] at h
          simp only [ha₁, hb₁, ha₂, hb₂, if_false, Bool.or_eq_false_iff, Bool.and_eq_false_iff,
            decide_eq_false_iff_not]
          rcases h with h | ⟨hv, hr⟩
          · exact ⟨not_lt.mpr (le_of_lt h), Or.inl (ne_of_gt h)⟩
          · exact ⟨by rw [hv]; exact lt_irrefl _, Or.inr (by omega)⟩

theorem LoadState.expected_of_none {st : LoadState} (h : st.prev = none) :
    st.expectedLowerBound = minusInfinity := by
  simp [LoadState.expectedLowerBound, h, minusInfinity]

theorem LoadState.expected_of_some {st : LoadState} {p : StoredCell} (h : st.prev = some p) :
    st.expectedLowerBound = st.prevRows.upperBound.getAdjacentComplement := by
  simp [LoadState.expectedLowerBound, h]

/-- The step of the loop on a cell that leaves a gap. -/
theorem loadStep_gap (lib : Library) (rootDir : Bytes) (st : LoadState) (x : StoredCell)
    {cfg : TabletConfig} {value : Bytes}
    (hcfg : getConfigFromCell lib x rootDir = Except.ok cfg)
    (hgap : st.expectedLowerBound.lt cfg.rows.lowerBound = true)
    (hval : getConfigCellValue lib (expandedConfig st.expectedLowerBound cfg) rootDir =
      Except.ok value) :
    loadStep lib rootDir st x =
      Except.ok
        { prevRows := (expandedConfig st.expectedLowerBound cfg).rows, changedMeta := true,
          loadedPrev := true, prev := some x,
          cfgs := st.cfgs ++ [expandedConfig st.expectedLowerBound cfg],
          ops := st.ops ++ [MetaOp.set x.row x.column x.timestamp value] } := by
  have hnot := warp.IntervalPoint.lt_flip_false hgap
  unfold expandedConfig at hval
  simp only [loadStep, hcfg, bind, Except.bind, hnot, Bool.false_eq_true, if_false, hgap, if_true,
    hval, pure, Except.pure, expandedConfig]

/-- The step of the loop on a cell that overlaps the previous one and has its
lower bound. -/
theorem loadStep_overlap (lib : Library) (rootDir : Bytes) (st : LoadState) (x : StoredCell)
    {cfg : TabletConfig} {prev : StoredCell}
    (hcfg : getConfigFromCell lib x rootDir = Except.ok cfg)
    (hover : cfg.rows.lowerBound.lt st.expectedLowerBound = true)
    (hsame : cfg.rows.lowerBound.ne st.prevRows.lowerBound = false)
    (hprev : st.prev = some prev) :
    loadStep lib rootDir st x =
      Except.ok
        { prevRows := cfg.rows, changedMeta := true, loadedPrev := true, prev := some x,
          cfgs := (if st.loadedPrev then st.cfgs.dropLast else st.cfgs) ++ [cfg],
          ops := st.ops ++ [MetaOp.erase prev.row prev.column prev.timestamp] } := by
  simp only [loadStep, hcfg, bind, Except.bind, hover, if_true, hsame, Bool.false_eq_true,
    if_false, hprev, pure, Except.pure]

/-- The step of the loop on a cell that overlaps the previous one with another
lower bound. -/
theorem loadStep_uncorrectable (lib : Library) (rootDir : Bytes) (st : LoadState)
    (x : StoredCell) {cfg : TabletConfig}
    (hcfg : getConfigFromCell lib x rootDir = Except.ok cfg)
    (hover : cfg.rows.lowerBound.lt st.expectedLowerBound = true)
    (hdiff : cfg.rows.lowerBound.ne st.prevRows.lowerBound = true) :
    loadStep lib rootDir st x =
      Except.error (ConfigError.RuntimeError "uncorrectable overlap in META table") := by
  simp only [loadStep, hcfg, bind, Except.bind, hover, if_true, hdiff]

/-- The step of the loop on a cell that starts where it is expected to. -/
theorem loadStep_adjacent (lib : Library) (rootDir : Bytes) (st : LoadState) (x : StoredCell)
    {cfg : TabletConfig}
    (hcfg : getConfigFromCell lib x rootDir = Except.ok cfg)
    (h₁ : cfg.rows.lowerBound.lt st.expectedLowerBound = false)
    (h₂ : st.expectedLowerBound.lt cfg.rows.lowerBound = false) :
    loadStep lib rootDir st x =
      Except.ok
        { prevRows := cfg.rows, changedMeta := st.changedMeta, loadedPrev := true,
          prev := some x, cfgs := st.cfgs ++ [cfg], ops := st.ops } := by
  simp only [loadStep, hcfg, bind, Except.bind, h₁, Bool.false_eq_true, if_false, h₂, pure,
    Except.pure]

/-- The three ways in which the step of the loop returns. -/
theorem loadStep_inv {lib : Library} {rootDir : Bytes} {st st₁ : LoadState} {x : StoredCell}
    (h : loadStep lib rootDir st x = Except.ok st₁) :
    ∃ cfg, getConfigFromCell lib x rootDir = Except.ok cfg ∧
      ((st.expectedLowerBound.lt cfg.rows.lowerBound = true ∧
        ∃ value, getConfigCellValue lib (expandedConfig st.expectedLowerBound cfg) rootDir =
            Except.ok value ∧
          st₁ = { prevRows := (expandedConfig st.expectedLowerBound cfg).rows,
                  changedMeta := true, loadedPrev := true, prev := some x,
                  cfgs := st.cfgs ++ [expandedConfig st.expectedLowerBound cfg],
                  ops := st.ops ++ [MetaOp.set x.row x.column x.timestamp value] }) ∨
       (cfg.rows.lowerBound.lt st.expectedLowerBound = true ∧
        cfg.rows.lowerBound.ne st.prevRows.lowerBound = false ∧
        ∃ prev, st.prev = some prev ∧
          st₁ = { prevRows := cfg.rows, changedMeta := true, loadedPrev := true,
                  prev := some x,
                  cfgs := (if st.loadedPrev then st.cfgs.dropLast else st.cfgs) ++ [cfg],
                  ops := st.ops ++ [MetaOp.erase prev.row prev.column prev.timestamp] }) ∨
       (cfg.rows.lowerBound.lt st.expectedLowerBound = false ∧
        st.expectedLowerBound.lt cfg.rows.lowerBound = false ∧
        st₁ = { prevRows := cfg.rows, changedMeta := st.changedMeta, loadedPrev := true,
                prev := some x, cfgs := st.cfgs ++ [cfg], ops := st.ops })) := by
  cases hcfg : getConfigFromCell lib x rootDir with
  | error e => simp [loadStep, hcfg, bind, Except.bind] at h
  | ok cfg =>
    refine ⟨cfg, rfl, ?_⟩
    cases hover : cfg.rows.lowerBound.lt st.expectedLowerBound with
    | true =>
      cases hne : cfg.rows.lowerBound.ne st.prevRows.lowerBound with
      | true => rw [loadStep_uncorrectable lib rootDir st x hcfg hover hne] at h; cases h
      | false =>
        cases hprev : st.prev with
        | none =>
          simp only [loadStep, hcfg, bind, Except.bind, hover, if_true, hne, Bool.false_eq_true,
            if_false, hprev] at h
          cases h
        | some prev =>
          rw [loadStep_overlap lib rootDir st x hcfg hover hne hprev] at h
          injection h with h
          exact Or.inr (Or.inl ⟨rfl, rfl, prev, rfl, h.symm⟩)
    | false =>
      cases hgap : st.expectedLowerBound.lt cfg.rows.lowerBound with
      | true =>
        cases hval : getConfigCellValue lib (expandedConfig st.expectedLowerBound cfg) rootDir with
        | error e =>
          unfold expandedConfig at hval
          simp only [loadStep, hcfg, bind, Except.bind, hover, Bool.false_eq_true, if_false, hgap,
            if_true, hval] at h
          cases h
        | ok value =>
          rw [loadStep_gap lib rootDir st x hcfg hgap hval] at h
          injection h with h
          exact Or.inl ⟨rfl, value, rfl, h.symm⟩
      | false =>
        rw [loadStep_adjacent lib rootDir st x hcfg hover hgap] at h
        injection h with h
        exact Or.inr (Or.inr ⟨rfl, rfl, h.symm⟩)

theorem loadLoop_ops {lib : Library} {rootDir : Bytes} {xs : List StoredCell} :
    ∀ {st st₁ : LoadState} {ops : List MetaOp},
      loadLoop lib rootDir st xs = (Except.ok st₁, ops) → ops = st₁.ops := by
  induction xs with
  | nil =>
    intro st st₁ ops h
    simp only [loadLoop, Prod.mk.injEq, Except.ok.injEq] at h
    rw [← h.1, h.2]
  | cons x xs ih =>
    intro st st₁ ops h
    cases hs : loadStep lib rootDir st x with
    | error e => simp [loadLoop, hs] at h
    | ok st₂ =>
      simp only [loadLoop, hs] at h
      exact ih h

theorem loadLoop_append_ok {lib : Library} {rootDir : Bytes} {pre : List StoredCell} :
    ∀ {st st₁ : LoadState} {ops : List MetaOp},
      loadLoop lib rootDir st pre = (Except.ok st₁, ops) →
      ∀ ys, loadLoop lib rootDir st (pre ++ ys) = loadLoop lib rootDir st₁ ys := by
  induction pre with
  | nil =>
    intro st st₁ ops h ys
    simp only [loadLoop, Prod.mk.injEq, Except.ok.injEq] at h
    rw [List.nil_append, h.1]
  | cons x xs ih =>
    intro st st₁ ops h ys
    cases hs : loadStep lib rootDir st x with
    | error e => simp [loadLoop, hs] at h
    | ok st₂ =>
      simp only [loadLoop, hs] at h
      simp only [List.cons_append, loadLoop, hs]
      exact ih h ys

theorem loadLoop_append_inv {lib : Library} {rootDir : Bytes} {pre : List StoredCell} :
    ∀ {st st₂ : LoadState} {ops : List MetaOp} {ys : List StoredCell},
      loadLoop lib rootDir st (pre ++ ys) = (Except.ok st₂, ops) →
      ∃ st₁, loadLoop lib rootDir st pre = (Except.ok st₁, st₁.ops) ∧
        loadLoop lib rootDir st₁ ys = (Except.ok st₂, ops) := by
  induction pre with
  | nil =>
    intro st st₂ ops ys h
    exact ⟨st, rfl, h⟩
  | cons x xs ih =>
    intro st st₂ ops ys h
    cases hs : loadStep lib rootDir st x with
    | error e => simp [loadLoop, hs] at h
    | ok st₃ =>
      simp only [List.cons_append, loadLoop, hs] at h
      obtain ⟨st₁, h₁, h₂⟩ := ih h
      exact ⟨st₁, by simp only [loadLoop, hs]; exact h₁, h₂⟩

theorem LoadInv.at_start (lib : Library) : LoadInv (LoadState.init lib) := by
  refine ⟨?_, ?_, ?_⟩
  · intro op hop
    simp [LoadState.init] at hop
  · simp [LoadState.init]
  · intro p hp
    simp [LoadState.init] at hp

theorem LoadInv.after_step {lib : Library} {rootDir : Bytes} {st st₁ : LoadState} {x : StoredCell}
    (hinv : LoadInv st) (h : loadStep lib rootDir st x = Except.ok st₁) : LoadInv st₁ := by
  obtain ⟨hops, hch, hprev⟩ := hinv
  obtain ⟨cfg, -, hc⟩ := loadStep_inv h
  rcases hc with ⟨-, value, -, rfl⟩ | ⟨-, -, prev, -, rfl⟩ | ⟨-, -, rfl⟩
  · refine ⟨?_, by simp, ?_⟩
    · intro op hop
      rcases List.mem_append.mp hop with hop | hop
      · exact hops op hop
      · rw [List.mem_singleton.mp hop]; rfl
    · intro p _
      exact ⟨rfl, st.cfgs, _, rfl, rfl⟩
  · refine ⟨?_, by simp, ?_⟩
    · intro op hop
      rcases List.mem_append.mp hop with hop | hop
      · exact hops op hop
      · rw [List.mem_singleton.mp hop]; rfl
    · intro p _
      exact ⟨rfl, _, _, rfl, rfl⟩
  · refine ⟨hops, hch, ?_⟩
    intro p _
    exact ⟨rfl, st.cfgs, _, rfl, rfl⟩

theorem LoadInv.after_loop {lib : Library} {rootDir : Bytes} {xs : List StoredCell} :
    ∀ {st st₁ : LoadState} {ops : List MetaOp}, LoadInv st →
      loadLoop lib rootDir st xs = (Except.ok st₁, ops) → LoadInv st₁ := by
  induction xs with
  | nil =>
    intro st st₁ ops hinv h
    simp only [loadLoop, Prod.mk.injEq, Except.ok.injEq] at h
    rw [← h.1]
    exact hinv
  | cons x xs ih =>
    intro st st₁ ops hinv h
    cases hs : loadStep lib rootDir st x with
    | error e => simp [loadLoop, hs] at h
    | ok st₂ =>
      simp only [loadLoop, hs] at h
      exact ih (hinv.after_step hs) h

/-- The calls made by the loop are repairs, whether it ends or raises. -/
theorem loadLoop_ops_repair {lib : Library} {rootDir : Bytes} {xs : List StoredCell} :
    ∀ {st : LoadState}, LoadInv st →
      ∀ op ∈ (loadLoop lib rootDir st xs).2, op.isRepair = true := by
  induction xs with
  | nil =>
    intro st hinv
    exact hinv.1
  | cons x xs ih =>
    intro st hinv
    cases hs : loadStep lib rootDir st x with
    | error e =>
      simp only [loadLoop, hs]
      exact hinv.1
    | ok st₂ =>
      simp only [loadLoop, hs]
      exact ih (hinv.after_step hs)

/-- After the cell `p` has been read, it is the previous cell, and the previous
upper bound is the one of its config. -/
theorem loadLoop_last {lib : Library} {rootDir : Bytes} {front : List StoredCell}
    {p : StoredCell} {st st₁ : LoadState} {ops : List MetaOp}
    (h : loadLoop lib rootDir st (front ++ [p]) = (Except.ok st₁, ops)) :
    ∃ pcfg, getConfigFromCell lib p rootDir = Except.ok pcfg ∧
      st₁.prev = some p ∧ st₁.prevRows.upperBound = pcfg.rows.upperBound := by
  obtain ⟨st₀, -, h₂⟩ := loadLoop_append_inv h
  cases hs : loadStep lib rootDir st₀ p with
  | error e => simp [loadLoop, hs] at h₂
  | ok st₂ =>
    simp only [loadLoop, hs, Prod.mk.injEq, Except.ok.injEq] at h₂
    obtain ⟨cfg, hcfg, hc⟩ := loadStep_inv hs
    refine ⟨cfg, hcfg, ?_⟩
    rw [← h₂.1]
    rcases hc with ⟨-, value, -, rfl⟩ | ⟨-, -, prev, -, rfl⟩ | ⟨-, -, rfl⟩
    · exact ⟨rfl, rfl⟩
    · exact ⟨rfl, rfl⟩
    · exact ⟨rfl, rfl⟩

/-- The lower bound expected after the cells `pre`: −∞ when there is none, else
the adjacent complement of the upper bound of the last one. -/
theorem loadLoop_expected {lib : Library} {rootDir : Bytes} {pre : List StoredCell}
    {st : LoadState} {ops : List MetaOp}
    (h : loadLoop lib rootDir (LoadState.init lib) pre = (Except.ok st, ops)) :
    (pre = [] → st.expectedLowerBound = minusInfinity) ∧
    (∀ front p pcfg, pre = front ++ [p] → getConfigFromCell lib p rootDir = Except.ok pcfg →
      st.expectedLowerBound = pcfg.rows.upperBound.getAdjacentComplement) := by
  constructor
  · intro hpre
    subst hpre
    simp only [loadLoop, Prod.mk.injEq, Except.ok.injEq] at h
    rw [← h.1]
    rfl
  · intro front p pcfg hpre hp
    subst hpre
    obtain ⟨pcfg₁, hp₁, h₁, h₂⟩ := loadLoop_last h
    rw [hp] at hp₁
    injection hp₁ with hp₁
    subst hp₁
    rw [LoadState.expected_of_some h₁, h₂]

theorem toy_cell0_config : getConfigFromCell toyLibrary cell0 rootDir0 = Except.ok config0 := by
  rfl

theorem toy_cellLow_config :
    getConfigFromCell toyLibrary cellLow rootDir0 = Except.ok configLow := by
  rfl

theorem toy_cellWhole_config :
    getConfigFromCell toyLibrary cellWhole rootDir0 = Except.ok configWhole := by
  rfl

theorem toy_stateLow :
    loadLoop toyLibrary rootDir0 (LoadState.init toyLibrary) [cellLow] =
      (Except.ok stateLow, stateLow.ops) := by
  have h := loadStep_adjacent toyLibrary rootDir0 (LoadState.init toyLibrary) cellLow
    toy_cellLow_config (by decide) (by decide)
  simp only [loadLoop, h]
  rfl

theorem toy_expanded_value :
    getConfigCellValue toyLibrary (expandedConfig minusInfinity config0) rootDir0 =
      Except.ok (toyPrint
        [(ConfigKey.tables 0, [100, 105, 115, 107, 58, 116, 47, 49]),
         (ConfigKey.tables 1, [100, 105, 115, 107, 58, 116, 47, 50])]) := by
  have h₁ := (unrootTableUri_underRoot toyLibrary rootDir0 uri1 (by decide)
    toy_uri1_underRoot).1
  have h₂ := (unrootTableUri_underRoot toyLibrary rootDir0 uri2 (by decide)
    toy_uri2_underRoot).1
  have r₁ : relativeUri toyLibrary rootDir0 uri1 = [100, 105, 115, 107, 58, 116, 47, 49] := by
    decide
  have r₂ : relativeUri toyLibrary rootDir0 uri2 = [100, 105, 115, 107, 58, 116, 47, 50] := by
    decide
  rw [r₁] at h₁
  rw [r₂] at h₂
  simp only [getConfigCellValue, configState, expandedConfig, config0, minusInfinity,
    setTableUris, h₁, h₂]
  rfl

/-- The result of `loadTabletConfigs` when the loop ends in the state `st`. -/
theorem loadTabletConfigs_of_loop {lib : Library} {rootDir : Bytes} {scan : List StoredCell}
    {st : LoadState} {ops : List MetaOp}
    (h : loadLoop lib rootDir (LoadState.init lib) scan = (Except.ok st, ops)) :
    loadTabletConfigs lib rootDir scan =
      (Except.ok st.cfgs, if st.changedMeta then st.ops ++ [MetaOp.sync] else st.ops) := by
  have hops := loadLoop_ops h
  subst hops
  simp only [loadTabletConfigs, h]

/-- The result of `loadTabletConfigs` when the loop raises. -/
theorem loadTabletConfigs_of_error {lib : Library} {rootDir : Bytes} {scan : List StoredCell}
    {e : ConfigError} {ops : List MetaOp}
    (h : loadLoop lib rootDir (LoadState.init lib) scan = (Except.error e, ops)) :
    loadTabletConfigs lib rootDir scan = (Except.error e, ops) := by
  simp only [loadTabletConfigs, h]

/-- The scan of cells that tile the rows changes nothing and loads the configs
of the cells. -/
theorem loadLoop_tiled {lib : Library} {rootDir : Bytes} {xs : List StoredCell} :
    ∀ {st : LoadState}, WellTiled lib rootDir st.expectedLowerBound xs →
      ∃ st₁ cfgs, loadLoop lib rootDir st xs = (Except.ok st₁, st.ops) ∧
        st₁.cfgs = st.cfgs ++ cfgs ∧ st₁.changedMeta = st.changedMeta ∧ st₁.ops = st.ops ∧
        List.Forall₂ (fun x cfg => getConfigFromCell lib x rootDir = Except.ok cfg) xs cfgs := by
  induction xs with
  | nil =>
    intro st _
    exact ⟨st, [], rfl, by simp, rfl, rfl, List.Forall₂.nil⟩
  | cons x xs ih =>
    intro st h
    obtain ⟨cfg, hcfg, hlow, hrest⟩ := h
    have h₁ : cfg.rows.lowerBound.lt st.expectedLowerBound = false := by
      rw [hlow]; exact warp.IntervalPoint.lt_self_false _
    have h₂ : st.expectedLowerBound.lt cfg.rows.lowerBound = false := by
      rw [hlow]; exact warp.IntervalPoint.lt_self_false _
    have hs := loadStep_adjacent lib rootDir st x hcfg h₁ h₂
    obtain ⟨st₁, cfgs, hloop, hcfgs, hch, hops, hall⟩ :=
      @ih { prevRows := cfg.rows, changedMeta := st.changedMeta, loadedPrev := true,
            prev := some x, cfgs := st.cfgs ++ [cfg], ops := st.ops } hrest
    refine ⟨st₁, cfg :: cfgs, ?_, ?_, hch, hops, List.Forall₂.cons hcfg hall⟩
    · simp only [loadLoop, hs]
      exact hloop
    · rw [hcfgs]
      simp

/-- C17: gap repair in `loadTabletConfigs`.  After the cells `pre` have been
read without an exception, the expected lower bound is −∞ when `pre` is empty
and the adjacent complement of the upper bound of the last cell of `pre`
otherwise.  When the lower bound of the next cell `x` is greater than it, the
config loaded for `x` is the one of the cell with the lower bound replaced by
the expected one, the upper bound and the URIs unchanged, and the META cell is
set at the row, column and timestamp of `x` to the serialization of that
config; the scan goes on from there, and when `x` is the last cell the call
returns the configs loaded and syncs after the set. -/
theorem loadTabletConfigs_gap_repair (lib : Library) (rootDir : Bytes)
    (pre : List StoredCell) (x : StoredCell) (st : LoadState) (cfg : TabletConfig)
    (value : Bytes)
    (hpre : loadLoop lib rootDir (LoadState.init lib) pre = (Except.ok st, st.ops))
    (hcfg : getConfigFromCell lib x rootDir = Except.ok cfg)
    (hgap : st.expectedLowerBound.lt cfg.rows.lowerBound = true)
    (hval : getConfigCellValue lib (expandedConfig st.expectedLowerBound cfg) rootDir =
      Except.ok value) :
    (pre = [] → st.expectedLowerBound = minusInfinity) ∧
    (∀ front p pcfg, pre = front ++ [p] → getConfigFromCell lib p rootDir = Except.ok pcfg →
      st.expectedLowerBound = pcfg.rows.upperBound.getAdjacentComplement) ∧
    (expandedConfig st.expectedLowerBound cfg).rows.lowerBound = st.expectedLowerBound ∧
    (expandedConfig st.expectedLowerBound cfg).rows.upperBound = cfg.rows.upperBound ∧
    (expandedConfig st.expectedLowerBound cfg).uris = cfg.uris ∧
    (∀ post, loadLoop lib rootDir (LoadState.init lib) (pre ++ x :: post) =
      loadLoop lib rootDir
        { prevRows := (expandedConfig st.expectedLowerBound cfg).rows, changedMeta := true,
          loadedPrev := true, prev := some x,
          cfgs := st.cfgs ++ [expandedConfig st.expectedLowerBound cfg],
          ops := st.ops ++ [MetaOp.set x.row x.column x.timestamp value] } post) ∧
    loadTabletConfigs lib rootDir (pre ++ [x]) =
      (Except.ok (st.cfgs ++ [expandedConfig st.expectedLowerBound cfg]),
       st.ops ++ [MetaOp.set x.row x.column x.timestamp value, MetaOp.sync]) := by
  have hexp := loadLoop_expected hpre
  have hs := loadStep_gap lib rootDir st x hcfg hgap hval
  have hloop : ∀ post, loadLoop lib rootDir (LoadState.init lib) (pre ++ x :: post) =
      loadLoop lib rootDir
        { prevRows := (expandedConfig st.expectedLowerBound cfg).rows, changedMeta := true,
          loadedPrev := true, prev := some x,
          cfgs := st.cfgs ++ [expandedConfig st.expectedLowerBound cfg],
          ops := st.ops ++ [MetaOp.set x.row x.column x.timestamp value] } post := by
    intro post
    rw [loadLoop_append_ok hpre]
    simp only [loadLoop, hs]
  refine ⟨hexp.1, hexp.2, rfl, rfl, rfl, hloop, ?_⟩
  have h := hloop []
  simp only [loadLoop] at h
  rw [loadTabletConfigs_of_loop h]
  simp

/-- C17, on the first cell of a scan: `cell0` stores the rows ("row1", "row2"],
−∞ is expected, and the config loaded has the rows (−∞, "row2"]. -/
theorem loadTabletConfigs_gap_repair_witness :
    loadTabletConfigs toyLibrary rootDir0 [cell0] =
      (Except.ok [expandedConfig minusInfinity config0],
       [MetaOp.set cell0.row cell0.column cell0.timestamp
          (toyPrint
            [(ConfigKey.tables 0, [100, 105, 115, 107, 58, 116, 47, 49]),
             (ConfigKey.tables 1, [100, 105, 115, 107, 58, 116, 47, 50])]),
        MetaOp.sync]) :=
  (loadTabletConfigs_gap_repair toyLibrary rootDir0 [] cell0 (LoadState.init toyLibrary) config0
    _ rfl toy_cell0_config (by decide) toy_expanded_value).2.2.2.2.2.2

/-- C20: the sync of `loadTabletConfigs`.  For every scan, the calls made on the
META table during the scan are the repairs (a set for a gap, an erase for an
overlap) and none is a sync; when the scan raises nothing more is called; when
it ends, the table is synced once, after those calls, if at least one repair
was made, and not at all if none was.  For cells `tiled` that tile the rows
(the first starts at −∞, each later one at the adjacent complement of the upper
bound of its predecessor) the call makes no call on the META table and returns
the configs of the cells, as stored and in scan order. -/
theorem loadTabletConfigs_sync (lib : Library) (rootDir : Bytes)
    (scan tiled : List StoredCell) (htiled : WellTiled lib rootDir minusInfinity tiled) :
    (∀ op ∈ (loadLoop lib rootDir (LoadState.init lib) scan).2, op.isRepair = true) ∧
    (∀ e, (loadLoop lib rootDir (LoadState.init lib) scan).1 = Except.error e →
      loadTabletConfigs lib rootDir scan =
        (Except.error e, (loadLoop lib rootDir (LoadState.init lib) scan).2)) ∧
    (∀ st, (loadLoop lib rootDir (LoadState.init lib) scan).1 = Except.ok st →
      loadTabletConfigs lib rootDir scan =
        (Except.ok st.cfgs,
         if (loadLoop lib rootDir (LoadState.init lib) scan).2 = [] then []
         else (loadLoop lib rootDir (LoadState.init lib) scan).2 ++ [MetaOp.sync])) ∧
    ∃ cfgs, loadTabletConfigs lib rootDir tiled = (Except.ok cfgs, []) ∧
      List.Forall₂ (fun x cfg => getConfigFromCell lib x rootDir = Except.ok cfg) tiled cfgs := by
  refine ⟨loadLoop_ops_repair (LoadInv.at_start lib), ?_, ?_, ?_⟩
  · intro e he
    apply loadTabletConfigs_of_error
    rw [← he]
  · intro st hst
    have h : loadLoop lib rootDir (LoadState.init lib) scan =
        (Except.ok st, (loadLoop lib rootDir (LoadState.init lib) scan).2) := by
      rw [← hst]
    have hops := loadLoop_ops h
    have hinv : LoadInv st := LoadInv.after_loop (LoadInv.at_start lib) h
    rw [loadTabletConfigs_of_loop h, hops]
    by_cases hch : st.changedMeta = true
    · have hne := hinv.2.1.mp hch
      simp [hch, hne]
    · have he : st.ops = [] := by
        by_contra hne
        exact hch (hinv.2.1.mpr hne)
      simp [hch, he]
  · obtain ⟨st₁, cfgs, hloop, hcfgs, hch, hops, hall⟩ :=
      @loadLoop_tiled lib rootDir tiled (LoadState.init lib) htiled
    refine ⟨cfgs, ?_, hall⟩
    rw [loadTabletConfigs_of_loop hloop, hcfgs, hch, hops]
    simp [LoadState.init]

/-- C20, on `cellLow` with the rows (−∞, "row1"] and then `cell0` with the rows
("row1", "row2"]: nothing is called on the META table and the two configs are
returned. -/
theorem loadTabletConfigs_sync_witness :
    WellTiled toyLibrary rootDir0 minusInfinity [cellLow, cell0] ∧
    ∃ cfgs, loadTabletConfigs toyLibrary rootDir0 [cellLow, cell0] = (Except.ok cfgs, []) ∧
      List.Forall₂ (fun x cfg => getConfigFromCell toyLibrary x rootDir0 = Except.ok cfg)
        [cellLow, cell0] cfgs :=
  ⟨⟨configLow, toy_cellLow_config, rfl, config0, toy_cell0_config, rfl, trivial⟩,
   (loadTabletConfigs_sync toyLibrary rootDir0 [] [cellLow, cell0]
     ⟨configLow, toy_cellLow_config, rfl, config0, toy_cell0_config, rfl, trivial⟩).2.2.2⟩

/-! ## The flush of the pending block -/

/-- The pending block after `addCell` builds into a record with a last row. -/
theorem ImplInv.afterAddCell_lastRow {s : Impl} {blocks : List (Record CellData)}
    {ess : List (List Emit)} {pend : List Emit} (h : ImplInv s blocks ess pend) (e : Emit) :
    ∃ row, Impl.lastRowOf (s.afterAddCell e).block.build = some row := by
  have h₂ := h.addCell e
  obtain ⟨x, -, hx⟩ := @lastRowOf_of_decodes (s.afterAddCell e).block.build
    (pend ++ [e]) h₂.nItems h₂.pending (by simp)
  exact ⟨x.row, hx⟩

/-- C25: an emit on a writer between `open` and `close`.  The size tested is the
one of the pending block after the cell has been added: the size of the string
pool, 24 bytes for each cell of the array, and 8.  When it is at least
`blockSize` the emit writes one cell block record at the end of the file, adds
one entry to the index and leaves the pending block empty, with zero items;
when it is less the emit leaves the file and the index as they are and keeps
the cell in the pending block. -/
theorem Impl.emit_flushes_iff {s : Impl} {blocks : List (Record CellData)}
    {ess : List (List Emit)} {pend : List Emit} (h : ImplInv s blocks ess pend) {f : String}
    (hfp : s.fp = some f) (fs : FS) (e : Emit) :
    (s.afterAddCell e).block.getDataSize =
      (s.afterAddCell e).block.pool.getDataSize + 24 * (s.block.arr.length + 1) + 8 ∧
    (s.blockSize ≤ (s.afterAddCell e).block.getDataSize →
      ∃ s₁ entry,
        s.emit fs e.row e.column e.timestamp e.valueArg e.isErasure =
          some (s₁, fs.put f (FileRecord.cellBlock (s.afterAddCell e).block.build)) ∧
        (fs.put f (FileRecord.cellBlock (s.afterAddCell e).block.build)) f =
          fs f ++ [FileRecord.cellBlock (s.afterAddCell e).block.build] ∧
        (s.afterAddCell e).block.build.arr.length = s.block.arr.length + 1 ∧
        s₁.index.arr = s.index.arr ++ [entry] ∧ s₁.index.nItems = s.index.nItems + 1 ∧
        s₁.block.arr = [] ∧ s₁.block.nItems = 0 ∧ s₁.block.pool = StringPoolBuilder.reset) ∧
    ((s.afterAddCell e).block.getDataSize < s.blockSize →
      s.emit fs e.row e.column e.timestamp e.valueArg e.isErasure =
        some (s.afterAddCell e, fs) ∧
      (s.afterAddCell e).index = s.index ∧
      (s.afterAddCell e).block.arr.length = s.block.arr.length + 1 ∧
      (s.afterAddCell e).block.nItems = s.block.nItems + 1) := by
  have hb := Impl.addCell_block { s with cellCount := s.cellCount + 1 } e.row e.column
    e.timestamp e.valueArg e.isErasure
  obtain ⟨hfp₂, hbs₂, hidx₂, -, -, -, -⟩ :=
    Impl.addCell_frame { s with cellCount := s.cellCount + 1 } e.row e.column
      e.timestamp e.valueArg e.isErasure
  have harr : (s.afterAddCell e).block.arr.length = s.block.arr.length + 1 := by
    unfold Impl.afterAddCell
    rw [hb]
    simp
  have hemit : s.emit fs e.row e.column e.timestamp e.valueArg e.isErasure =
      if (s.afterAddCell e).block.getDataSize ≥ s.blockSize then
        (s.afterAddCell e).writeCellBlock fs
      else some (s.afterAddCell e, fs) := by
    unfold Impl.emit Impl.afterAddCell
    simp only [hbs₂]
  refine ⟨?_, ?_, ?_⟩
  · have hsz : (s.afterAddCell e).block.elemSize = 24 := by
      unfold Impl.afterAddCell
      rw [hb]
      exact h.elemSize
    unfold PooledBuilder.getDataSize
    rw [hsz, harr]
  · intro hbig
    obtain ⟨row, hrow⟩ := h.afterAddCell_lastRow e
    have hfp₃ : (s.afterAddCell e).fp = some f := by
      unfold Impl.afterAddCell
      rw [hfp₂]
      exact hfp
    have hw := Impl.writeCellBlock_eq (s.afterAddCell e) fs hfp₃ hrow
    have hidx₃ : (s.afterAddCell e).index = s.index := hidx₂
    refine ⟨{ (s.afterAddCell e).withIndexEntry (fs f).tell (s.afterAddCell e).block.build row
              with block := (s.afterAddCell e).block.reset },
      { checkSum := adler32 (FileRecord.cellBlock (s.afterAddCell e).block.build).getData,
        row := Ref.pool ((s.afterAddCell e).index.pool.getStringOffset row).1,
        blockOffset := (fs f).tell, lowestTime := (s.afterAddCell e).lowestTime,
        highestTime := (s.afterAddCell e).highestTime,
        colFamilyMask := (s.afterAddCell e).curColMask }, ?_, ?_, harr, ?_, ?_,
      rfl, rfl, rfl⟩
    · rw [hemit, if_pos hbig]
      exact hw
    · rw [FS.put_same]
    · show (s.afterAddCell e).index.arr ++ [_] = s.index.arr ++ [_]
      rw [hidx₃]
    · show (s.afterAddCell e).index.nItems + 1 = s.index.nItems + 1
      rw [hidx₃]
  · intro hsmall
    refine ⟨?_, ?_, harr, ?_⟩
    · rw [hemit, if_neg (by omega)]
    · unfold Impl.afterAddCell
      exact hidx₂
    · unfold Impl.afterAddCell
      rw [hb]

/-- C25, on a fresh writer: with block size 0 the first emit writes a record and
leaves the pending block empty; with block size 128 it writes nothing. -/
theorem Impl.emit_flushes_iff_witness :
    (∃ s₁ fs₁, ((Impl.new 0).open_ "f").emit emptyFS row1 col1 42 (val 49) false =
        some (s₁, fs₁) ∧ (fs₁ "f").length = 1 ∧ s₁.index.arr.length = 1 ∧
        s₁.block.nItems = 0) ∧
    ((Impl.new 128).open_ "f").emit emptyFS row1 col1 42 (val 49) false =
      some (((Impl.new 128).open_ "f").afterAddCell (Emit.cell row1 col1 42 (val 49)),
        emptyFS) := by
  constructor
  · obtain ⟨s₁, entry, hemit, hfile, -, hidx, -, -, hn, -⟩ :=
      (Impl.emit_flushes_iff (ImplInv.init 0 "f") rfl emptyFS
        (Emit.cell row1 col1 42 (val 49))).2.1 (Nat.zero_le _)
    refine ⟨s₁, _, hemit, ?_, ?_, hn⟩
    · rw [hfile]
      rfl
    · rw [hidx]
      rfl
  · exact ((Impl.emit_flushes_iff (ImplInv.init 128 "f") rfl emptyFS
      (Emit.cell row1 col1 42 (val 49))).2.2 (by decide)).1

/-! ## The cells of the blocks -/

theorem blockCells_of_decodes {b : Record CellData} {es : List Emit}
    (h : Decodes b.strings b.arr es) : blockCells b = es.map some := by
  unfold blockCells
  unfold Decodes at h
  generalize b.arr = arr at h
  induction h with
  | nil => rfl
  | cons hc _ ih => simp [hc, ih]

theorem blockCells_flatten {blocks : List (Record CellData)} {ess : List (List Emit)}
    (h : List.Forall₂ BlockOk blocks ess) :
    (blocks.map blockCells).flatten = ess.flatten.map some := by
  induction h with
  | nil => rfl
  | cons hb _ ih =>
    simp only [List.map_cons, List.flatten_cons, List.map_append]
    rw [ih, blockCells_of_decodes hb.2.2.1]

theorem blockOk_of_mem {blocks : List (Record CellData)} {ess : List (List Emit)}
    (h : List.Forall₂ BlockOk blocks ess) {b : Record CellData} (hb : b ∈ blocks) :
    ∃ cells ∈ ess, BlockOk b cells := by
  induction h with
  | nil => simp at hb
  | cons hok _ ih =>
    rcases List.mem_cons.mp hb with rfl | hb
    · exact ⟨_, List.mem_cons_self _ _, hok⟩
    · obtain ⟨cells, hmem, hc⟩ := ih hb
      exact ⟨cells, List.mem_cons_of_mem _ hmem, hc⟩

theorem fileCells_fragmentFile (blocks : List (Record CellData)) (idx : Record IndexEntryV1) :
    fileCells (fragmentFile blocks idx) = (blocks.map blockCells).flatten := by
  unfold fileCells fragmentFile blocksFile
  rw [List.flatMap_append]
  simp [List.flatMap, List.map_map, Function.comp_def]

/-- C26: for every sequence of emits between `open` and `close` the session
returns, and the cell arrays of the cell blocks of the file it leaves,
concatenated in file order, are the emitted cells in emission order, each with
its row, column, timestamp and value or erasure.  When the emits are in
canonical order, the cells of every block are in canonical order. -/
theorem DiskWriter.blocks_hold_emits [Unassigned] (w : DiskWriter) (hw : w.impl = none) (fs : FS)
    (fn : String) (es : List Emit) :
    ∃ fs₁ blocks idx,
      w.writeSession fs fn es = (Except.ok (), { w with impl := none, fn := fn }, fs₁) ∧
      fs₁ fn = blocksFile blocks ++
        [FileRecord.blockIndex idx, FileRecord.tableInfo (blocksFile blocks).tell] ∧
      (blocks.map blockCells).flatten = es.map some ∧
      fileCells (fs₁ fn) = es.map some ∧
      (Canonical es →
        ∀ b ∈ blocks, ∃ cells, blockCells b = cells.map some ∧ Canonical cells) := by
  obtain ⟨fs₁, blocks, ess, idx, hrun, hfile, -, hinv, hflat⟩ :=
    DiskWriter.writeSession_spec w hw fs fn es
  have hcells := blockCells_flatten hinv.blocksOk
  rw [hflat] at hcells
  refine ⟨fs₁, blocks, idx, hrun, hfile, hcells, ?_, ?_⟩
  · rw [hfile, fileCells_fragmentFile, hcells]
  · intro hcan b hb
    obtain ⟨cells, hmem, hok⟩ := blockOk_of_mem hinv.blocksOk hb
    refine ⟨cells, blockCells_of_decodes hok.2.2.1, ?_⟩
    have hsub : cells.Sublist es := hflat ▸ List.sublist_flatten_of_mem hmem
    exact List.Pairwise.sublist hsub hcan

/-- C26, on the cells of `simple_test` written by a fresh writer of block size
128. -/
theorem DiskWriter.blocks_hold_emits_witness :
    ∃ fs₁ blocks idx,
      (DiskWriter.new 128).writeSession emptyFS "f" simpleCells =
        (Except.ok (), { DiskWriter.new 128 with impl := none, fn := "f" }, fs₁) ∧
      fs₁ "f" = blocksFile blocks ++
        [FileRecord.blockIndex idx, FileRecord.tableInfo (blocksFile blocks).tell] ∧
      (blocks.map blockCells).flatten = simpleCells.map some ∧
      fileCells (fs₁ "f") = simpleCells.map some ∧
      (Canonical simpleCells →
        ∀ b ∈ blocks, ∃ cells, blockCells b = cells.map some ∧ Canonical cells) :=
  DiskWriter.blocks_hold_emits (DiskWriter.new 128) rfl emptyFS "f" simpleCells

/-- C28: the record `writeCellBlock` passes to `addIndexEntry` holds at least one
cell.  In `emit` the record is built after `addCell` has appended a cell; in
`close` it is built only when `nItems` is not zero, and between `open` and
`close` `nItems` is the length of the array.  So for every block size and every
sequence of emits the session returns (no read outside an array), the index
has one entry for each block of the file, and each block of the file has
`nItems` equal to the length of its array and at least 1, a cell at
`nItems - 1` and a last row. -/
theorem DiskWriter.blocks_nonempty [Unassigned] (blockSize : Nat) (fs : FS) (fn : String)
    (es : List Emit) :
    (∀ (s : Impl) (e : Emit), (s.afterAddCell e).block.build.arr ≠ [] ∧
      (s.afterAddCell e).block.build.nItems = s.block.nItems + 1) ∧
    (∀ (s : Impl) (blocks : List (Record CellData)) (ess : List (List Emit))
        (pend : List Emit), ImplInv s blocks ess pend →
      (s.block.nItems ≠ 0 → s.block.build.arr ≠ [] ∧
        ∃ row, Impl.lastRowOf s.block.build = some row) ∧
      ∀ e, ∃ row, Impl.lastRowOf (s.afterAddCell e).block.build = some row) ∧
    ∃ w₁ fs₁ blocks idx,
      writeFragment blockSize fs fn es = (Except.ok (), w₁, fs₁) ∧
      fs₁ fn = fragmentFile blocks idx ∧ idx.arr.length = blocks.length ∧
      ∀ b ∈ blocks, 1 ≤ b.nItems ∧ b.nItems = b.arr.length ∧
        (∃ c, b.arr.get? (b.nItems - 1) = some c) ∧
        ∃ row, Impl.lastRowOf b = some row := by
  refine ⟨?_, ?_, ?_⟩
  · intro s e
    have hb := Impl.addCell_block { s with cellCount := s.cellCount + 1 } e.row e.column
      e.timestamp e.valueArg e.isErasure
    constructor
    · show (s.afterAddCell e).block.arr ≠ []
      unfold Impl.afterAddCell
      rw [hb]
      simp
    · show (s.afterAddCell e).block.nItems = s.block.nItems + 1
      unfold Impl.afterAddCell
      rw [hb]
  · intro s blocks ess pend h
    constructor
    · intro hn
      have hpend : pend ≠ [] := by
        intro hp
        have hlen := h.pending.length_eq
        rw [hp] at hlen
        exact hn (by rw [h.nItems, hlen]; rfl)
      obtain ⟨x, -, hx⟩ := @lastRowOf_of_decodes s.block.build pend
        h.nItems h.pending hpend
      refine ⟨?_, x.row, hx⟩
      show s.block.arr ≠ []
      intro harr
      exact hn (by rw [h.nItems, harr]; rfl)
    · intro e
      exact h.afterAddCell_lastRow e
  · obtain ⟨fs₁, blocks, ess, idx, hrun, hfile, -, hinv, -⟩ :=
      DiskWriter.writeSession_spec (DiskWriter.new blockSize) rfl fs fn es
    refine ⟨_, fs₁, blocks, idx, hrun, hfile, ?_, ?_⟩
    · exact EntriesMatch.entries_length_eq hinv.entries
    · intro b hb
      obtain ⟨cells, -, hn, -, hdec, hne⟩ := blockOk_of_mem hinv.blocksOk hb
      have hlen : b.arr.length = cells.length := hdec.length_eq
      have hpos : 0 < cells.length := List.length_pos.mpr hne
      obtain ⟨x, -, hx⟩ := lastRowOf_of_decodes hn hdec hne
      refine ⟨by omega, hn, ?_, x.row, hx⟩
      have hlt : b.nItems - 1 < b.arr.length := by omega
      exact ⟨b.arr.get ⟨b.nItems - 1, hlt⟩, List.get?_eq_get hlt⟩

/-! ## The order of cells -/

/-- The generic comparison of two non-null cells. -/
theorem Cell.lessGeneric_eq {D : Type} (ia io : CellInterpreter D) (da db : D) :
    Cell.lessGeneric ⟨some ia, da⟩ ⟨some io, db⟩ =
      some (decide
        (ia.getRow da < io.getRow db ∨
         (ia.getRow da = io.getRow db ∧ ia.getColumn da < io.getColumn db) ∨
         (ia.getRow da = io.getRow db ∧ ia.getColumn da = io.getColumn db ∧
            io.getTimestamp db < ia.getTimestamp da))) := by
  simp only [Cell.lessGeneric, Cell.getRow, Cell.getColumn, Cell.getTimestamp,
    Option.map_some', Option.bind_eq_bind, Option.some_bind, ne_eq, ite_not, Option.pure_def]
  by_cases hr : string_compare (ia.getRow da) (io.getRow db) = 0
  · have hr₁ := (string_compare_eq_zero_iff _ _).mp hr
    by_cases hc : string_compare (ia.getColumn da) (io.getColumn db) = 0
    · have hc₁ := (string_compare_eq_zero_iff _ _).mp hc
      simp only [hr, hc, if_true, Option.some.injEq, decide_eq_decide]
      rw [hr₁, hc₁]
      simp [lt_irrefl]
    · have hc₁ : ia.getColumn da ≠ io.getColumn db :=
        fun e => hc ((string_compare_eq_zero_iff _ _).mpr e)
      simp only [hr, hc, if_true, if_false, Option.some.injEq, decide_eq_decide]
      rw [string_compare_neg_iff, hr₁]
      simp [lt_irrefl, hc₁]
  · have hr₁ : ia.getRow da ≠ io.getRow db :=
      fun e => hr ((string_compare_eq_zero_iff _ _).mpr e)
    simp only [hr, if_false, Option.some.injEq, decide_eq_decide]
    rw [string_compare_neg_iff]
    simp [hr₁]

/-- The equality of two non-null cells. -/
theorem Cell.opEq_eq {D : Type} (ia io : CellInterpreter D) (da db : D) :
    Cell.opEq ⟨some ia, da⟩ ⟨some io, db⟩ =
      some (decide (ia.getRow da = io.getRow db ∧ ia.getColumn da = io.getColumn db ∧
        ia.getTimestamp da = io.getTimestamp db)) := by
  simp only [Cell.opEq, Cell.getRow, Cell.getColumn, Cell.getTimestamp, Option.map_some',
    Option.bind_eq_bind, Option.some_bind, Option.pure_def]
  by_cases hr : ia.getRow da = io.getRow db
  · by_cases hc : ia.getColumn da = io.getColumn db
    · simp [hr, hc]
    · simp [hr, hc]
  · simp [hr]

/-- The order on keys: transitivity. -/
theorem key_lt_trans {r₁ r₂ r₃ c₁ c₂ c₃ : Bytes} {t₁ t₂ t₃ : Int}
    (h₁ : r₁ < r₂ ∨ (r₁ = r₂ ∧ c₁ < c₂) ∨ (r₁ = r₂ ∧ c₁ = c₂ ∧ t₂ < t₁))
    (h₂ : r₂ < r₃ ∨ (r₂ = r₃ ∧ c₂ < c₃) ∨ (r₂ = r₃ ∧ c₂ = c₃ ∧ t₃ < t₂)) :
    r₁ < r₃ ∨ (r₁ = r₃ ∧ c₁ < c₃) ∨ (r₁ = r₃ ∧ c₁ = c₃ ∧ t₃ < t₁) := by
  rcases h₁ with h₁ | ⟨rfl, h₁⟩ | ⟨rfl, rfl, h₁⟩
  · rcases h₂ with h₂ | ⟨rfl, -⟩ | ⟨rfl, -⟩
    · exact Or.inl (lt_trans h₁ h₂)
    · exact Or.inl h₁
    · exact Or.inl h₁
  · rcases h₂ with h₂ | ⟨rfl, h₂⟩ | ⟨rfl, rfl, -⟩
    · exact Or.inl h₂
    · exact Or.inr (Or.inl ⟨rfl, lt_trans h₁ h₂⟩)
    · exact Or.inr (Or.inl ⟨rfl, h₁⟩)
  · rcases h₂ with h₂ | ⟨rfl, h₂⟩ | ⟨rfl, rfl, h₂⟩
    · exact Or.inl h₂
    · exact Or.inr (Or.inl ⟨rfl, h₂⟩)
    · exact Or.inr (Or.inr ⟨rfl, rfl, lt_trans h₂ h₁⟩)

/-- The order on keys: of two keys one sorts first, or they are equal. -/
theorem key_lt_total (r₁ r₂ c₁ c₂ : Bytes) (t₁ t₂ : Int) :
    (r₁ < r₂ ∨ (r₁ = r₂ ∧ c₁ < c₂) ∨ (r₁ = r₂ ∧ c₁ = c₂ ∧ t₂ < t₁)) ∨
    (r₂ < r₁ ∨ (r₂ = r₁ ∧ c₂ < c₁) ∨ (r₂ = r₁ ∧ c₂ = c₁ ∧ t₁ < t₂)) ∨
    (r₁ = r₂ ∧ c₁ = c₂ ∧ t₁ = t₂) := by
  rcases lt_trichotomy r₁ r₂ with hr | rfl | hr
  · exact Or.inl (Or.inl hr)
  · rcases lt_trichotomy c₁ c₂ with hc | rfl | hc
    · exact Or.inl (Or.inr (Or.inl ⟨rfl, hc⟩))
    · rcases lt_trichotomy t₁ t₂ with ht | rfl | ht
      · exact Or.inr (Or.inl (Or.inr (Or.inr ⟨rfl, rfl, ht⟩)))
      · exact Or.inr (Or.inr ⟨rfl, rfl, rfl⟩)
      · exact Or.inl (Or.inr (Or.inr ⟨rfl, rfl, ht⟩))
    · exact Or.inr (Or.inl (Or.inr (Or.inl ⟨rfl, hc⟩)))
  · exact Or.inr (Or.inl (Or.inl hr))

/-- The order on keys: a key does not sort before a key that sorts before it or
equals it. -/
theorem key_lt_asymm {r₁ r₂ c₁ c₂ : Bytes} {t₁ t₂ : Int}
    (h₁ : r₁ < r₂ ∨ (r₁ = r₂ ∧ c₁ < c₂) ∨ (r₁ = r₂ ∧ c₁ = c₂ ∧ t₂ < t₁)) :
    ¬ (r₂ < r₁ ∨ (r₂ = r₁ ∧ c₂ < c₁) ∨ (r₂ = r₁ ∧ c₂ = c₁ ∧ t₁ < t₂)) ∧
    ¬ (r₁ = r₂ ∧ c₁ = c₂ ∧ t₁ = t₂) := by
  rcases h₁ with h₁ | ⟨rfl, h₁⟩ | ⟨rfl, rfl, h₁⟩
  · refine ⟨?_, fun h => absurd (h.1 ▸ h₁) (lt_irrefl _)⟩
    rintro (h | ⟨rfl, -⟩ | ⟨rfl, -⟩)
    · exact lt_asymm h₁ h
    · exact lt_irrefl _ h₁
    · exact lt_irrefl _ h₁
  · refine ⟨?_, fun h => absurd (h.2.1 ▸ h₁) (lt_irrefl _)⟩
    rintro (h | ⟨-, h⟩ | ⟨-, rfl, -⟩)
    · exact lt_irrefl _ h
    · exact lt_asymm h₁ h
    · exact lt_irrefl _ h₁
  · refine ⟨?_, fun h => absurd (h.2.2 ▸ h₁) (lt_irrefl _)⟩
    rintro (h | ⟨-, h⟩ | ⟨-, -, h⟩)
    · exact lt_irrefl _ h
    · exact lt_irrefl _ h
    · exact lt_asymm h₁ h

/-- C27: the generic comparison of `Cell::operator<`, the branch taken for cells
with different interpreters, is a strict total order on the keys of non-null
cells that agrees with `Cell::operator==`: no cell sorts before itself, the
comparison is transitive, and of `a < b`, `b < a` and `a == b` exactly one
holds. -/
theorem Cell.lessGeneric_strict_total {D : Type} (ia ib ic : CellInterpreter D)
    (da db dc : D) :
    (ia.addr ≠ ib.addr →
      Cell.opLt ⟨some ia, da⟩ ⟨some ib, db⟩ = Cell.lessGeneric ⟨some ia, da⟩ ⟨some ib, db⟩) ∧
    Cell.lessGeneric ⟨some ia, da⟩ ⟨some ia, da⟩ = some false ∧
    (Cell.lessGeneric ⟨some ia, da⟩ ⟨some ib, db⟩ = some true →
      Cell.lessGeneric ⟨some ib, db⟩ ⟨some ic, dc⟩ = some true →
      Cell.lessGeneric ⟨some ia, da⟩ ⟨some ic, dc⟩ = some true) ∧
    (Cell.lessGeneric ⟨some ia, da⟩ ⟨some ib, db⟩ = some true ∨
      Cell.lessGeneric ⟨some ib, db⟩ ⟨some ia, da⟩ = some true ∨
      Cell.opEq ⟨some ia, da⟩ ⟨some ib, db⟩ = some true) ∧
    ¬ (Cell.lessGeneric ⟨some ia, da⟩ ⟨some ib, db⟩ = some true ∧
      Cell.lessGeneric ⟨some ib, db⟩ ⟨some ia, da⟩ = some true) ∧
    ¬ (Cell.lessGeneric ⟨some ia, da⟩ ⟨some ib, db⟩ = some true ∧
      Cell.opEq ⟨some ia, da⟩ ⟨some ib, db⟩ = some true) ∧
    ¬ (Cell.lessGeneric ⟨some ib, db⟩ ⟨some ia, da⟩ = some true ∧
      Cell.opEq ⟨some ia, da⟩ ⟨some ib, db⟩ = some true) := by
  simp only [Cell.lessGeneric_eq, Cell.opEq_eq, Option.some.injEq, decide_eq_true_eq,
    decide_eq_false_iff_not]
  refine ⟨?_, ?_, ?_, ?_, ?_, ?_, ?_⟩
  · intro h
    have hne : ¬ (some ia.addr = some ib.addr) := fun e => h (Option.some.inj e)
    simp only [Cell.opLt, Option.map_some', hne, if_false, Cell.lessGeneric_eq]
  · rintro (h | ⟨-, h⟩ | ⟨-, -, h⟩)
    · exact lt_irrefl _ h
    · exact lt_irrefl _ h
    · exact lt_irrefl _ h
  · exact fun h₁ h₂ => key_lt_trans h₁ h₂
  · exact key_lt_total _ _ _ _ _ _
  · exact fun h => (key_lt_asymm h.1).1 h.2
  · exact fun h => (key_lt_asymm h.1).2 h.2
  · exact fun h => (key_lt_asymm h.1).2 ⟨h.2.1.symm, h.2.2.1.symm, h.2.2.2.symm⟩

/-! ## The tiling of the loaded configs -/

theorem warp.IntervalPoint.ne_self_false (a : warp.IntervalPoint) : a.ne a = false := by
  simp [warp.IntervalPoint.ne]

theorem warp.IntervalPoint.ne_false_iff (a b : warp.IntervalPoint) :
    a.ne b = false ↔ a.type = b.type ∧ (a.isFinite = true → a.value = b.value) := by
  unfold warp.IntervalPoint.ne
  cases hf : a.isFinite <;> simp

theorem warp.IntervalPoint.ne_false_trans {a b c : warp.IntervalPoint}
    (h₁ : a.ne b = false) (h₂ : b.ne c = false) : a.ne c = false := by
  rw [warp.IntervalPoint.ne_false_iff] at h₁ h₂ ⊢
  refine ⟨h₁.1.trans h₂.1, fun hf => ?_⟩
  have hb : b.isFinite = true := by
    unfold warp.IntervalPoint.isFinite at hf ⊢
    rw [← h₁.1]
    exact hf
  exact (h₁.2 hf).trans (h₂.2 hb)

theorem warp.PointType.rank_inj {s t : warp.PointType} (h : s.rank = t.rank) : s = t := by
  cases s <;> cases t <;> first | rfl | (simp [warp.PointType.rank] at h)

/-- Two points neither of which sorts before the other are equal. -/
theorem warp.IntervalPoint.ne_false_of_not_lt {a b : warp.IntervalPoint}
    (h₁ : a.lt b = false) (h₂ : b.lt a = false) : a.ne b = false := by
  rw [warp.IntervalPoint.ne_false_iff]
  unfold warp.IntervalPoint.lt at h₁ h₂
  unfold warp.IntervalPoint.isFinite
  by_cases ha₁ : a.type = warp.PointType.PT_INFINITE_LOWER_BOUND
  · by_cases hb₁ : b.type = warp.PointType.PT_INFINITE_LOWER_BOUND
    · exact ⟨ha₁.trans hb₁.symm, by simp [ha₁]⟩
    · simp [ha₁, hb₁] at h₁
  · by_cases hb₁ : b.type = warp.PointType.PT_INFINITE_LOWER_BOUND
    · simp [ha₁, hb₁] at h₂
    · by_cases ha₂ : a.type = warp.PointType.PT_INFINITE_UPPER_BOUND
      · by_cases hb₂ : b.type = warp.PointType.PT_INFINITE_UPPER_BOUND
        · exact ⟨ha₂.trans hb₂.symm, by simp [ha₂]⟩
        · simp [ha₁, hb₁, ha₂, hb₂] at h₂
      · by_cases hb₂ : b.type = warp.PointType.PT_INFINITE_UPPER_BOUND
        · simp [ha₁, hb₁, ha₂, hb₂] at h₁
        · simp only [ha₁, hb₁, ha₂, hb₂, if_false, Bool.or_eq_false_iff,
            Bool.and_eq_false_iff, decide_eq_false_iff_not] at h₁ h₂
          have hv : a.value = b.value :=
            le_antisymm (not_lt.mp h₂.1) (not_lt.mp h₁.1)
          have hr : a.type.rank = b.type.rank := by
            rcases h₁.2 with h | h
            · exact absurd hv h
            · rcases h₂.2 with h' | h'
              · exact absurd hv.symm h'
              · omega
          exact ⟨warp.PointType.rank_inj hr, fun _ => hv⟩

theorem nextBound_cons (lb : warp.IntervalPoint) (d e : TabletConfig) (es : List TabletConfig) :
    nextBound lb (d :: e :: es) = nextBound d.rows.upperBound.getAdjacentComplement (e :: es) := by
  unfold nextBound
  rw [List.getLast?_cons_cons]
  cases h : (e :: es).getLast? with
  | none => simp at h
  | some c => rfl

theorem TiledFrom_snoc (cfgs : List TabletConfig) :
    ∀ (lb : warp.IntervalPoint) (c : TabletConfig),
      TiledFrom lb (cfgs ++ [c]) ↔
        TiledFrom lb cfgs ∧ c.rows.lowerBound.ne (nextBound lb cfgs) = false := by
  induction cfgs with
  | nil =>
    intro lb c
    simp [TiledFrom, nextBound]
  | cons d ds ih =>
    intro lb c
    have hn : nextBound lb (d :: ds) = nextBound d.rows.upperBound.getAdjacentComplement ds := by
      cases ds with
      | nil => simp [nextBound]
      | cons e es => exact nextBound_cons lb d e es
    show (d.rows.lowerBound.ne lb = false ∧
        TiledFrom d.rows.upperBound.getAdjacentComplement (ds ++ [c])) ↔
      (d.rows.lowerBound.ne lb = false ∧
        TiledFrom d.rows.upperBound.getAdjacentComplement ds) ∧ _
    rw [ih, hn, and_assoc]

theorem TileInv.expected {st : LoadState} (h : TileInv st) :
    st.expectedLowerBound = nextBound minusInfinity st.cfgs := by
  cases hp : st.prev with
  | none =>
    rw [LoadState.expected_of_none hp, h.2.1 hp]
    rfl
  | some p =>
    obtain ⟨-, front, c, hc, hrows⟩ := h.2.2 p hp
    rw [LoadState.expected_of_some hp, hc, ← hrows]
    simp [nextBound]

theorem TileInv.at_init (lib : Library) : TileInv (LoadState.init lib) :=
  And.intro trivial (And.intro (fun _ => rfl) (fun p hp => by simp [LoadState.init] at hp))

theorem TileInv.after_load {lib : Library} {rootDir : Bytes} {st st₁ : LoadState}
    {x : StoredCell} (hinv : TileInv st) (h : loadStep lib rootDir st x = Except.ok st₁) :
    TileInv st₁ := by
  have hexp := hinv.expected
  obtain ⟨cfg, -, hc⟩ := loadStep_inv h
  rcases hc with ⟨-, value, -, rfl⟩ | ⟨-, hsame, prev, hprev, rfl⟩ | ⟨h₁, h₂, rfl⟩
  · refine And.intro ?_ (And.intro (fun hp => by cases hp)
      (fun p _ => ⟨rfl, st.cfgs, _, rfl, rfl⟩))
    show TiledFrom minusInfinity (st.cfgs ++ [expandedConfig st.expectedLowerBound cfg])
    rw [TiledFrom_snoc]
    refine ⟨hinv.1, ?_⟩
    show st.expectedLowerBound.ne _ = false
    rw [hexp]
    exact warp.IntervalPoint.ne_self_false _
  · obtain ⟨hl, front, c, hcfgs, hrows⟩ := hinv.2.2 prev hprev
    have htiled := hinv.1
    rw [hcfgs, TiledFrom_snoc] at htiled
    refine And.intro ?_ (And.intro (fun hp => by cases hp) (fun p _ => ⟨rfl, _, _, rfl, rfl⟩))
    show TiledFrom minusInfinity ((if st.loadedPrev then st.cfgs.dropLast else st.cfgs) ++ [cfg])
    rw [hl, hcfgs]
    simp only [if_true, List.dropLast_concat]
    rw [TiledFrom_snoc]
    refine ⟨htiled.1, ?_⟩
    rw [← hrows] at hsame
    exact warp.IntervalPoint.ne_false_trans hsame htiled.2
  · refine And.intro ?_ (And.intro (fun hp => by cases hp)
      (fun p _ => ⟨rfl, st.cfgs, _, rfl, rfl⟩))
    show TiledFrom minusInfinity (st.cfgs ++ [cfg])
    rw [TiledFrom_snoc]
    refine ⟨hinv.1, ?_⟩
    rw [← hexp]
    exact warp.IntervalPoint.ne_false_of_not_lt h₁ h₂

theorem TileInv.after_scan {lib : Library} {rootDir : Bytes} {xs : List StoredCell} :
    ∀ {st st₁ : LoadState} {ops : List MetaOp}, TileInv st →
      loadLoop lib rootDir st xs = (Except.ok st₁, ops) → TileInv st₁ := by
  induction xs with
  | nil =>
    intro st st₁ ops hinv h
    simp only [loadLoop, Prod.mk.injEq, Except.ok.injEq] at h
    rw [← h.1]
    exact hinv
  | cons x xs ih =>
    intro st st₁ ops hinv h
    cases hs : loadStep lib rootDir st x with
    | error e => simp [loadLoop, hs] at h
    | ok st₂ =>
      simp only [loadLoop, hs] at h
      exact ih (hinv.after_load hs) h

theorem TiledFrom_get {cfgs : List TabletConfig} :
    ∀ {lb : warp.IntervalPoint}, TiledFrom lb cfgs →
      ∀ (i : Nat) (c d : TabletConfig), cfgs.get? i = some c → cfgs.get? (i + 1) = some d →
        d.rows.lowerBound.ne c.rows.upperBound.getAdjacentComplement = false := by
  induction cfgs with
  | nil =>
    intro lb _ i c d hc
    simp at hc
  | cons e es ih =>
    intro lb h i c d hc hd
    cases i with
    | zero =>
      simp only [List.get?_cons_zero, Option.some.injEq] at hc
      subst hc
      cases es with
      | nil => simp at hd
      | cons e₁ es₁ =>
        simp only [zero_add, List.get?_cons_succ, List.get?_cons_zero, Option.some.injEq] at hd
        subst hd
        exact h.2.1
    | succ j =>
      simp only [List.get?_cons_succ] at hc hd
      exact ih h.2 j c d hc hd

theorem toy_cellWide_config :
    getConfigFromCell toyLibrary cellWide rootDir0 = Except.ok configWide := by
  rfl

/-- The scan of `cell0` and then `cellWide`: a gap repair followed by an overlap
repair. -/
theorem toy_gap_then_overlap :
    loadTabletConfigs toyLibrary rootDir0 [cell0, cellWide] =
      (Except.ok [configWide],
       [MetaOp.set cell0.row cell0.column cell0.timestamp
          (toyPrint
            [(ConfigKey.tables 0, [100, 105, 115, 107, 58, 116, 47, 49]),
             (ConfigKey.tables 1, [100, 105, 115, 107, 58, 116, 47, 50])]),
        MetaOp.erase cell0.row cell0.column cell0.timestamp, MetaOp.sync]) := by
  have h₁ : loadStep toyLibrary rootDir0 (LoadState.init toyLibrary) cell0 =
      Except.ok stateGap :=
    loadStep_gap toyLibrary rootDir0 (LoadState.init toyLibrary) cell0
      toy_cell0_config (by decide) toy_expanded_value
  have h₂ : loadStep toyLibrary rootDir0 stateGap cellWide = Except.ok stateWide :=
    @loadStep_overlap toyLibrary rootDir0 stateGap cellWide configWide cell0
      toy_cellWide_config (by decide) (by decide) rfl
  have hloop : loadLoop toyLibrary rootDir0 (LoadState.init toyLibrary) [cell0, cellWide] =
      (Except.ok stateWide, stateWide.ops) := by
    simp only [loadLoop, h₁, h₂]
  rw [loadTabletConfigs_of_loop hloop]
  rfl

/-- C29: the configs `loadTabletConfigs` returns tile the rows from −∞.  Whenever
the call returns, for every sequence of scanned cells, the lower bound of the
first config returned equals −∞ and the lower bound of each later one equals the
adjacent complement of the upper bound of the config returned before it.
Equality is that of `operator!=` on interval points: the same kind of bound
and, for a finite bound, the same value. -/
theorem loadTabletConfigs_tiles (lib : Library) (rootDir : Bytes) (scan : List StoredCell)
    (cfgs : List TabletConfig) (ops : List MetaOp)
    (h : loadTabletConfigs lib rootDir scan = (Except.ok cfgs, ops)) :
    TiledFrom minusInfinity cfgs ∧
    (∀ c, cfgs.head? = some c → c.rows.lowerBound.ne minusInfinity = false) ∧
    (∀ (i : Nat) (c d : TabletConfig), cfgs.get? i = some c → cfgs.get? (i + 1) = some d →
      d.rows.lowerBound.ne c.rows.upperBound.getAdjacentComplement = false) := by
  cases hloop : loadLoop lib rootDir (LoadState.init lib) scan with
  | mk r ops₁ =>
    cases r with
    | error e =>
      rw [loadTabletConfigs_of_error hloop] at h
      cases h
    | ok st =>
      rw [loadTabletConfigs_of_loop hloop] at h
      have hinv := TileInv.after_scan (TileInv.at_init lib) hloop
      have hcfgs : st.cfgs = cfgs := by
        injection h with h₁ _
        injection h₁
      have htiled : TiledFrom minusInfinity cfgs := hcfgs ▸ hinv.1
      refine ⟨htiled, ?_, TiledFrom_get htiled⟩
      intro c hc
      cases cfgs with
      | nil => simp at hc
      | cons d ds =>
        simp only [List.head?_cons, Option.some.injEq] at hc
        subst hc
        exact htiled.1

/-- C29, on a gap repair followed by an overlap repair: `cell0` stores the rows
("row1", "row2"] and is expanded to (−∞, "row2"]; `cellWide` stores (−∞, "row3"]
and replaces it. -/
theorem loadTabletConfigs_tiles_witness :
    loadTabletConfigs toyLibrary rootDir0 [cell0, cellWide] =
      (Except.ok [configWide],
       [MetaOp.set cell0.row cell0.column cell0.timestamp
          (toyPrint
            [(ConfigKey.tables 0, [100, 105, 115, 107, 58, 116, 47, 49]),
             (ConfigKey.tables 1, [100, 105, 115, 107, 58, 116, 47, 50])]),
        MetaOp.erase cell0.row cell0.column cell0.timestamp, MetaOp.sync]) ∧
    TiledFrom minusInfinity [configWide] :=
  ⟨toy_gap_then_overlap,
   (loadTabletConfigs_tiles toyLibrary rootDir0 [cell0, cellWide] [configWide] _
     toy_gap_then_overlap).1⟩

/-- C30: the overlap branch of `loadTabletConfigs` has a previous cell.  On the
first cell of a scan the expected lower bound is −∞ and no lower bound is less,
so the branch is not taken.  Whenever it is taken, after the cells `pre`, there
is a previous cell (`pre` is not empty, `prev` is set, the assertion holds),
`loadedPrev` is set and the list of configs is not empty, so that the erase
reads a cell and `pop_back` removes a config. -/
theorem loadTabletConfigs_overlap_has_prev (lib : Library) (rootDir : Bytes)
    (pre : List StoredCell) (x : StoredCell) (st : LoadState) (cfg : TabletConfig)
    (hpre : loadLoop lib rootDir (LoadState.init lib) pre = (Except.ok st, st.ops))
    (hcfg : getConfigFromCell lib x rootDir = Except.ok cfg)
    (hover : cfg.rows.lowerBound.lt st.expectedLowerBound = true) :
    (LoadState.init lib).expectedLowerBound = minusInfinity ∧
    (∀ p : warp.IntervalPoint, p.lt (LoadState.init lib).expectedLowerBound = false) ∧
    pre ≠ [] ∧ (∃ prev, st.prev = some prev ∧ pre.getLast? = some prev) ∧
    st.loadedPrev = true ∧ st.cfgs ≠ [] ∧
    loadStep lib rootDir st x ≠ Except.error (ConfigError.assertion "prev") := by
  have hinv : LoadInv st := LoadInv.after_loop (LoadInv.at_start lib) hpre
  have hfirst : ∀ p : warp.IntervalPoint,
      p.lt (LoadState.init lib).expectedLowerBound = false :=
    fun p => warp.IntervalPoint.lt_minusInfinity p
  rcases List.eq_nil_or_concat pre with hnil | ⟨front, prev, hcat⟩
  · subst hnil
    simp only [loadLoop, Prod.mk.injEq, Except.ok.injEq] at hpre
    rw [← hpre.1, hfirst] at hover
    cases hover
  · rw [List.concat_eq_append] at hcat
    subst hcat
    obtain ⟨-, -, hprev, -⟩ := loadLoop_last hpre
    obtain ⟨hloaded, loaded, pcfg, hcfgs, -⟩ := hinv.2.2 prev hprev
    refine ⟨rfl, hfirst, by simp, ⟨prev, hprev, by simp⟩, hloaded, ?_, ?_⟩
    · rw [hcfgs]
      simp
    · cases hne : cfg.rows.lowerBound.ne st.prevRows.lowerBound with
      | true =>
        rw [loadStep_uncorrectable lib rootDir st x hcfg hover hne]
        intro hc
        injection hc with hc
        cases hc
      | false =>
        rw [loadStep_overlap lib rootDir st x hcfg hover hne hprev]
        intro hc
        cases hc

/-- C30, on `cellLow` with the rows (−∞, "row1"] and then `cellWhole` with the
rows (−∞, "row2"]: the overlap branch is taken on the second cell, after
`cellLow`. -/
theorem loadTabletConfigs_overlap_has_prev_witness :
    [cellLow] ≠ [] ∧ (∃ prev, stateLow.prev = some prev ∧ [cellLow].getLast? = some prev) ∧
    stateLow.loadedPrev = true ∧ stateLow.cfgs ≠ [] :=
  have h := loadTabletConfigs_overlap_has_prev toyLibrary rootDir0 [cellLow] cellWhole stateLow
    configWhole toy_stateLow toy_cellWhole_config (by decide)
  ⟨h.2.2.1, h.2.2.2.1, h.2.2.2.2.1, h.2.2.2.2.2.1⟩

/-! ## `MetaTable::getTablet` -/

theorem MetaTable.find_eq_none_iff {C H : Type} (t : MetaTable C H) (location : Bytes) :
    t.find location = none ↔ location ∉ t.keys := by
  unfold MetaTable.find MetaTable.keys
  rw [Option.map_eq_none', List.find?_eq_none]
  simp only [decide_eq_true_eq, List.mem_map, not_exists, not_and]

theorem MetaTable.touch_keys {C H : Type} (t : MetaTable C H) (location : Bytes) :
    (t.touch location).keys = t.keys := by
  unfold MetaTable.touch MetaTable.keys
  simp only [List.map_map]
  apply List.map_congr_left
  intro e _
  by_cases h : e.1 = location <;> simp [h]

theorem find_touch_aux {H : Type} (location : Bytes) (h : H) :
    ∀ (l : List (Bytes × (H × Bool))) (b : Bool),
      (l.find? fun e => e.1 = location) = some (location, (h, b)) →
      ((l.map fun e => if e.1 = location then (e.1, (e.2.1, true)) else e).find?
        fun e => e.1 = location) = some (location, (h, true)) := by
  intro l
  induction l with
  | nil => intro b hf; simp at hf
  | cons e es ih =>
    intro b hf
    by_cases he : e.1 = location
    · simp only [List.find?_cons, he, decide_True, Option.some.injEq] at hf
      simp only [List.map_cons, he, if_true, List.find?_cons, decide_True, Option.some.injEq]
      rw [hf]
    · simp only [List.find?_cons, he, decide_False] at hf
      simp only [List.map_cons, he, if_false, List.find?_cons, decide_False]
      exact ih b hf

theorem MetaTable.find_touch {C H : Type} (t : MetaTable C H) (location : Bytes) {h : H}
    {b : Bool} (hf : t.find location = some (h, b)) :
    (t.touch location).find location = some (h, true) := by
  unfold MetaTable.find at hf ⊢
  obtain ⟨e, he, he₂⟩ := Option.map_eq_some'.mp hf
  have hkey : e.1 = location := by simpa using List.find?_some he
  have hee : e = (location, (h, b)) := by
    rw [← hkey, ← he₂]
  rw [hee] at he
  unfold MetaTable.touch
  simp only
  rw [find_touch_aux location h t.tabletCache b he]
  rfl

theorem MetaTable.finish_eq {C H E : Type} (t : MetaTable C H) (events : List MetaEvent)
    {location : Bytes} {h : H} {b : Bool} (hit : t.lastIt = some location)
    (hf : t.find location = some (h, b)) :
    (t.finish events : Except (MetaError E) H × MetaTable C H × List MetaEvent) =
      (Except.ok h, t.touch location, events) := by
  simp only [MetaTable.finish, hit, hf]

theorem MetaTable.find_append_new {C H : Type} (t : MetaTable C H) (location : Bytes) (h : H)
    (hnone : t.find location = none) (t₁ : MetaTable C H)
    (ht : t₁.tabletCache = t.tabletCache ++ [(location, (h, true))]) :
    t₁.find location = some (h, true) := by
  unfold MetaTable.find at hnone ⊢
  rw [Option.map_eq_none'] at hnone
  rw [ht, List.find?_append, hnone]
  simp

/-- A call for a row inside the last rows: no call outside, the handle of the
entry the iterator points at. -/
theorem MetaTable.getTablet_hit {C H E : Type} (env : MetaEnv C H E) (t : MetaTable C H)
    (row : Bytes) (hwf : t.WF env) (hin : env.contains t.lastRows row = true) :
    ∃ location h b, t.lastIt = some location ∧ t.find location = some (h, b) ∧
      t.getTablet env row = (Except.ok h, t.touch location, []) := by
  obtain ⟨location, hit⟩ := hwf.2.1 ⟨row, hin⟩
  have hmem := hwf.2.2 location hit
  cases hf : t.find location with
  | none => exact absurd hmem ((t.find_eq_none_iff location).mp hf)
  | some entry =>
    refine ⟨location, entry.1, entry.2, hit, hf, ?_⟩
    simp only [MetaTable.getTablet, hin, Bool.not_true, Bool.false_eq_true, if_false]
    exact t.finish_eq [] hit hf

/-- A call for a row outside the last rows, whose location is in the location
cache: one lookup, no handle opened. -/
theorem MetaTable.getTablet_cached {C H E : Type} (env : MetaEnv C H E) (t : MetaTable C H)
    (row : Bytes) (hout : env.contains t.lastRows row = false) {cache : C} {ent : MetaEntry}
    (hl : env.lookup t.metaCache t.tableName row = Except.ok (cache, ent)) {h : H} {b : Bool}
    (hf : t.find ent.location = some (h, b)) :
    t.getTablet env row =
      (Except.ok h,
       MetaTable.touch { t with metaCache := cache, lastRows := ent.rows,
                                lastIt := some ent.location } ent.location,
       [MetaEvent.lookup row]) := by
  simp only [MetaTable.getTablet, hout, Bool.not_false, if_true, hl, hf, Option.map_some',
    reduceCtorEq, if_false]
  exact MetaTable.finish_eq _ _ rfl hf

/-- A call for a row outside the last rows, whose location is not in the
location cache: one lookup, one handle opened and cached, marked as touched. -/
theorem MetaTable.getTablet_opened {C H E : Type} (env : MetaEnv C H E) (t : MetaTable C H)
    (row : Bytes) (hout : env.contains t.lastRows row = false) {cache : C} {ent : MetaEntry}
    (hl : env.lookup t.metaCache t.tableName row = Except.ok (cache, ent))
    (hf : t.find ent.location = none) {h : H} (ho : env.tableOpen ent.location = Except.ok h) :
    t.getTablet env row =
      (Except.ok h,
       MetaTable.touch { t with metaCache := cache, lastRows := ent.rows,
                                tabletCache := t.tabletCache ++ [(ent.location, (h, true))],
                                lastIt := some ent.location } ent.location,
       [MetaEvent.lookup row, MetaEvent.tableOpen ent.location]) := by
  simp only [MetaTable.getTablet, hout, Bool.not_false, if_true, hl, hf, Option.map_none',
    ho]
  exact MetaTable.finish_eq _ _ rfl
    (MetaTable.find_append_new t ent.location h hf _ rfl)

theorem MetaTable.keys_after_open {C H : Type} (t : MetaTable C H) (cache : C)
    (ent : MetaEntry) (h : H) :
    (MetaTable.touch { t with metaCache := cache, lastRows := ent.rows,
                              tabletCache := t.tabletCache ++ [(ent.location, (h, true))],
                              lastIt := some ent.location } ent.location).keys =
      t.keys ++ [ent.location] := by
  rw [MetaTable.touch_keys]
  simp [MetaTable.keys]

/-- What one call does to the location cache, whether it returns or not. -/
theorem MetaTable.getTablet_step {C H E : Type} (env : MetaEnv C H E) (t : MetaTable C H)
    (row : Bytes) (hwf : t.WF env) :
    (openedLocations (t.getTablet env row).2.2).Nodup ∧
    (∀ l ∈ openedLocations (t.getTablet env row).2.2, l ∉ t.keys) ∧
    (∀ h, (t.getTablet env row).1 = Except.ok h →
      (t.getTablet env row).2.1.WF env ∧
      (t.getTablet env row).2.1.keys = t.keys ++ openedLocations (t.getTablet env row).2.2) := by
  cases hin : env.contains t.lastRows row with
  | true =>
    obtain ⟨location, h, b, hit, hf, hg⟩ := t.getTablet_hit env row hwf hin
    rw [hg]
    refine ⟨List.nodup_nil, fun l hl => by simp [openedLocations] at hl, fun _ _ => ?_⟩
    refine ⟨⟨?_, fun _ => ⟨location, hit⟩, fun l hl => ?_⟩, ?_⟩
    · rw [MetaTable.touch_keys]; exact hwf.1
    · rw [MetaTable.touch_keys]; exact hwf.2.2 l hl
    · simp [openedLocations, MetaTable.touch_keys]
  | false =>
    cases hl : env.lookup t.metaCache t.tableName row with
    | error e =>
      have hg : t.getTablet env row =
          (Except.error (MetaError.raised e), t, [MetaEvent.lookup row]) := by
        simp only [MetaTable.getTablet, hin, Bool.not_false, if_true, hl]
      rw [hg]
      refine ⟨by simp [openedLocations], fun l hl => by simp [openedLocations] at hl, ?_⟩
      intro h hh
      cases hh
    | ok r =>
      obtain ⟨cache, ent⟩ := r
      cases hf : t.find ent.location with
      | some entry =>
        have hg := t.getTablet_cached env row hin hl (h := entry.1) (b := entry.2) hf
        rw [hg]
        refine ⟨by simp [openedLocations], fun l hl => by simp [openedLocations] at hl, ?_⟩
        intro _ _
        have hmem : ent.location ∈ t.keys := by
          by_contra hc
          rw [(t.find_eq_none_iff ent.location).mpr hc] at hf
          cases hf
        refine ⟨⟨?_, fun _ => ⟨ent.location, rfl⟩, fun l hl => ?_⟩, ?_⟩
        · rw [MetaTable.touch_keys]; exact hwf.1
        · rw [MetaTable.touch_keys]
          have : l = ent.location := (Option.some.inj hl).symm
          rw [this]
          exact hmem
        · rw [MetaTable.touch_keys]
          simp [openedLocations, MetaTable.keys]
      | none =>
        have hnot := (t.find_eq_none_iff ent.location).mp hf
        cases ho : env.tableOpen ent.location with
        | error e =>
          have hg : t.getTablet env row =
              (Except.error (MetaError.raised e),
               { t with metaCache := cache, lastRows := ent.rows, lastIt := none },
               [MetaEvent.lookup row, MetaEvent.tableOpen ent.location]) := by
            simp only [MetaTable.getTablet, hin, Bool.not_false, if_true, hl, hf,
              Option.map_none', ho]
          rw [hg]
          refine ⟨by simp [openedLocations], fun l hl => ?_, ?_⟩
          · have : l = ent.location := by simpa [openedLocations] using hl
            rw [this]
            exact hnot
          · intro h hh
            cases hh
        | ok h =>
          have hg := t.getTablet_opened env row hin hl hf ho
          rw [hg]
          refine ⟨by simp [openedLocations], fun l hl => ?_, ?_⟩
          · have : l = ent.location := by simpa [openedLocations] using hl
            rw [this]
            exact hnot
          · intro _ _
            have hkeys := MetaTable.keys_after_open t cache ent h
            refine ⟨⟨?_, fun _ => ⟨ent.location, rfl⟩, fun l hl => ?_⟩, ?_⟩
            · rw [hkeys]
              exact List.Nodup.append hwf.1 (List.nodup_singleton _)
                (by
                  intro a ha ha₂
                  rw [List.mem_singleton] at ha₂
                  exact hnot (ha₂ ▸ ha))
            · rw [hkeys]
              have : l = ent.location := (Option.some.inj hl).symm
              rw [this]
              simp
            · rw [hkeys]
              simp [openedLocations]

/-- What a sequence of calls does to the location cache. -/
theorem MetaTable.getTablets_opened {C H E : Type} (env : MetaEnv C H E) (rows : List Bytes) :
    ∀ (t : MetaTable C H), t.WF env →
      (openedLocations (t.getTablets env rows).2.2).Nodup ∧
      (∀ l ∈ openedLocations (t.getTablets env rows).2.2, l ∉ t.keys) ∧
      (∀ hs, (t.getTablets env rows).1 = Except.ok hs →
        (t.getTablets env rows).2.1.WF env ∧ hs.length = rows.length ∧
        (t.getTablets env rows).2.1.keys =
          t.keys ++ openedLocations (t.getTablets env rows).2.2) := by
  induction rows with
  | nil =>
    intro t hwf
    refine ⟨List.nodup_nil, fun l hl => by simp [MetaTable.getTablets, openedLocations] at hl,
      ?_⟩
    intro hs hh
    simp only [MetaTable.getTablets, Except.ok.injEq] at hh
    subst hh
    exact ⟨hwf, rfl, by simp [MetaTable.getTablets, openedLocations]⟩
  | cons row rows ih =>
    intro t hwf
    obtain ⟨hnd, hnew, hok⟩ := t.getTablet_step env row hwf
    rcases hstep : t.getTablet env row with ⟨r, t₁, events⟩
    rw [hstep] at hnd hnew hok
    cases r with
    | error e =>
      simp only [MetaTable.getTablets, hstep]
      refine ⟨hnd, hnew, ?_⟩
      intro hs hh
      cases hh
    | ok h =>
      obtain ⟨hwf₁, hkeys₁⟩ := hok h rfl
      obtain ⟨hnd₂, hnew₂, hok₂⟩ := ih t₁ hwf₁
      have hopen : ∀ a b : List MetaEvent,
          openedLocations (a ++ b) = openedLocations a ++ openedLocations b := by
        intro a b
        simp [openedLocations, List.filterMap_append]
      have hnodup : (openedLocations (events ++ (t₁.getTablets env rows).2.2)).Nodup := by
        rw [hopen]
        refine List.Nodup.append hnd hnd₂ ?_
        intro l hl₁ hl₂
        refine hnew₂ l hl₂ ?_
        simp only at hkeys₁
        rw [hkeys₁]
        exact List.mem_append_right _ hl₁
      have hfresh : ∀ l ∈ openedLocations (events ++ (t₁.getTablets env rows).2.2),
          l ∉ t.keys := by
        intro l hl
        rw [hopen] at hl
        rcases List.mem_append.mp hl with hl | hl
        · exact hnew l hl
        · intro hmem
          refine hnew₂ l hl ?_
          simp only at hkeys₁
          rw [hkeys₁]
          exact List.mem_append_left _ hmem
      rcases hrest : t₁.getTablets env rows with ⟨r₂, t₂, more⟩
      rw [hrest] at hnodup hfresh hok₂
      cases r₂ with
      | error e =>
        simp only [MetaTable.getTablets, hstep, hrest]
        refine ⟨hnodup, hfresh, ?_⟩
        intro hs hh
        cases hh
      | ok hs₂ =>
        simp only [MetaTable.getTablets, hstep, hrest]
        refine ⟨hnodup, hfresh, ?_⟩
        intro hs hh
        obtain ⟨hwf₂, hlen₂, hkeys₂⟩ := hok₂ hs₂ rfl
        simp only [Except.ok.injEq] at hh
        subst hh
        refine ⟨hwf₂, by simp [hlen₂], ?_⟩
        simp only at hkeys₂ hkeys₁
        rw [hkeys₂, hkeys₁, hopen, List.append_assoc]

theorem toyMetaTable_WF : toyMetaTable.WF toyMetaEnv := by
  refine ⟨List.nodup_nil, ?_, fun l hl => by cases hl⟩
  rintro ⟨row, hrow⟩
  have hfalse : ¬ (row < ([] : Bytes)) := by
    cases row <;> simp
  simp [toyMetaEnv, toyMetaTable, hfalse] at hrow

/-- C21: `MetaTable::getTablet(row)` on a table whose location cache has
distinct keys and whose iterator points at an entry whenever the last rows
contain a row.  For a row inside the rows of the entry used last it calls
nothing, and returns the handle of the entry the iterator points at.  For a row
outside it looks the row up once; when the location of the entry found is in
the location cache it opens nothing; when it is not it opens one handle and
caches it under the location.  In each case the handle returned is the one
cached under the location of the entry used, whose touched flag is then set.
Over any sequence of calls no location is opened twice, none that was cached
before is opened, and the cache gains exactly the locations opened. -/
theorem MetaTable.getTablet_spec {C H E : Type} (env : MetaEnv C H E) (t : MetaTable C H)
    (row : Bytes) (hwf : t.WF env) :
    (env.contains t.lastRows row = true →
      ∃ location h b, t.lastIt = some location ∧ t.find location = some (h, b) ∧
        t.getTablet env row = (Except.ok h, t.touch location, []) ∧
        (t.touch location).find location = some (h, true)) ∧
    (env.contains t.lastRows row = false →
      ∀ cache ent, env.lookup t.metaCache t.tableName row = Except.ok (cache, ent) →
        (∀ h b, t.find ent.location = some (h, b) →
          ∃ t₁, t.getTablet env row = (Except.ok h, t₁, [MetaEvent.lookup row]) ∧
            t₁.lastRows = ent.rows ∧ t₁.lastIt = some ent.location ∧
            t₁.find ent.location = some (h, true) ∧ t₁.keys = t.keys) ∧
        (t.find ent.location = none →
          ∀ h, env.tableOpen ent.location = Except.ok h →
            ∃ t₁, t.getTablet env row =
                (Except.ok h, t₁, [MetaEvent.lookup row, MetaEvent.tableOpen ent.location]) ∧
              t₁.lastRows = ent.rows ∧ t₁.lastIt = some ent.location ∧
              t₁.find ent.location = some (h, true) ∧
              t₁.keys = t.keys ++ [ent.location])) ∧
    (∀ rows : List Bytes,
      (openedLocations (t.getTablets env rows).2.2).Nodup ∧
      (∀ l ∈ openedLocations (t.getTablets env rows).2.2, l ∉ t.keys) ∧
      (∀ hs, (t.getTablets env rows).1 = Except.ok hs →
        (t.getTablets env rows).2.1.WF env ∧ hs.length = rows.length ∧
        (t.getTablets env rows).2.1.keys =
          t.keys ++ openedLocations (t.getTablets env rows).2.2)) := by
  refine ⟨?_, ?_, fun rows => MetaTable.getTablets_opened env rows t hwf⟩
  · intro hin
    obtain ⟨location, h, b, hit, hf, hg⟩ := t.getTablet_hit env row hwf hin
    exact ⟨location, h, b, hit, hf, hg, t.find_touch location hf⟩
  · intro hout cache ent hl
    constructor
    · intro h b hf
      refine ⟨_, t.getTablet_cached env row hout hl hf, rfl, rfl, ?_, ?_⟩
      · exact MetaTable.find_touch _ ent.location (b := b) hf
      · rw [MetaTable.touch_keys]
        rfl
    · intro hf h ho
      refine ⟨_, t.getTablet_opened env row hout hl hf ho, rfl, rfl, ?_, ?_⟩
      · exact MetaTable.find_touch _ ent.location
          (MetaTable.find_append_new t ent.location h hf _ rfl)
      · exact MetaTable.keys_after_open t cache ent h

/-- C21, on a table that has made no call, for the rows "row1", "row1", "row3",
"row1": three lookups (the second call is inside the last rows), two handles
opened, one per location. -/
theorem MetaTable.getTablet_spec_witness :
    toyMetaTable.WF toyMetaEnv ∧
    (toyMetaTable.getTablets toyMetaEnv [row1, row1, row3, row1]).1 =
      Except.ok [[65], [65], [66], [65]] ∧
    (toyMetaTable.getTablets toyMetaEnv [row1, row1, row3, row1]).2.2 =
      [MetaEvent.lookup row1, MetaEvent.tableOpen [65], MetaEvent.lookup row3,
       MetaEvent.tableOpen [66], MetaEvent.lookup row1] ∧
    (openedLocations (toyMetaTable.getTablets toyMetaEnv [row1, row1, row3, row1]).2.2).Nodup :=
  ⟨toyMetaTable_WF, rfl, by decide,
   ((MetaTable.getTablet_spec toyMetaEnv toyMetaTable row1 toyMetaTable_WF).2.2
     [row1, row1, row3, row1]).1⟩

/-! ## `ScanPredicate`: clipping rows and column families -/

theorem Bound.isBelow_maxLower {α : Type} [LinearOrder α] (a b : Bound α) (x : α) :
    (a.maxLower b).isBelow x = (a.isBelow x && b.isBelow x) := by
  cases a <;> cases b <;> simp only [Bound.maxLower, Bound.isBelow, Bool.true_and, Bool.and_true]
  · rw [Bool.eq_iff_iff]; simp [max_le_iff]
  · split_ifs with h <;> rw [Bool.eq_iff_iff] <;> simp only [Bound.isBelow, Bool.and_eq_true, decide_eq_true_eq]
    · exact ⟨fun hy => ⟨le_trans h (le_of_lt hy), hy⟩, fun hy => hy.2⟩
    · exact ⟨fun hx => ⟨hx, lt_of_lt_of_le (not_le.mp h) hx⟩, fun hx => hx.1⟩
  · split_ifs with h <;> rw [Bool.eq_iff_iff] <;> simp only [Bound.isBelow, Bool.and_eq_true, decide_eq_true_eq]
    · exact ⟨fun hy => ⟨hy, le_trans h (le_of_lt hy)⟩, fun hy => hy.1⟩
    · exact ⟨fun hx => ⟨lt_of_lt_of_le (not_le.mp h) hx, hx⟩, fun hx => hx.2⟩
  · rw [Bool.eq_iff_iff]; simp [max_lt_iff]

theorem Bound.isAbove_minUpper {α : Type} [LinearOrder α] (a b : Bound α) (x : α) :
    (a.minUpper b).isAbove x = (a.isAbove x && b.isAbove x) := by
  cases a <;> cases b <;> simp only [Bound.minUpper, Bound.isAbove, Bool.true_and, Bool.and_true]
  · rw [Bool.eq_iff_iff]; simp [le_min_iff]
  · split_ifs with h <;> rw [Bool.eq_iff_iff] <;> simp only [Bound.isAbove, Bool.and_eq_true, decide_eq_true_eq]
    · exact ⟨fun hy => ⟨le_trans (le_of_lt hy) h, hy⟩, fun hy => hy.2⟩
    · exact ⟨fun hx => ⟨hx, lt_of_le_of_lt hx (not_le.mp h)⟩, fun hx => hx.1⟩
  · split_ifs with h <;> rw [Bool.eq_iff_iff] <;> simp only [Bound.isAbove, Bool.and_eq_true, decide_eq_true_eq]
    · exact ⟨fun hy => ⟨hy, le_trans (le_of_lt hy) h⟩, fun hy => hy.1⟩
    · exact ⟨fun hx => ⟨lt_of_le_of_lt hx (not_le.mp h), hx⟩, fun hx => hx.2⟩
  · rw [Bool.eq_iff_iff]; simp [lt_min_iff]

theorem Interval.contains_clip {α : Type} [LinearOrder α] (i span : Interval α) (x : α) :
    (i.clip span).contains x = (i.contains x && span.contains x) := by
  unfold Interval.contains Interval.clip
  simp only [Bound.isBelow_maxLower, Bound.isAbove_minUpper]
  cases i.lower.isBelow x <;> cases span.lower.isBelow x <;> cases i.upper.isAbove x <;>
    cases span.upper.isAbove x <;> rfl

theorem Interval.contains_of_isEmpty {α : Type} [LinearOrder α] (i : Interval α) (x : α)
    (h : i.isEmpty = true) : i.contains x = false := by
  unfold Interval.contains
  unfold Interval.isEmpty at h
  cases hl : i.lower <;> cases hu : i.upper <;> rw [hl, hu] at h <;>
    simp only [Bound.isBelow, Bound.isAbove, decide_eq_true_eq, Bool.false_eq_true] at h ⊢
  · rw [Bool.and_eq_false_iff]
    simp only [decide_eq_false_iff_not, not_le]
    by_contra hc
    push_neg at hc
    exact absurd (lt_of_le_of_lt (le_trans hc.1 hc.2) h) (lt_irrefl _)
  · rw [Bool.and_eq_false_iff]
    simp only [decide_eq_false_iff_not, not_le, not_lt]
    by_contra hc
    push_neg at hc
    exact absurd (lt_of_le_of_lt hc.1 (lt_of_lt_of_le hc.2 h)) (lt_irrefl _)
  · rw [Bool.and_eq_false_iff]
    simp only [decide_eq_false_iff_not, not_le, not_lt]
    by_contra hc
    push_neg at hc
    exact absurd (lt_of_lt_of_le hc.1 (le_trans hc.2 h)) (lt_irrefl _)
  · rw [Bool.and_eq_false_iff]
    simp only [decide_eq_false_iff_not, not_le, not_lt]
    by_contra hc
    push_neg at hc
    exact absurd (lt_trans hc.1 (lt_of_lt_of_le hc.2 h)) (lt_irrefl _)

theorem Interval.clip_all {α : Type} [LinearOrder α] (i : Interval α) :
    i.clip Interval.all = i := by
  cases i with
  | mk lo hi =>
    cases lo <;> cases hi <;> rfl

theorem clipSet_any {α : Type} [LinearOrder α] (s : List (Interval α)) (span : Interval α)
    (x : α) :
    ((clipSet s span).any fun i => i.contains x) =
      ((s.any fun i => i.contains x) && span.contains x) := by
  induction s with
  | nil => simp [clipSet]
  | cons i rest ih =>
    unfold clipSet at ih ⊢
    simp only [List.map_cons, List.filter_cons, List.any_cons]
    cases he : (i.clip span).isEmpty with
    | true =>
      have hc := Interval.contains_of_isEmpty (i.clip span) x he
      rw [Interval.contains_clip] at hc
      simp only [Bool.not_true, Bool.false_eq_true, if_false, ih]
      cases hi : i.contains x <;> cases hs : span.contains x <;> simp_all
    | false =>
      simp only [Bool.not_false, if_true, List.any_cons, ih, Interval.contains_clip]
      cases hi : i.contains x <;> cases hs : span.contains x <;> simp

theorem clipSet_all {α : Type} [LinearOrder α] (s : List (Interval α))
    (h : ∀ i ∈ s, i.isEmpty = false) : clipSet s Interval.all = s := by
  unfold clipSet
  have hmap : (s.map fun i => i.clip Interval.all) = s := by
    conv_rhs => rw [← List.map_id s]
    exact List.map_congr_left fun i _ => Interval.clip_all i
  rw [hmap, List.filter_eq_self]
  intro i hi
  simp [h i hi]

theorem clipSet_eq_nil_iff {α : Type} [LinearOrder α] (s : List (Interval α))
    (span : Interval α) :
    clipSet s span = [] ↔ ∀ i ∈ s, (i.clip span).isEmpty = true := by
  unfold clipSet
  rw [List.filter_eq_nil_iff]
  simp

theorem bytes_cons_lt_cons {a b : Byte} {as bs : Bytes} :
    (a :: as) < (b :: bs) ↔ a < b ∨ (a = b ∧ as < bs) := by
  constructor
  · intro h
    cases h with
    | cons h => exact Or.inr ⟨rfl, h⟩
    | rel h => exact Or.inl h
  · rintro (h | ⟨rfl, h⟩)
    · exact List.Lex.rel h
    · exact List.Lex.cons h

theorem bytes_not_lt_nil (a : Bytes) : ¬ a < ([] : Bytes) := by
  intro h
  cases h

theorem bytes_nil_lt_cons (a : Byte) (as : Bytes) : ([] : Bytes) < a :: as := List.Lex.nil

/-- A string between two strings with a common prefix has that prefix. -/
theorem prefix_of_between (P : Bytes) :
    ∀ (l u c : Bytes), P <+: l → P <+: u → l ≤ c → c ≤ u → P <+: c := by
  induction P with
  | nil => intro l u c _ _ _ _; exact List.nil_prefix
  | cons p P ih =>
    intro l u c hl hu hlc hcu
    obtain ⟨l₁, rfl⟩ := hl
    obtain ⟨u₁, rfl⟩ := hu
    cases c with
    | nil => exact absurd (bytes_nil_lt_cons p (P ++ l₁)) (not_lt.mpr hlc)
    | cons h t =>
      have h₁ := not_lt.mpr hlc
      have h₂ := not_lt.mpr hcu
      simp only [List.cons_append, bytes_cons_lt_cons, not_or, not_and] at h₁ h₂
      have hp : h = p := le_antisymm (not_lt.mp h₂.1) (not_lt.mp h₁.1)
      subst hp
      have := ih (P ++ l₁) (P ++ u₁) t (List.prefix_append _ _) (List.prefix_append _ _)
        (not_lt.mp (h₁.2 rfl)) (not_lt.mp (h₂.2 rfl))
      exact (List.prefix_cons_inj h).mpr this

/-- A string from a column of the family `f` up to, but not including, `f;` is a
column of the family. -/
theorem prefix_of_below_closing (f : Bytes) :
    ∀ (l c : Bytes), (f ++ [58]) <+: l → l ≤ c → c < f ++ [59] → (f ++ [58]) <+: c := by
  induction f with
  | nil =>
    intro l c hl hlc hcu
    obtain ⟨l₁, rfl⟩ := hl
    cases c with
    | nil => exact absurd (bytes_nil_lt_cons 58 l₁) (not_lt.mpr hlc)
    | cons h t =>
      have h₁ := not_lt.mpr hlc
      simp only [List.nil_append, List.singleton_append, bytes_cons_lt_cons, not_or] at h₁ hcu
      have hh : h = 58 := by
        rcases hcu with hcu | ⟨-, hcu⟩
        · have h58 := not_lt.mp h₁.1
          rw [Fin.le_def] at h58
          rw [Fin.lt_def] at hcu
          apply Fin.ext
          have e58 : ((58 : Byte) : Nat) = 58 := rfl
          have e59 : ((59 : Byte) : Nat) = 59 := rfl
          omega
        · exact absurd hcu (bytes_not_lt_nil t)
      subst hh
      exact ⟨t, rfl⟩
  | cons p f ih =>
    intro l c hl hlc hcu
    obtain ⟨l₁, rfl⟩ := hl
    cases c with
    | nil => exact absurd (bytes_nil_lt_cons p _) (not_lt.mpr hlc)
    | cons h t =>
      have h₁ := not_lt.mpr hlc
      simp only [List.cons_append, bytes_cons_lt_cons, not_or, not_and] at h₁ hcu
      have hp : h = p := by
        rcases hcu with hcu | ⟨hcu, -⟩
        · exact absurd hcu h₁.1
        · exact hcu
      subst hp
      have ht : t < f ++ [59] := by
        rcases hcu with hcu | ⟨-, hcu⟩
        · exact absurd hcu (lt_irrefl _)
        · exact hcu
      have := ih (f ++ [58] ++ l₁) t (List.prefix_append _ _) (not_lt.mp (h₁.2 rfl)) ht
      exact (List.prefix_cons_inj h).mpr this

theorem familyOfBound_starts {v f : Bytes} (h : familyOfBound v = some f) :
    (f ++ [58]) <+: v ∧ (58 : Byte) ∉ f := by
  unfold familyOfBound at h
  split_ifs at h with hmem
  injection h with h
  subst h
  constructor
  · induction v with
    | nil => simp at hmem
    | cons b rest ih =>
      by_cases hb : b = 58
      · subst hb
        simp
      · have hrest : (58 : Byte) ∈ rest := by
          rcases List.mem_cons.mp hmem with h | h
          · exact absurd h.symm hb
          · exact h
        simp only [List.takeWhile_cons, hb, ne_eq, not_false_eq_true, decide_True, if_true,
          List.cons_append]
        exact (List.prefix_cons_inj b).mpr (ih hrest)
  · intro hin
    have := List.mem_takeWhile_imp hin
    simp at this

theorem familyOfBound_of_mem {v : Bytes} (h : (58 : Byte) ∈ v) :
    familyOfBound v = some (v.takeWhile fun b => b ≠ 58) := by
  simp [familyOfBound, h]

theorem familyOfBound_of_not_mem {v : Bytes} (h : (58 : Byte) ∉ v) : familyOfBound v = none := by
  simp [familyOfBound, h]

theorem Interval.family_eq_some_iff (i : Interval Bytes) (f : Bytes) :
    i.family = some f ↔ lowerFamily i.lower = some f ∧ upperInFamily f i.upper = true := by
  unfold Interval.family
  cases hl : lowerFamily i.lower with
  | none => simp
  | some g =>
    simp only [Option.some.injEq]
    constructor
    · intro h
      split_ifs at h with hu
      injection h with h
      subst h
      exact ⟨rfl, hu⟩
    · rintro ⟨rfl, hu⟩
      simp [hu]

/-- Every column of an interval that lies in the family `f` begins with `f:`. -/
theorem Interval.family_sound {i : Interval Bytes} {f : Bytes} (h : i.family = some f)
    (c : Bytes) (hc : i.contains c = true) : (f ++ [58]) <+: c := by
  rw [Interval.family_eq_some_iff] at h
  obtain ⟨hlow, hup⟩ := h
  unfold Interval.contains at hc
  rw [Bool.and_eq_true] at hc
  obtain ⟨hlo, hhi⟩ := hc
  have hl : ∃ l, familyOfBound l = some f ∧ l ≤ c := by
    cases hb : i.lower with
    | infinite => rw [hb] at hlow; cases hlow
    | inclusive l =>
      rw [hb] at hlow hlo
      exact ⟨l, hlow, by simpa [Bound.isBelow] using hlo⟩
    | exclusive l =>
      rw [hb] at hlow hlo
      exact ⟨l, hlow, le_of_lt (by simpa [Bound.isBelow] using hlo)⟩
  obtain ⟨l, hfam, hlc⟩ := hl
  have hpre := (familyOfBound_starts hfam).1
  cases hb : i.upper with
  | infinite => rw [hb] at hup; cases hup
  | inclusive u =>
    rw [hb] at hup hhi
    simp only [Bound.isAbove, decide_eq_true_eq] at hhi
    exact prefix_of_between _ l u c hpre (List.isPrefixOf_iff_prefix.mp hup) hlc hhi
  | exclusive u =>
    rw [hb] at hup hhi
    simp only [Bound.isAbove, decide_eq_true_eq] at hhi
    simp only [upperInFamily, Bool.or_eq_true, decide_eq_true_eq] at hup
    rcases hup with hup | rfl
    · exact prefix_of_between _ l u c hpre (List.isPrefixOf_iff_prefix.mp hup) hlc (le_of_lt hhi)
    · exact prefix_of_below_closing f l c hpre hlc hhi

/-- The successor of a prefix that names a family stays in the family or closes
it. -/
theorem prefixSuccessor_family (v : Bytes) (h : (58 : Byte) ∈ v) :
    ∃ u, prefixSuccessor v = some u ∧
      ((v.takeWhile (fun b => b ≠ 58) ++ [58]) <+: u ∨
        u = v.takeWhile (fun b => b ≠ 58) ++ [59]) := by
  induction v with
  | nil => simp at h
  | cons b rest ih =>
    by_cases hb : b = 58
    · subst hb
      cases hr : prefixSuccessor rest with
      | some r =>
        refine ⟨58 :: r, by simp [prefixSuccessor, hr], Or.inl ?_⟩
        simp
      | none =>
        refine ⟨[59], ?_, Or.inr (by simp)⟩
        simp only [prefixSuccessor, hr]
        decide
    · have hrest : (58 : Byte) ∈ rest := by
        rcases List.mem_cons.mp h with h | h
        · exact absurd h.symm hb
        · exact h
      obtain ⟨u, hu, hcase⟩ := ih hrest
      refine ⟨b :: u, by simp [prefixSuccessor, hu], ?_⟩
      simp only [List.takeWhile_cons, hb, ne_eq, not_false_eq_true, decide_True, if_true,
        List.cons_append]
      rcases hcase with hp | rfl
      · exact Or.inl ((List.prefix_cons_inj b).mpr hp)
      · exact Or.inr rfl

theorem family_pointInterval (v : Bytes) :
    (pointInterval v).family =
      if (58 : Byte) ∈ v then some (v.takeWhile fun b => b ≠ 58) else none := by
  by_cases h : (58 : Byte) ∈ v
  · rw [if_pos h, Interval.family_eq_some_iff]
    refine ⟨familyOfBound_of_mem h, ?_⟩
    exact List.isPrefixOf_iff_prefix.mpr (familyOfBound_starts (familyOfBound_of_mem h)).1
  · rw [if_neg h]
    simp [Interval.family, pointInterval, lowerFamily, familyOfBound_of_not_mem h]

theorem family_prefixInterval (v : Bytes) :
    (prefixInterval v).family =
      if (58 : Byte) ∈ v then some (v.takeWhile fun b => b ≠ 58) else none := by
  by_cases h : (58 : Byte) ∈ v
  · rw [if_pos h, Interval.family_eq_some_iff]
    refine ⟨familyOfBound_of_mem h, ?_⟩
    obtain ⟨u, hu, hcase⟩ := prefixSuccessor_family v h
    simp only [prefixInterval, hu, upperInFamily, Bool.or_eq_true, decide_eq_true_eq]
    exact hcase.imp List.isPrefixOf_iff_prefix.mpr id
  · rw [if_neg h]
    simp [Interval.family, prefixInterval, lowerFamily, familyOfBound_of_not_mem h]

theorem family_unbounded (i : Interval Bytes)
    (h : i.lower = Bound.infinite ∨ i.upper = Bound.infinite) : i.family = none := by
  unfold Interval.family
  rcases h with h | h
  · rw [h]
    rfl
  · rw [h]
    cases lowerFamily i.lower <;> rfl

theorem takeWhile_of_family_start {f u : Bytes} (hf : (58 : Byte) ∉ f)
    (hp : (f ++ [58]) <+: u) : (u.takeWhile fun b => b ≠ 58) = f := by
  obtain ⟨r, rfl⟩ := hp
  induction f with
  | nil => simp
  | cons b f ih =>
    have hb : b ≠ 58 := fun e => hf (e ▸ List.mem_cons_self _ _)
    have hf₁ : (58 : Byte) ∉ f := fun h => hf (List.mem_cons_of_mem _ h)
    simp only [List.cons_append, List.takeWhile_cons, hb, ne_eq, not_false_eq_true,
      decide_True, if_true, List.cons.injEq, true_and]
    exact ih hf₁

theorem familyOfBound_of_prefix {f r : Bytes} (hf : (58 : Byte) ∉ f) :
    familyOfBound (f ++ 58 :: r) = some f := by
  rw [familyOfBound_of_mem (by simp)]
  have hp : (f ++ [58]) <+: (f ++ 58 :: r) := ⟨r, by simp⟩
  rw [takeWhile_of_family_start hf hp]

theorem upperInFamily_other {f g r : Bytes} (hf : (58 : Byte) ∉ f) (hg : (58 : Byte) ∉ g)
    (hne : f ≠ g) (b : Bound Bytes)
    (hb : b = Bound.inclusive (g ++ 58 :: r) ∨ b = Bound.exclusive (g ++ 58 :: r)) :
    upperInFamily f b = false := by
  have hgp : (g ++ [58]) <+: (g ++ 58 :: r) := ⟨r, by simp⟩
  have hnot : ¬ (f ++ [58]) <+: (g ++ 58 :: r) := by
    intro hp
    exact hne ((takeWhile_of_family_start hf hp).symm.trans
      (takeWhile_of_family_start hg hgp))
  have hnot₂ : g ++ 58 :: r ≠ f ++ [59] := by
    intro e
    have h58 : (58 : Byte) ∈ f ++ [59] := e ▸ (by simp)
    rcases List.mem_append.mp h58 with h | h
    · exact hf h
    · simp at h
  rcases hb with rfl | rfl
  · simp only [upperInFamily]
    rw [Bool.eq_false_iff]
    exact fun h => hnot (List.isPrefixOf_iff_prefix.mp h)
  · simp only [upperInFamily, Bool.or_eq_false_iff, decide_eq_false_iff_not]
    exact ⟨Bool.eq_false_iff.mpr fun h => hnot (List.isPrefixOf_iff_prefix.mp h), hnot₂⟩

theorem getColumnFamilies_of_some {p : ScanPredicate} {s : List (Interval Bytes)}
    (h : p.columns = some s) :
    (p.getColumnFamilies.1 = true ↔ ∀ i ∈ s, i.isEmpty = true ∨ ∃ f, i.family = some f) ∧
    (p.getColumnFamilies.1 = true →
      p.getColumnFamilies.2.Nodup ∧
      ∀ f, f ∈ p.getColumnFamilies.2 ↔ ∃ i ∈ s, i.isEmpty = false ∧ i.family = some f) ∧
    (p.getColumnFamilies.1 = false → p.getColumnFamilies.2 = []) := by
  unfold ScanPredicate.getColumnFamilies
  rw [h]
  simp only
  by_cases hall : (s.all fun i => i.isEmpty || i.family.isSome) = true
  · rw [if_pos hall]
    have hall₁ : ∀ i ∈ s, i.isEmpty = true ∨ ∃ f, i.family = some f := by
      intro i hi
      have := List.all_eq_true.mp hall i hi
      rw [Bool.or_eq_true] at this
      exact this.imp id Option.isSome_iff_exists.mp
    refine ⟨⟨fun _ => hall₁, fun _ => rfl⟩, fun _ => ⟨List.nodup_dedup _, ?_⟩,
      fun hc => by cases hc⟩
    intro f
    simp only [List.mem_dedup, List.mem_filterMap, List.mem_filter, Bool.not_eq_true',
      and_assoc]
  · rw [if_neg hall]
    refine ⟨⟨fun hc => (by cases hc), fun hc => ?_⟩, fun hc => (by cases hc), fun _ => rfl⟩
    exfalso
    apply hall
    rw [List.all_eq_true]
    intro i hi
    rw [Bool.or_eq_true]
    exact (hc i hi).imp id Option.isSome_iff_exists.mpr

theorem getColumnFamilies_false_of {p : ScanPredicate} {s : List (Interval Bytes)}
    (h : p.columns = some s) {i : Interval Bytes} (hi : i ∈ s) (hne : i.isEmpty = false)
    (hnone : i.family = none) : p.getColumnFamilies = (false, []) := by
  obtain ⟨hiff, -, hfalse⟩ := getColumnFamilies_of_some h
  have h₁ : p.getColumnFamilies.1 = false := by
    cases hc : p.getColumnFamilies.1 with
    | false => rfl
    | true =>
      rcases hiff.mp hc i hi with he | ⟨f, hf⟩
      · rw [hne] at he
        cases he
      · rw [hnone] at hf
        cases hf
  exact Prod.ext h₁ (hfalse h₁)

theorem isEmpty_of_unbounded (i : Interval Bytes)
    (h : i.lower = Bound.infinite ∨ i.upper = Bound.infinite) : i.isEmpty = false := by
  unfold Interval.isEmpty
  rcases h with h | h
  · rw [h]
    cases i.upper <;> rfl
  · rw [h]
    cases i.lower <;> rfl

theorem getColumnFamilies_of_isEmpty (i : Interval Bytes) (h : i.isEmpty = true) :
    (onColumns [i]).getColumnFamilies = (true, []) := by
  simp [ScanPredicate.getColumnFamilies, onColumns, h]

/-- C23: `clipRows(I)`.  The constraints on columns and timestamps and the history
are unchanged.  A row satisfies the clipped constraint exactly when it satisfies
the original one and lies in `I`.  An unconstrained predicate gets the
constraint `I` itself; clipping to the interval of all rows leaves a constraint
as it is.  The result is the empty set of intervals, the unsatisfiable
constraint printed as `"" < row < ""`, exactly when every interval of the
constraint shares nothing with `I`, and no exception is involved.  The cases of
`clip_test` print as the test expects. -/
theorem ScanPredicate.clipRows_spec (p : ScanPredicate) (span : Interval Bytes) :
    (p.clipRows span).columns = p.columns ∧ (p.clipRows span).times = p.times ∧
    (p.clipRows span).history = p.history ∧
    (∀ row, (p.clipRows span).matchesRow row = (p.matchesRow row && span.contains row)) ∧
    (p.rows = none → span.isEmpty = false → (p.clipRows span).rows = some [span]) ∧
    (∀ s, p.rows = some s → (∀ i ∈ s, i.isEmpty = false) →
      (p.clipRows Interval.all).rows = some s) ∧
    ((p.clipRows span).rows = some [] ↔
      ∀ i ∈ p.rows.getD [Interval.all], (i.clip span).isEmpty = true) ∧
    ((p.clipRows span).rows = some [] → ∀ row, (p.clipRows span).matchesRow row = false) ∧
    formatStrings "row" [] = some "\"\" < row < \"\"" ∧
    (ScanPredicate.empty.clipRows (testSpan (some "bar") (some "foo"))).format =
      some "\"bar\" <= row < \"foo\"" ∧
    ((rowAbove "cat").clipRows (testSpan (some "bar") (some "foo"))).format =
      some "\"cat\" < row < \"foo\"" ∧
    (({ rowBelow "cat" with history := 3 } : ScanPredicate).clipRows
        (testSpan (some "bar") (some "foo"))).format =
      some "\"bar\" <= row < \"cat\" and history = 3" ∧
    ((rowBelow "cat").clipRows (testSpan none none)).format = some "row < \"cat\"" ∧
    ((rowAbove "cat").clipRows (testSpan none none)).format = some "row > \"cat\"" ∧
    ((rowAbove "cat").clipRows (testSpan none (some "dog"))).format =
      some "\"cat\" < row < \"dog\"" ∧
    ((rowBelow "rat").clipRows (testSpan (some "dog") none)).format =
      some "\"dog\" <= row < \"rat\"" ∧
    ((rowBelow "cat").clipRows (testSpan (some "dog") none)).format =
      some "\"\" < row < \"\"" := by
  refine ⟨rfl, rfl, rfl, ?_, ?_, ?_, ?_, ?_, ?_⟩
  · intro row
    simp only [ScanPredicate.matchesRow, ScanPredicate.clipRows, clipSet_any]
    cases p.rows with
    | none => simp [Interval.all, Interval.contains, Bound.isBelow, Bound.isAbove]
    | some s => rfl
  · intro hnone hne
    simp only [ScanPredicate.clipRows, hnone, Option.getD_none, clipSet, List.map_cons,
      List.map_nil, Option.some.injEq]
    have hclip : Interval.all.clip span = span := by
      cases span with
      | mk lo hi => cases lo <;> cases hi <;> rfl
    rw [hclip]
    simp [hne]
  · intro s hs hall
    simp only [ScanPredicate.clipRows, hs, Option.getD_some, clipSet_all s hall]
  · simp only [ScanPredicate.clipRows, Option.some.injEq, clipSet_eq_nil_iff]
  · intro hnil row
    simp only [ScanPredicate.matchesRow, hnil, List.any_nil]
  · repeat' apply And.intro
    all_goals decide

/-- C24: `getColumnFamilies`.  It returns false and no family for a predicate
without a constraint on columns.  With a constraint it returns true exactly
when every interval is an empty range or lies in one family; the families
returned are then the families of the intervals that are not empty, each once,
so that an empty range alone gives true with no family.  Otherwise it returns
false and no family.  An interval lies in a family when every column of it
begins with the family and ':': an equality or a prefix match on a string with
a ':' does, and so does a range whose ends share the family; a prefix match on
a string without ':', an interval without a lower or upper end and a range from
one family into another do not.  The cases of `column_family_test` come out as
the test expects, the empty range `'b' < column < 'a'` among them. -/
theorem ScanPredicate.getColumnFamilies_spec (p : ScanPredicate) :
    (p.columns = none → p.getColumnFamilies = (false, [])) ∧
    (∀ s, p.columns = some s →
      (p.getColumnFamilies.1 = true ↔ ∀ i ∈ s, i.isEmpty = true ∨ ∃ f, i.family = some f) ∧
      (p.getColumnFamilies.1 = true →
        p.getColumnFamilies.2.Nodup ∧
        ∀ f, f ∈ p.getColumnFamilies.2 ↔ ∃ i ∈ s, i.isEmpty = false ∧ i.family = some f) ∧
      (p.getColumnFamilies.1 = false → p.getColumnFamilies.2 = []) ∧
      (∀ i ∈ s, i.isEmpty = false → i.family = none → p.getColumnFamilies = (false, [])) ∧
      (∀ i ∈ s, i.lower = Bound.infinite ∨ i.upper = Bound.infinite →
        p.getColumnFamilies = (false, []))) ∧
    (∀ i : Interval Bytes, i.isEmpty = true →
      (onColumns [i]).getColumnFamilies = (true, [])) ∧
    (∀ (i : Interval Bytes) (f : Bytes), i.family = some f →
      ∀ c, i.contains c = true → (f ++ [58]) <+: c) ∧
    (∀ v : Bytes, (58 : Byte) ∈ v →
      (pointInterval v).family = some (v.takeWhile fun b => b ≠ 58) ∧
      (prefixInterval v).family = some (v.takeWhile fun b => b ≠ 58)) ∧
    (∀ v : Bytes, (58 : Byte) ∉ v →
      (pointInterval v).family = none ∧ (prefixInterval v).family = none) ∧
    (∀ (f l u : Bytes) (lower upper : Bound Bytes), (58 : Byte) ∉ f →
      lower = Bound.inclusive (f ++ 58 :: l) ∨ lower = Bound.exclusive (f ++ 58 :: l) →
      upper = Bound.inclusive (f ++ 58 :: u) ∨ upper = Bound.exclusive (f ++ 58 :: u) →
      Interval.family { lower := lower, upper := upper } = some f) ∧
    (∀ (f g l u : Bytes) (lower upper : Bound Bytes), (58 : Byte) ∉ f → (58 : Byte) ∉ g →
      f ≠ g →
      lower = Bound.inclusive (f ++ 58 :: l) ∨ lower = Bound.exclusive (f ++ 58 :: l) →
      upper = Bound.inclusive (g ++ 58 :: u) ∨ upper = Bound.exclusive (g ++ 58 :: u) →
      Interval.family { lower := lower, upper := upper } = none) ∧
    (∀ i : Interval Bytes, i.lower = Bound.infinite ∨ i.upper = Bound.infinite →
      i.family = none) ∧
    ScanPredicate.empty.getColumnFamilies = (false, []) ∧
    (onColumns []).getColumnFamilies = (true, []) ∧
    (onColumns [columnRange "b" false "a" false]).getColumnFamilies = (true, []) ∧
    (onColumns [pointInterval (bytesOf "source:whitelist")]).getColumnFamilies =
      (true, [bytesOf "source"]) ∧
    (onColumns [pointInterval (bytesOf "source:deepcrawl"),
        pointInterval (bytesOf "source:whitelist")]).getColumnFamilies =
      (true, [bytesOf "source"]) ∧
    (onColumns [pointInterval (bytesOf "depth:1"),
        pointInterval (bytesOf "source:whitelist")]).getColumnFamilies =
      (true, [bytesOf "depth", bytesOf "source"]) ∧
    (onColumns [prefixInterval (bytesOf "source:deepcrawl")]).getColumnFamilies =
      (true, [bytesOf "source"]) ∧
    (onColumns [prefixInterval (bytesOf "source:")]).getColumnFamilies =
      (true, [bytesOf "source"]) ∧
    (onColumns [prefixInterval (bytesOf "source")]).getColumnFamilies = (false, []) ∧
    (onColumns [{ lower := Bound.infinite,
                  upper := Bound.exclusive (bytesOf "source;") }]).getColumnFamilies =
      (false, []) ∧
    (onColumns [columnRange "source:" false "source;" false]).getColumnFamilies =
      (true, [bytesOf "source"]) ∧
    (onColumns [columnRange "source:a" false "source:d" false]).getColumnFamilies =
      (true, [bytesOf "source"]) ∧
    (onColumns [columnRange "source:a" true "source:d" false]).getColumnFamilies =
      (true, [bytesOf "source"]) ∧
    (onColumns [columnRange "source:a" false "source:d" true]).getColumnFamilies =
      (true, [bytesOf "source"]) ∧
    (onColumns [columnRange "source:a" true "source:d" true]).getColumnFamilies =
      (true, [bytesOf "source"]) ∧
    (onColumns [columnRange "source1:a" true "source2:d" true]).getColumnFamilies =
      (false, []) ∧
    (onColumns [{ lower := Bound.inclusive (bytesOf "source:whitelist"),
                  upper := Bound.infinite }]).getColumnFamilies = (false, []) ∧
    (onColumns [pointInterval (bytesOf "source:whitelist"),
        { lower := Bound.exclusive (bytesOf "zeta"),
          upper := Bound.infinite }]).getColumnFamilies = (false, []) := by
  refine ⟨?_, fun s hs => ?_, getColumnFamilies_of_isEmpty,
    fun i f h c hc => Interval.family_sound h c hc, ?_, ?_, ?_, ?_, family_unbounded, ?_⟩
  · intro h
    simp [ScanPredicate.getColumnFamilies, h]
  · obtain ⟨h₁, h₂, h₃⟩ := getColumnFamilies_of_some hs
    exact ⟨h₁, h₂, h₃, fun i hi hne hnone => getColumnFamilies_false_of hs hi hne hnone,
      fun i hi hinf => getColumnFamilies_false_of hs hi (isEmpty_of_unbounded i hinf)
        (family_unbounded i hinf)⟩
  · intro v hv
    rw [family_pointInterval, family_prefixInterval, if_pos hv]
    exact ⟨rfl, rfl⟩
  · intro v hv
    rw [family_pointInterval, family_prefixInterval, if_neg hv]
    exact ⟨rfl, rfl⟩
  · intro f l u lower upper hf hl hu
    rw [Interval.family_eq_some_iff]
    constructor
    · rcases hl with rfl | rfl <;> exact familyOfBound_of_prefix hf
    · have hp : (f ++ [58]).isPrefixOf (f ++ 58 :: u) = true :=
        List.isPrefixOf_iff_prefix.mpr ⟨u, by simp⟩
      rcases hu with rfl | rfl
      · exact hp
      · simp only [upperInFamily, hp, Bool.true_or]
  · intro f g l u lower upper hf hg hne hl hu
    have hlow : lowerFamily lower = some f := by
      rcases hl with rfl | rfl <;> exact familyOfBound_of_prefix hf
    have hup := upperInFamily_other (r := u) hf hg hne upper hu
    simp only [Interval.family, hlow, hup, Bool.false_eq_true, if_false]
  · repeat' apply And.intro
    all_goals decide

end Kdi
